import Mathlib

/-!
Shallow embedding of the adjacency-list traversal engine of the
soniakeys/graph repository (src/adj_RO.go, src/adj.go) together with the
FromList shortest-path-tree structure it produces.  The traversal code
(`BreadthFirst`, `DepthFirst`, `BoundsOk`, `IsUndirected`) is translated
from the Go source.  The FromList implementation itself is not part of the
provided sources (only its tests are), so those operations are modelled
from the specification, as marked in their doc comments.

Go slices indexed by the signed node type `NI` are modelled as `List`s
with an explicit signed-index read/write that returns a default (read)
or leaves the list unchanged (write) out of range; the Go code would
panic there, and every theorem below only evaluates these operations in
range.
-/

namespace Graph

/-- Node int `NI` (src/adj.go): node identifiers are signed integers
(`int32` in the source; the spec places graphs near the `int32` bound out
of scope, so we use unbounded integers). -/
abbrev NI := ℤ

/-- Read a list at a signed index, with a default value for
an out-of-range read. -/
def idx {α : Type} (d : α) (l : List α) (i : ℤ) : α :=
  if h : 0 ≤ i ∧ i.toNat < l.length then l.get ⟨i.toNat, h.2⟩ else d

/-- Write a list at a signed index; an out-of-range write leaves the list
unchanged. -/
def setIdx {α : Type} (l : List α) (i : ℤ) (a : α) : List α :=
  if 0 ≤ i ∧ i.toNat < l.length then l.set i.toNat a else l

/-- Dense bitset over node indices (the `bits.Bits` collaborator),
modelled as a boolean list. -/
abbrev Bitset := List Bool

/-- An adjacency list represents a graph as a list of neighbors for each
node (src/adj.go). -/
abbrev AdjacencyList := List (List NI)

/-- Arcs leaving node `n` of graph `g` (`g[n]` in the source). -/
def arcsOf (g : AdjacencyList) (n : NI) : List NI := idx [] g n

/-- PathEnd: one node's record in a FromList, the node it was reached
from (or -1) and the path length from the root counted in nodes. -/
structure PathEnd where
  From : NI
  Len : ℤ
  deriving Repr, DecidableEq

/-- The Go zero value of `PathEnd`. -/
def pzero : PathEnd := ⟨0, 0⟩

/-- FromList: the shortest-path-tree forest, one `PathEnd` per node of
the originating graph, plus the maximum depth of the producing traversal
and a leaves bitset (a recomputable cache). -/
structure FromList where
  Paths : List PathEnd
  Leaves : Bitset
  MaxLen : ℤ
  deriving Repr, DecidableEq

/-- Modelled from the spec: `NewFromList` (absent from the provided
sources) creates an empty FromList for a graph of order `n`, "all entries
zeroed, meaning no path found yet"; per the data model an unreached node
has parent -1 and length 0. -/
def NewFromList (n : ℕ) : FromList := ⟨List.replicate n ⟨-1, 0⟩, [], 0⟩

/-- Modelled from the spec: the traversal configuration record (absent
from the provided sources; its fields are exactly those the traversal
code in src/adj_RO.go reads).  Visitor callbacks are modelled as pure
functions of their own invocation history, the randomization source as a
permutation stream indexed by a draw counter. -/
structure Config where
  start : NI
  fromList : Option FromList
  visBits : Option Bitset
  pathBits : Option Bitset
  hasNodeVisitor : Bool
  okNodeVisitor : Option (List NI → NI → Bool)
  hasArcVisitor : Bool
  okArcVisitor : Option (List (NI × ℕ) → NI → ℕ → Bool)
  rand : Option (ℕ → ℕ → List ℕ)

/-- Initial configuration (`&config{start: start}` in the source). -/
def mkConfig (start : NI) : Config :=
  ⟨start, none, none, none, false, none, false, none, none⟩

/-- Modelled from the spec: the named traverse options (their
constructors are absent from the provided sources); each one sets the
corresponding configuration field. -/
inductive TraverseOption where
  | From (f : FromList)
  | NodeVisitor
  | OkNodeVisitor (v : List NI → NI → Bool)
  | ArcVisitor
  | OkArcVisitor (v : List (NI × ℕ) → NI → ℕ → Bool)
  | Visited (b : Bitset)
  | PathBits (b : Bitset)
  | Rand (r : ℕ → ℕ → List ℕ)

/-- Apply one traverse option to a configuration. -/
def applyOpt (c : Config) : TraverseOption → Config
  | .From f => { c with fromList := some f }
  | .NodeVisitor => { c with hasNodeVisitor := true }
  | .OkNodeVisitor v => { c with okNodeVisitor := some v }
  | .ArcVisitor => { c with hasArcVisitor := true }
  | .OkArcVisitor v => { c with okArcVisitor := some v }
  | .Visited b => { c with visBits := some b }
  | .PathBits b => { c with pathBits := some b }
  | .Rand r => { c with rand := some r }

/-- Fold the option list over the initial configuration, as the loop
`for _, o := range opt { o(cf) }` does. -/
def buildConfig (start : NI) (opts : List TraverseOption) : Config :=
  opts.foldl applyOpt (mkConfig start)

/-- BoundsOk (src/adj_RO.go): find the first arc pointing outside the
graph, scanning nodes and their arc lists in order. -/
def boundsFind (n : ℤ) : List (ℕ × List NI) → Option (NI × NI)
  | [] => none
  | (fr, tos) :: rest =>
    match tos.find? (fun t => decide (t < 0 ∨ n ≤ t)) with
    | some t => some ((fr : ℤ), t)
    | none => boundsFind n rest

/-- BoundsOk (src/adj_RO.go): validates that all arcs in `g` stay within
the slice bounds of `g`; returns false and an example bad arc otherwise
(the true case returns the zero value of the named result `to`). -/
def AdjacencyList.BoundsOk (g : AdjacencyList) : Bool × NI × NI :=
  match boundsFind (g.length : ℤ) g.enum with
  | some p => (false, p.1, p.2)
  | none => (true, -1, 0)

/-! Breadth-first traversal (src/adj_RO.go, `BreadthFirst`). -/

/-- Projection of the configuration onto the fields the `BreadthFirst`
source reads (`cf.start`, `cf.fromList`, `cf.nodeVisitor`,
`cf.okNodeVisitor`, `cf.rand`); the body of `BreadthFirst` in
src/adj_RO.go contains no other read of `cf`. -/
structure BfsConfig where
  start : NI
  fromList : Option FromList
  hasNodeVisitor : Bool
  okNodeVisitor : Option (List NI → NI → Bool)
  rand : Option (ℕ → ℕ → List ℕ)

/-- Project a configuration onto the `BreadthFirst` read set. -/
def Config.bfsTrim (c : Config) : BfsConfig :=
  ⟨c.start, c.fromList, c.hasNodeVisitor, c.okNodeVisitor, c.rand⟩

/-- Projection of the configuration onto the fields the frontier loop of
`BreadthFirst` reads (`cf.nodeVisitor`, `cf.okNodeVisitor`, `cf.rand`);
`cf.start` and `cf.fromList` are consumed before the loop starts. -/
structure BfsVisitCfg where
  hasNodeVisitor : Bool
  okNodeVisitor : Option (List NI → NI → Bool)
  rand : Option (ℕ → ℕ → List ℕ)

/-- Project a configuration onto the frontier-loop read set. -/
def BfsConfig.visitCfg (cf : BfsConfig) : BfsVisitCfg :=
  ⟨cf.hasNodeVisitor, cf.okNodeVisitor, cf.rand⟩

/-- Mutable state of one `BreadthFirst` call: the shared `rp = f.Paths`
slice, the `next` frontier being built, the visitor invocation traces,
the order of `PathEnd` writes, the frontiers processed so far, and the
randomization draw counter. -/
structure BfsState where
  rp : List PathEnd
  next : List NI
  nodeTrace : List NI
  okTrace : List (NI × Bool)
  writes : List NI
  frontiers : List (List NI)
  rctr : ℕ
  deriving Repr, DecidableEq

/-- One step of the arc scan of frontier node `n` at (incremented) level
`level`: an out-arc target with `Len == 0` is appended to `next` and
assigned `PathEnd{From: n, Len: level}`. -/
def bfsArcStep (level : ℤ) (n : NI) (st : BfsState) (nb : NI) : BfsState :=
  if (idx pzero st.rp nb).Len = 0 then
    { st with
      next := st.next ++ [nb]
      rp := setIdx st.rp nb ⟨n, level⟩
      writes := st.writes ++ [nb] }
  else st

/-- Arc scan of one frontier node,
the loop `for _, nb := range g[n]` of `BreadthFirst`. -/
def bfsArcs (g : AdjacencyList) (level : ℤ) (n : NI) (st : BfsState) : BfsState :=
  (arcsOf g n).foldl (bfsArcStep level n) st

/-- Record a node-visitor invocation when that callback is present. -/
def bfsTraceNode (cf : BfsVisitCfg) (st : BfsState) (n : NI) : BfsState :=
  if cf.hasNodeVisitor then { st with nodeTrace := st.nodeTrace ++ [n] } else st

/-- Visit one node coming off the frontier: invoke the node visitor and
the conditional node visitor (false aborts), then scan its arcs. -/
def bfsVisit (g : AdjacencyList) (cf : BfsVisitCfg) (level : ℤ) (st : BfsState) (n : NI) :
    BfsState × Bool :=
  let st1 := bfsTraceNode cf st n
  match cf.okNodeVisitor with
  | some v =>
    let r := v (st1.okTrace.map Prod.fst) n
    let st2 := { st1 with okTrace := st1.okTrace ++ [(n, r)] }
    if r then (bfsArcs g level n st2, true) else (st2, false)
  | none => (bfsArcs g level n st1, true)

/-- Process the nodes of one frontier in the given order, stopping when
a conditional visitor returns false. -/
def bfsFrontier (g : AdjacencyList) (cf : BfsVisitCfg) (level : ℤ) :
    List NI → BfsState → BfsState × Bool
  | [], st => (st, true)
  | n :: rest, st =>
    match bfsVisit g cf level st n with
    | (st', true) => bfsFrontier g cf level rest st'
    | (st', false) => (st', false)

/-- Processing order of a frontier: stored order, or the permutation
drawn from the randomization source (`cf.rand.Perm(len(frontier))`). -/
def frontierOrder (cf : BfsVisitCfg) (frontier : List NI) (rctr : ℕ) : List NI × ℕ :=
  match cf.rand with
  | none => (frontier, rctr)
  | some r => ((r rctr frontier.length).map (fun i => frontier.getD i (-1)), rctr + 1)

/-- Outer loop of `BreadthFirst`: set `f.MaxLen = level`, increment
`level`, process the frontier, then loop on the next frontier until it
is empty or a conditional visitor aborted.  The Go loop terminates
because every iteration past the first consumes unassigned nodes; fuel
`g.length + 1` is always sufficient (proved where needed). -/
def bfsLoop (g : AdjacencyList) (cf : BfsVisitCfg) :
    ℕ → ℤ → ℤ → List NI → BfsState → BfsState × ℤ
  | 0, _, maxLen, _, st => (st, maxLen)
  | fuel + 1, level, _, frontier, st =>
    let maxLen := level
    let level' := level + 1
    let p := frontierOrder cf frontier st.rctr
    let st0 := { st with rctr := p.2, next := [], frontiers := st.frontiers ++ [frontier] }
    match bfsFrontier g cf level' p.1 st0 with
    | (st', false) => (st', maxLen)
    | (st', true) =>
      if st'.next = [] then (st', maxLen) else bfsLoop g cf fuel level' maxLen st'.next st'

/-- Observable outcome of one `BreadthFirst` call: the final FromList
written through `cf.fromList` (or the freshly allocated one) and the
callback/write traces. -/
structure BfsOut where
  fl : FromList
  nodeTrace : List NI
  okTrace : List (NI × Bool)
  writes : List NI
  frontiers : List (List NI)
  deriving Repr, DecidableEq

/-- BreadthFirst (src/adj_RO.go): build the configuration, allocate the
output tree when absent or when its Paths slice is nil (modelled as the
empty list), record the root `PathEnd{Len: 1, From: -1}`, then run the
frontier loop. -/
def bfsRun (g : AdjacencyList) (cf : BfsConfig) : BfsOut :=
  let f := match cf.fromList with
    | none => NewFromList g.length
    | some f0 => if f0.Paths.isEmpty then NewFromList g.length else f0
  let rp := setIdx f.Paths cf.start ⟨-1, 1⟩
  let st : BfsState := ⟨rp, [], [], [], [cf.start], [], 0⟩
  let r := bfsLoop g cf.visitCfg (g.length + 1) 1 f.MaxLen [cf.start] st
  ⟨{ f with Paths := r.1.rp, MaxLen := r.2 }, r.1.nodeTrace, r.1.okTrace, r.1.writes,
    r.1.frontiers⟩

/-- BreadthFirst entry point: fold the options over the initial
configuration, then run on the fields the algorithm reads. -/
def AdjacencyList.BreadthFirst (g : AdjacencyList) (start : NI)
    (opt : List TraverseOption) : BfsOut :=
  bfsRun g (buildConfig start opt).bfsTrim

/-! Depth-first traversal (src/adj_RO.go, `DepthFirst`). -/

/-- Mutable state of one `DepthFirst` call: the visited bitset (the
caller's or a fresh one), the on-current-path bitset when that tracking
is enabled, the four visitor invocation traces, and the randomization
draw counter. -/
structure DfsState where
  visited : Bitset
  pathBits : Option Bitset
  nodeTrace : List NI
  okTrace : List (NI × Bool)
  arcTrace : List (NI × ℕ)
  okArcTrace : List (NI × ℕ × Bool)
  rctr : ℕ
  deriving Repr, DecidableEq

/-- Set or clear node `n` in the on-current-path bitset, when that
tracking is enabled (`cf.pathBits != nil` in the source). -/
def setPB (st : DfsState) (n : NI) (v : Bool) : DfsState :=
  match st.pathBits with
  | none => st
  | some pb => { st with pathBits := some (setIdx pb n v) }

/-- Order in which the `m` out-arcs of the current node are examined:
index order, or the permutation drawn from the randomization source
(`cf.rand.Perm(len(to))` in the source). -/
def arcIndexOrder (cf : Config) (m : ℕ) (rctr : ℕ) : List ℕ × ℕ :=
  match cf.rand with
  | none => (List.range m, rctr)
  | some r => (r rctr m, rctr + 1)

/-- Scan the out-arcs of `n` in the order given by the index list:
invoke the arc visitors (false aborts), skip already-visited targets,
and recurse via `rec` into unvisited ones (their abort propagates).
The recursive `df` call is passed in as `rec` so that the whole
traversal is structurally recursive on its fuel. -/
def dfArcs (g : AdjacencyList) (cf : Config)
    (rec : NI → DfsState → DfsState × Bool) (n : NI) :
    List ℕ → DfsState → DfsState × Bool
  | [], st => (st, true)
  | x :: rest, st =>
    let st1 := if cf.hasArcVisitor then { st with arcTrace := st.arcTrace ++ [(n, x)] }
      else st
    let k := fun (st2 : DfsState) =>
      let t := (arcsOf g n).getD x (-1)
      if idx false st2.visited t then dfArcs g cf rec n rest st2
      else
        match rec t st2 with
        | (st3, true) => dfArcs g cf rec n rest st3
        | (st3, false) => (st3, false)
    match cf.okArcVisitor with
    | some v =>
      let r := v (st1.okArcTrace.map (fun e => (e.1, e.2.1))) n x
      let st2 := { st1 with okArcTrace := st1.okArcTrace ++ [(n, x, r)] }
      if r then k st2 else (st2, false)
    | none => k st1

/-- Arc-processing phase of `df(n)`: draw the arc order, scan the arcs,
and on normal completion clear `n`'s on-current-path mark. -/
def dfBody (g : AdjacencyList) (cf : Config)
    (rec : NI → DfsState → DfsState × Bool) (n : NI) (st : DfsState) :
    DfsState × Bool :=
  let p := arcIndexOrder cf (arcsOf g n).length st.rctr
  match dfArcs g cf rec n p.1 { st with rctr := p.2 } with
  | (st', true) => (setPB st' n false, true)
  | (st', false) => (st', false)

/-- Body of one recursive `df(n)` call of `DepthFirst`: mark `n`
visited and on-path, invoke the node visitors (false aborts), then
process the out-arcs; the returned boolean is `df`'s abort signal, and
`rec` is the recursive `df` call. -/
def dfNodeF (g : AdjacencyList) (cf : Config)
    (rec : NI → DfsState → DfsState × Bool) (n : NI) (st : DfsState) :
    DfsState × Bool :=
  let st1 : DfsState := { st with visited := setIdx st.visited n true }
  let st2 := setPB st1 n true
  let st3 := if cf.hasNodeVisitor then { st2 with nodeTrace := st2.nodeTrace ++ [n] }
    else st2
  match cf.okNodeVisitor with
  | some v =>
    let r := v (st3.okTrace.map Prod.fst) n
    let st4 := { st3 with okTrace := st3.okTrace ++ [(n, r)] }
    if r then dfBody g cf rec n st4 else (st4, false)
  | none => dfBody g cf rec n st3

/-- The recursive `df` of `DepthFirst`, tied by recursion over the fuel
(exhausted fuel never occurs within the bounds condition). -/
def dfNode (g : AdjacencyList) (cf : Config) (fuel : ℕ) :
    NI → DfsState → DfsState × Bool :=
  Nat.rec (motive := fun _ => NI → DfsState → DfsState × Bool)
    (fun _ st => (st, false)) (fun _ rec => dfNodeF g cf rec) fuel

theorem dfNode_zero (g : AdjacencyList) (cf : Config) :
    dfNode g cf 0 = fun _ st => (st, false) := rfl

theorem dfNode_succ (g : AdjacencyList) (cf : Config) (fuel : ℕ) :
    dfNode g cf (fuel + 1) = dfNodeF g cf (dfNode g cf fuel) := rfl

/-- DepthFirst (src/adj_RO.go): build the configuration, take the
caller's visited bitset or a fresh one, return immediately when the
caller-supplied bitset already has the start bit set, otherwise clear
the on-current-path bitset and run `df(start)`.  Fuel `g.length + 1`
bounds the recursion depth; the Go recursion is within it whenever the
bounds condition holds (each nested call marks a fresh in-range node). -/
def AdjacencyList.DepthFirst (g : AdjacencyList) (start : NI)
    (options : List TraverseOption) : DfsState :=
  let cf := buildConfig start options
  let b0 := match cf.visBits with
    | none => List.replicate g.length false
    | some b => b
  let st0 : DfsState := ⟨b0, cf.pathBits, [], [], [], [], 0⟩
  if cf.visBits.isSome ∧ idx false b0 cf.start then st0
  else
    let st1 := { st0 with
      pathBits := st0.pathBits.map (fun pb => List.replicate pb.length false) }
    (dfNode g cf (g.length + 1) cf.start st1).1

/-! Basic lemmas about signed-index reads and writes. -/

theorem setIdx_length {α : Type} (l : List α) (i : ℤ) (a : α) :
    (setIdx l i a).length = l.length := by
  unfold setIdx; split <;> simp

theorem idx_setIdx_self {α : Type} (d : α) (l : List α) (i : ℤ) (a : α)
    (h0 : 0 ≤ i) (h1 : i.toNat < l.length) :
    idx d (setIdx l i a) i = a := by
  unfold idx setIdx
  rw [if_pos ⟨h0, h1⟩]
  have h1' : i.toNat < (l.set i.toNat a).length := by simpa using h1
  rw [dif_pos ⟨h0, h1'⟩]
  simp [List.get_eq_getElem, List.getElem_set_eq]

theorem idx_setIdx_ne {α : Type} (d : α) (l : List α) (i j : ℤ) (a : α)
    (hne : j ≠ i) : idx d (setIdx l i a) j = idx d l j := by
  unfold idx setIdx
  by_cases hi : 0 ≤ i ∧ i.toNat < l.length
  · rw [if_pos hi]
    by_cases hj : 0 ≤ j ∧ j.toNat < l.length
    · have hj' : 0 ≤ j ∧ j.toNat < (l.set i.toNat a).length := by simpa using hj
      rw [dif_pos hj', dif_pos hj]
      have hij : i.toNat ≠ j.toNat := by omega
      simp [List.get_eq_getElem, List.getElem_set_of_ne hij]
    · have hj' : ¬(0 ≤ j ∧ j.toNat < (l.set i.toNat a).length) := by simpa using hj
      rw [dif_neg hj', dif_neg hj]
  · rw [if_neg hi]

theorem idx_replicate {α : Type} (d a : α) (n : ℕ) (i : ℤ)
    (h0 : 0 ≤ i) (h1 : i.toNat < n) : idx d (List.replicate n a) i = a := by
  unfold idx
  rw [dif_pos ⟨h0, by simpa using h1⟩]
  simp [List.get_replicate]

theorem idx_out_of_range {α : Type} (d : α) (l : List α) (i : ℤ)
    (h : ¬(0 ≤ i ∧ i.toNat < l.length)) : idx d l i = d := by
  unfold idx; exact dif_neg h

/-! Configuration lemmas. -/

theorem applyOpt_start (c : Config) (o : TraverseOption) :
    (applyOpt c o).start = c.start := by
  cases o <;> rfl

theorem foldl_applyOpt_start (opts : List TraverseOption) (c : Config) :
    (opts.foldl applyOpt c).start = c.start := by
  induction opts generalizing c with
  | nil => rfl
  | cons o rest ih => rw [List.foldl_cons, ih, applyOpt_start]

theorem buildConfig_start (start : NI) (opts : List TraverseOption) :
    (buildConfig start opts).start = start :=
  foldl_applyOpt_start opts (mkConfig start)

/-- Claim C4: with a caller-supplied visited bitset whose start bit is
already set, DepthFirst is a no-op: it returns at once without invoking
any of the four visitor callbacks and without modifying the visited
bitset or the on-current-path bitset (in particular the on-current-path
bitset is not even cleared). -/
theorem depthFirst_start_visited_noop (g : AdjacencyList) (start : NI)
    (opts : List TraverseOption) (b : Bitset)
    (hb : (buildConfig start opts).visBits = some b)
    (hs : idx false b start = true) :
    g.DepthFirst start opts =
      ⟨b, (buildConfig start opts).pathBits, [], [], [], [], 0⟩ := by
  simp [AdjacencyList.DepthFirst, hb, buildConfig_start, hs]

/-- Witness for C4 at a concrete graph and bitset. -/
theorem depthFirst_start_visited_noop_witness :
    (buildConfig 0 [TraverseOption.Visited [true, false]]).visBits = some [true, false] ∧
    idx false [true, false] 0 = true ∧
    AdjacencyList.DepthFirst [[1], []] 0 [TraverseOption.Visited [true, false]] =
      ⟨[true, false], none, [], [], [], [], 0⟩ :=
  ⟨rfl, by decide,
    depthFirst_start_visited_noop [[1], []] 0 [TraverseOption.Visited [true, false]]
      [true, false] rfl (by decide)⟩

/-- Options listed as unsupported in the BreadthFirst doc comment of
src/adj_RO.go: ArcVisitor, OkArcVisitor, Visited, PathBits. -/
def TraverseOption.bfsUnsupported : TraverseOption → Prop
  | .ArcVisitor => True
  | .OkArcVisitor _ => True
  | .Visited _ => True
  | .PathBits _ => True
  | _ => False

theorem bfsTrim_applyOpt_unsupported (c : Config) (o : TraverseOption)
    (h : o.bfsUnsupported) : (applyOpt c o).bfsTrim = c.bfsTrim := by
  cases o with
  | ArcVisitor => rfl
  | OkArcVisitor v => rfl
  | Visited b => rfl
  | PathBits b => rfl
  | From f => exact h.elim
  | NodeVisitor => exact h.elim
  | OkNodeVisitor v => exact h.elim
  | Rand r => exact h.elim

theorem bfsTrim_applyOpt_congr (c c' : Config) (o : TraverseOption)
    (h : c.bfsTrim = c'.bfsTrim) :
    (applyOpt c o).bfsTrim = (applyOpt c' o).bfsTrim := by
  have h1 : c.start = c'.start := congrArg BfsConfig.start h
  have h2 : c.fromList = c'.fromList := congrArg BfsConfig.fromList h
  have h3 : c.hasNodeVisitor = c'.hasNodeVisitor := congrArg BfsConfig.hasNodeVisitor h
  have h4 : c.okNodeVisitor = c'.okNodeVisitor := congrArg BfsConfig.okNodeVisitor h
  have h5 : c.rand = c'.rand := congrArg BfsConfig.rand h
  cases o <;> simp only [applyOpt, Config.bfsTrim] <;> simp only [h1, h2, h3, h4, h5]

theorem bfsTrim_foldl_unsupported (extra : List TraverseOption) (c : Config)
    (h : ∀ o ∈ extra, o.bfsUnsupported) :
    (extra.foldl applyOpt c).bfsTrim = c.bfsTrim := by
  induction extra generalizing c with
  | nil => rfl
  | cons o rest ih =>
    rw [List.foldl_cons, ih _ (fun o' ho' => h o' (List.mem_cons_of_mem _ ho'))]
    exact bfsTrim_applyOpt_unsupported c o (h o (List.mem_cons_self _ _))

theorem bfsTrim_foldl_congr (opts : List TraverseOption) (c c' : Config)
    (h : c.bfsTrim = c'.bfsTrim) :
    (opts.foldl applyOpt c).bfsTrim = (opts.foldl applyOpt c').bfsTrim := by
  induction opts generalizing c c' with
  | nil => exact h
  | cons o rest ih => exact ih _ _ (bfsTrim_applyOpt_congr c c' o h)

/-- Claim C9: inserting the options unsupported by BreadthFirst
(ArcVisitor, OkArcVisitor, Visited, PathBits) anywhere in the option
list changes nothing observable about the call: the resulting FromList,
the node-visitor trace and the conditional-node-visitor trace are all
identical, and no rejection occurs (BreadthFirst is total on every
option list). -/
theorem breadthFirst_ignores_unsupported (g : AdjacencyList) (start : NI)
    (opts1 opts2 extra : List TraverseOption)
    (h : ∀ o ∈ extra, o.bfsUnsupported) :
    g.BreadthFirst start (opts1 ++ extra ++ opts2) =
      g.BreadthFirst start (opts1 ++ opts2) := by
  unfold AdjacencyList.BreadthFirst
  congr 1
  unfold buildConfig
  rw [List.foldl_append, List.foldl_append, List.foldl_append]
  exact bfsTrim_foldl_congr opts2 _ _ (bfsTrim_foldl_unsupported extra _ h)

/-- Witness for C9: adding an arc visitor flag and a visited bitset to a
concrete BFS call leaves the outcome unchanged. -/
theorem breadthFirst_ignores_unsupported_witness :
    (∀ o ∈ [TraverseOption.ArcVisitor, TraverseOption.Visited [true, true]],
      o.bfsUnsupported) ∧
    AdjacencyList.BreadthFirst [[1], []] 0
        ([] ++ [TraverseOption.ArcVisitor, TraverseOption.Visited [true, true]] ++ []) =
      AdjacencyList.BreadthFirst [[1], []] 0 ([] ++ []) := by
  have h : ∀ o ∈ [TraverseOption.ArcVisitor, TraverseOption.Visited [true, true]],
      o.bfsUnsupported := by
    intro o ho
    simp only [List.mem_cons, List.mem_singleton] at ho
    rcases ho with rfl | rfl | ho
    · trivial
    · trivial
    · exact absurd ho (List.not_mem_nil o)
  exact ⟨h, breadthFirst_ignores_unsupported [[1], []] 0 [] [] _ h⟩

/-! Frame invariants of the breadth-first loop: entries with nonzero
`Len` (other than newly written ones) are never overwritten, every write
targets a node whose `Len` was zero, and `writes`/`next` only grow. -/

theorem bfsArcs_fold_inv (level : ℤ) (n : NI) (l : List NI) :
    ∀ st : BfsState,
      (l.foldl (bfsArcStep level n) st).frontiers = st.frontiers ∧
      (l.foldl (bfsArcStep level n) st).nodeTrace = st.nodeTrace ∧
      (l.foldl (bfsArcStep level n) st).okTrace = st.okTrace ∧
      (l.foldl (bfsArcStep level n) st).rctr = st.rctr ∧
      (l.foldl (bfsArcStep level n) st).rp.length = st.rp.length ∧
      ∃ Δ : List NI,
        (l.foldl (bfsArcStep level n) st).next = st.next ++ Δ ∧
        (l.foldl (bfsArcStep level n) st).writes = st.writes ++ Δ ∧
        (∀ w ∈ Δ, (idx pzero st.rp w).Len = 0) ∧
        (∀ v, (idx pzero st.rp v).Len ≠ 0 →
          idx pzero (l.foldl (bfsArcStep level n) st).rp v = idx pzero st.rp v) := by
  induction l with
  | nil =>
    intro st
    exact ⟨rfl, rfl, rfl, rfl, rfl, [], by simp, by simp, by simp, fun v _ => rfl⟩
  | cons nb rest ih =>
    intro st
    rw [List.foldl_cons]
    by_cases h : (idx pzero st.rp nb).Len = 0
    · have hstep : bfsArcStep level n st nb = { st with
          next := st.next ++ [nb], rp := setIdx st.rp nb ⟨n, level⟩,
          writes := st.writes ++ [nb] } := by simp [bfsArcStep, h]
      rw [hstep]
      obtain ⟨h1, h2, h3, h4, h5, Δ, hn, hw, hΔ, hpres⟩ := ih _
      refine ⟨h1, h2, h3, h4, ?_, nb :: Δ, ?_, ?_, ?_, ?_⟩
      · rw [h5]; simp [setIdx_length]
      · rw [hn]; simp
      · rw [hw]; simp
      · intro w hw'
        rcases List.mem_cons.mp hw' with rfl | hw'
        · exact h
        · have hz := hΔ w hw'
          by_cases hwnb : w = nb
          · rw [hwnb]; exact h
          · rwa [idx_setIdx_ne _ _ _ _ _ hwnb] at hz
      · intro v hv
        have hvnb : v ≠ nb := fun he => hv (by rw [he]; exact h)
        have e1 : idx pzero (setIdx st.rp nb ⟨n, level⟩) v = idx pzero st.rp v :=
          idx_setIdx_ne _ _ _ _ _ hvnb
        rw [hpres v (by rw [e1]; exact hv), e1]
    · have hstep : bfsArcStep level n st nb = st := by simp [bfsArcStep, h]
      rw [hstep]; exact ih st

theorem bfsTraceNode_fields (cf : BfsVisitCfg) (st : BfsState) (n : NI) :
    (bfsTraceNode cf st n).rp = st.rp ∧ (bfsTraceNode cf st n).next = st.next ∧
    (bfsTraceNode cf st n).writes = st.writes ∧
    (bfsTraceNode cf st n).frontiers = st.frontiers ∧
    (bfsTraceNode cf st n).rctr = st.rctr ∧
    (bfsTraceNode cf st n).okTrace = st.okTrace := by
  unfold bfsTraceNode; split <;> exact ⟨rfl, rfl, rfl, rfl, rfl, rfl⟩

theorem bfsArcs_inv (g : AdjacencyList) (level : ℤ) (n : NI) (st s : BfsState)
    (h1 : s.rp = st.rp) (h2 : s.next = st.next) (h3 : s.writes = st.writes)
    (h4 : s.frontiers = st.frontiers) (h5 : s.rctr = st.rctr) :
    (bfsArcs g level n s).frontiers = st.frontiers ∧
    (bfsArcs g level n s).rctr = st.rctr ∧
    (bfsArcs g level n s).rp.length = st.rp.length ∧
    ∃ Δ : List NI,
      (bfsArcs g level n s).next = st.next ++ Δ ∧
      (bfsArcs g level n s).writes = st.writes ++ Δ ∧
      (∀ w ∈ Δ, (idx pzero st.rp w).Len = 0) ∧
      (∀ u, (idx pzero st.rp u).Len ≠ 0 →
        idx pzero (bfsArcs g level n s).rp u = idx pzero st.rp u) := by
  obtain ⟨f1, _, _, f4, f5, Δ, fn, fw, fΔ, fp⟩ := bfsArcs_fold_inv level n (arcsOf g n) s
  unfold bfsArcs
  refine ⟨f1.trans h4, f4.trans h5, by rw [f5, h1], Δ, ?_, ?_, ?_, ?_⟩
  · rw [fn, h2]
  · rw [fw, h3]
  · intro w hw; have := fΔ w hw; rwa [h1] at this
  · intro u hu
    have := fp u (by rw [h1]; exact hu)
    rwa [h1] at this

theorem bfsVisit_inv (g : AdjacencyList) (cf : BfsVisitCfg) (level : ℤ) (st : BfsState)
    (n : NI) :
    (bfsVisit g cf level st n).1.frontiers = st.frontiers ∧
    (bfsVisit g cf level st n).1.rctr = st.rctr ∧
    (bfsVisit g cf level st n).1.rp.length = st.rp.length ∧
    ∃ Δ : List NI,
      (bfsVisit g cf level st n).1.next = st.next ++ Δ ∧
      (bfsVisit g cf level st n).1.writes = st.writes ++ Δ ∧
      (∀ w ∈ Δ, (idx pzero st.rp w).Len = 0) ∧
      (∀ v, (idx pzero st.rp v).Len ≠ 0 →
        idx pzero (bfsVisit g cf level st n).1.rp v = idx pzero st.rp v) := by
  obtain ⟨e1, e2, e3, e4, e5, e6⟩ := bfsTraceNode_fields cf st n
  cases hok : cf.okNodeVisitor with
  | none =>
    simp only [bfsVisit, hok]
    exact bfsArcs_inv g level n st (bfsTraceNode cf st n) e1 e2 e3 e4 e5
  | some v =>
    simp only [bfsVisit, hok]
    by_cases hr : v ((bfsTraceNode cf st n).okTrace.map Prod.fst) n = true
    · rw [if_pos hr]
      exact bfsArcs_inv g level n st _ e1 e2 e3 e4 e5
    · rw [if_neg hr]
      exact ⟨e4, e5, by rw [show ({ bfsTraceNode cf st n with
          okTrace := (bfsTraceNode cf st n).okTrace ++
            [(n, v ((bfsTraceNode cf st n).okTrace.map Prod.fst) n)] } : BfsState).rp
          = st.rp from e1], [],
        by rw [List.append_nil]; exact e2, by rw [List.append_nil]; exact e3,
        by simp, fun u _ => by rw [show ({ bfsTraceNode cf st n with
          okTrace := (bfsTraceNode cf st n).okTrace ++
            [(n, v ((bfsTraceNode cf st n).okTrace.map Prod.fst) n)] } : BfsState).rp
          = st.rp from e1]⟩

theorem bfsFrontier_inv (g : AdjacencyList) (cf : BfsVisitCfg) (level : ℤ) :
    ∀ (ord : List NI) (st : BfsState),
      (bfsFrontier g cf level ord st).1.frontiers = st.frontiers ∧
      (bfsFrontier g cf level ord st).1.rctr = st.rctr ∧
      (bfsFrontier g cf level ord st).1.rp.length = st.rp.length ∧
      ∃ Δ : List NI,
        (bfsFrontier g cf level ord st).1.next = st.next ++ Δ ∧
        (bfsFrontier g cf level ord st).1.writes = st.writes ++ Δ ∧
        (∀ w ∈ Δ, (idx pzero st.rp w).Len = 0) ∧
        (∀ u, (idx pzero st.rp u).Len ≠ 0 →
          idx pzero (bfsFrontier g cf level ord st).1.rp u = idx pzero st.rp u) := by
  intro ord
  induction ord with
  | nil =>
    intro st
    exact ⟨rfl, rfl, rfl, [], by simp [bfsFrontier], by simp [bfsFrontier], by simp,
      fun v _ => rfl⟩
  | cons n rest ih =>
    intro st
    obtain ⟨h1, h2, h3, Δ₁, hn₁, hw₁, hΔ₁, hp₁⟩ := bfsVisit_inv g cf level st n
    rcases hbv : bfsVisit g cf level st n with ⟨st1, cont⟩
    rw [hbv] at h1 h2 h3 hn₁ hw₁ hp₁
    cases cont with
    | false =>
      simp only [bfsFrontier, hbv]
      exact ⟨h1, h2, h3, Δ₁, hn₁, hw₁, hΔ₁, hp₁⟩
    | true =>
      simp only [bfsFrontier, hbv]
      obtain ⟨g1, g2, g3, Δ₂, gn, gw, gΔ, gp⟩ := ih st1
      refine ⟨g1.trans h1, g2.trans h2, g3.trans h3, Δ₁ ++ Δ₂, ?_, ?_, ?_, ?_⟩
      · rw [gn, hn₁, List.append_assoc]
      · rw [gw, hw₁, List.append_assoc]
      · intro w hw
        rcases List.mem_append.mp hw with hmem | hmem
        · exact hΔ₁ w hmem
        · by_cases hz : (idx pzero st.rp w).Len = 0
          · exact hz
          · have hzz := gΔ w hmem
            rw [hp₁ w hz] at hzz
            exact hzz
      · intro u hu
        rw [gp u (by rw [hp₁ u hu]; exact hu), hp₁ u hu]

theorem bfsLoop_inv (g : AdjacencyList) (cf : BfsVisitCfg) :
    ∀ (fuel : ℕ) (level maxLen : ℤ) (frontier : List NI) (st : BfsState),
      (bfsLoop g cf fuel level maxLen frontier st).1.rp.length = st.rp.length ∧
      ∃ Δ F,
        (bfsLoop g cf fuel level maxLen frontier st).1.writes = st.writes ++ Δ ∧
        (∀ w ∈ Δ, (idx pzero st.rp w).Len = 0) ∧
        (∀ u, (idx pzero st.rp u).Len ≠ 0 →
          idx pzero (bfsLoop g cf fuel level maxLen frontier st).1.rp u =
            idx pzero st.rp u) ∧
        (bfsLoop g cf fuel level maxLen frontier st).1.frontiers = st.frontiers ++ F ∧
        (∀ fr ∈ F, ∀ w ∈ fr, w ∈ frontier ∨ w ∈ Δ) ∧
        ((bfsLoop g cf fuel level maxLen frontier st).2 =
          if F = [] then maxLen else level + (F.length : ℤ) - 1) ∧
        (F = [] → fuel = 0) := by
  intro fuel
  induction fuel with
  | zero =>
    intro level maxLen frontier st
    exact ⟨rfl, [], [], by simp [bfsLoop], by simp, fun u _ => rfl, by simp [bfsLoop],
      by simp, by simp [bfsLoop], fun _ => rfl⟩
  | succ fuel ih =>
    intro level maxLen frontier st
    simp only [bfsLoop]
    obtain ⟨h1, h2, h3, Δ₁, hn₁, hw₁, hΔ₁, hp₁⟩ :=
      bfsFrontier_inv g cf (level + 1) (frontierOrder cf frontier st.rctr).1
        { st with
          rctr := (frontierOrder cf frontier st.rctr).2
          next := []
          frontiers := st.frontiers ++ [frontier] }
    rcases hbf : bfsFrontier g cf (level + 1) (frontierOrder cf frontier st.rctr).1
        { st with
          rctr := (frontierOrder cf frontier st.rctr).2
          next := []
          frontiers := st.frontiers ++ [frontier] } with ⟨st1, cont⟩
    rw [hbf] at h1 h2 h3 hn₁ hw₁ hp₁
    have hfin : ∀ m : ℤ, m = level →
        (st1, m).1.rp.length = st.rp.length ∧
        ∃ Δ F,
          (st1, m).1.writes = st.writes ++ Δ ∧
          (∀ w ∈ Δ, (idx pzero st.rp w).Len = 0) ∧
          (∀ u, (idx pzero st.rp u).Len ≠ 0 →
            idx pzero (st1, m).1.rp u = idx pzero st.rp u) ∧
          (st1, m).1.frontiers = st.frontiers ++ F ∧
          (∀ fr ∈ F, ∀ w ∈ fr, w ∈ frontier ∨ w ∈ Δ) ∧
          ((st1, m).2 = if F = [] then maxLen else level + (F.length : ℤ) - 1) ∧
          (F = [] → fuel + 1 = 0) := by
      intro m hm
      refine ⟨h3, Δ₁, [frontier], hw₁, hΔ₁, hp₁, h1, ?_, ?_, ?_⟩
      · intro fr hfr w hwfr
        rw [List.mem_singleton] at hfr
        rw [hfr] at hwfr
        exact Or.inl hwfr
      · simp only [List.length_singleton]
        rw [if_neg (by simp)]
        omega
      · intro hF; exact absurd hF (by simp)
    cases cont with
    | false => exact hfin level rfl
    | true =>
      by_cases hnext : st1.next = []
      · simp only [hnext, if_true]
        exact hfin level rfl
      · simp only [if_neg hnext]
        obtain ⟨g1, Δ₂, F₂, gw, gΔ, gp, gf, gcond, gm, gfuel⟩ := ih (level + 1) level st1.next st1
        refine ⟨g1.trans h3, Δ₁ ++ Δ₂, frontier :: F₂, ?_, ?_, ?_, ?_, ?_, ?_, ?_⟩
        · rw [gw, hw₁, List.append_assoc]
        · intro w hw
          rcases List.mem_append.mp hw with hmem | hmem
          · exact hΔ₁ w hmem
          · by_cases hz : (idx pzero st.rp w).Len = 0
            · exact hz
            · have hzz := gΔ w hmem
              rw [hp₁ w hz] at hzz
              exact hzz
        · intro u hu
          rw [gp u (by rw [hp₁ u hu]; exact hu), hp₁ u hu]
        · rw [gf, h1, List.append_assoc]; rfl
        · intro fr hfr w hwfr
          rcases List.mem_cons.mp hfr with rfl | hfr
          · exact Or.inl hwfr
          · rcases gcond fr hfr w hwfr with hmem | hmem
            · -- the node lies on a later frontier built from `next`, so it was written
              rw [hn₁] at hmem
              simp only [List.nil_append] at hmem
              exact Or.inr (List.mem_append_left _ hmem)
            · exact Or.inr (List.mem_append_right _ hmem)
        · rw [gm]
          by_cases hF : F₂ = []
          · rw [if_pos hF, if_neg (by simp), hF]
            simp only [List.length_cons, List.length_nil]
            omega
          · rw [if_neg hF, if_neg (by simp)]
            simp only [List.length_cons]
            push_cast
            omega
        · intro hF; exact absurd hF (by simp)

/-- Unfolding of `bfsRun` when the caller supplies a FromList whose
Paths slice is non-nil: the supplied tree is used as is. -/
theorem bfsRun_some (g : AdjacencyList) (cf : BfsConfig) (f : FromList)
    (hf : cf.fromList = some f) (hne : f.Paths ≠ []) :
    bfsRun g cf =
      ⟨{ f with
          Paths := (bfsLoop g cf.visitCfg (g.length + 1) 1 f.MaxLen [cf.start]
            ⟨setIdx f.Paths cf.start ⟨-1, 1⟩, [], [], [], [cf.start], [], 0⟩).1.rp
          MaxLen := (bfsLoop g cf.visitCfg (g.length + 1) 1 f.MaxLen [cf.start]
            ⟨setIdx f.Paths cf.start ⟨-1, 1⟩, [], [], [], [cf.start], [], 0⟩).2 },
        (bfsLoop g cf.visitCfg (g.length + 1) 1 f.MaxLen [cf.start]
          ⟨setIdx f.Paths cf.start ⟨-1, 1⟩, [], [], [], [cf.start], [], 0⟩).1.nodeTrace,
        (bfsLoop g cf.visitCfg (g.length + 1) 1 f.MaxLen [cf.start]
          ⟨setIdx f.Paths cf.start ⟨-1, 1⟩, [], [], [], [cf.start], [], 0⟩).1.okTrace,
        (bfsLoop g cf.visitCfg (g.length + 1) 1 f.MaxLen [cf.start]
          ⟨setIdx f.Paths cf.start ⟨-1, 1⟩, [], [], [], [cf.start], [], 0⟩).1.writes,
        (bfsLoop g cf.visitCfg (g.length + 1) 1 f.MaxLen [cf.start]
          ⟨setIdx f.Paths cf.start ⟨-1, 1⟩, [], [], [], [cf.start], [], 0⟩).1.frontiers⟩ := by
  have hP : f.Paths.isEmpty = false := by
    cases hc : f.Paths
    · exact absurd hc hne
    · rfl
  unfold bfsRun
  rw [hf]
  simp only [hP, Bool.false_eq_true, if_false]

/-- The Go loop never reads the incoming value of `f.MaxLen` once it has
entered its first iteration: the loop output is the same for any two
initial `maxLen` values as long as at least one iteration runs. -/
theorem bfsLoop_maxLen_irrel (g : AdjacencyList) (cf : BfsVisitCfg) (fuel : ℕ)
    (hfuel : fuel ≠ 0) (level m₁ m₂ : ℤ) (frontier : List NI) (st : BfsState) :
    bfsLoop g cf fuel level m₁ frontier st = bfsLoop g cf fuel level m₂ frontier st := by
  cases fuel with
  | zero => exact absurd rfl hfuel
  | succ fuel => rfl

/-- Claim C3: with a caller-supplied FromList whose Paths slice is
non-nil, BreadthFirst does not reallocate or reset it: every node other
than the start whose entry already has nonzero Len keeps its exact
PathEnd entry across the call and never appears on any frontier
(results accumulate instead of resetting). -/
theorem breadthFirst_accumulates (g : AdjacencyList) (start : NI)
    (opts : List TraverseOption) (f : FromList)
    (hf : (buildConfig start opts).fromList = some f)
    (hne : f.Paths ≠ [])
    (v : NI) (hv : v ≠ start)
    (hval : (idx pzero f.Paths v).Len ≠ 0) :
    idx pzero (g.BreadthFirst start opts).fl.Paths v = idx pzero f.Paths v ∧
    ∀ fr ∈ (g.BreadthFirst start opts).frontiers, v ∉ fr := by
  have htf : (buildConfig start opts).bfsTrim.fromList = some f := hf
  have hrun : g.BreadthFirst start opts = bfsRun g (buildConfig start opts).bfsTrim := rfl
  rw [hrun, bfsRun_some g _ f htf hne]
  set cf := (buildConfig start opts).bfsTrim with hcf
  set st0 : BfsState :=
    ⟨setIdx f.Paths cf.start ⟨-1, 1⟩, [], [], [], [cf.start], [], 0⟩ with hst0
  obtain ⟨_, Δ, F, hwr, hΔ, hpres, hfr, hcond, _, _⟩ :=
    bfsLoop_inv g cf.visitCfg (g.length + 1) 1 f.MaxLen [cf.start] st0
  have hstart : cf.start = start := buildConfig_start start opts
  have hinit : idx pzero st0.rp v = idx pzero f.Paths v := by
    rw [hst0]
    exact idx_setIdx_ne _ _ _ _ _ (by rw [hstart]; exact hv)
  constructor
  · have := hpres v (by rw [hinit]; exact hval)
    rw [this, hinit]
  · intro fr hfrmem hvfr
    rw [hfr] at hfrmem
    simp only [hst0] at hfrmem
    rw [List.nil_append] at hfrmem
    rcases hcond fr hfrmem v hvfr with hmem | hmem
    · rw [List.mem_singleton] at hmem
      rw [hstart] at hmem
      exact hv hmem
    · have := hΔ v hmem
      rw [hinit] at this
      exact hval this

/-- Claim C10: every BreadthFirst call against a caller-supplied
FromList unconditionally overwrites the start entry with
PathEnd(From = -1, Len = 1), sets MaxLen at return to the depth of the
deepest frontier processed by this call alone (the number of frontiers),
and that value does not depend on the MaxLen recorded by a previous call
on the same tree. -/
theorem breadthFirst_root_and_maxlen (g : AdjacencyList) (start : NI)
    (opts : List TraverseOption) (f : FromList)
    (hf : (buildConfig start opts).fromList = some f)
    (hne : f.Paths ≠ [])
    (hlen : f.Paths.length = g.length)
    (h0 : 0 ≤ start) (h1 : start.toNat < g.length) :
    idx pzero (g.BreadthFirst start opts).fl.Paths start = ⟨-1, 1⟩ ∧
    (g.BreadthFirst start opts).fl.MaxLen =
      ((g.BreadthFirst start opts).frontiers.length : ℤ) ∧
    ∀ m : ℤ,
      bfsRun g
        { (buildConfig start opts).bfsTrim with fromList := some { f with MaxLen := m } } =
      g.BreadthFirst start opts := by
  have htf : (buildConfig start opts).bfsTrim.fromList = some f := hf
  have hrun : g.BreadthFirst start opts = bfsRun g (buildConfig start opts).bfsTrim := rfl
  have hstart : (buildConfig start opts).bfsTrim.start = start :=
    buildConfig_start start opts
  refine ⟨?_, ?_, ?_⟩
  · rw [hrun, bfsRun_some g _ f htf hne]
    set cf := (buildConfig start opts).bfsTrim with hcf
    set st0 : BfsState :=
      ⟨setIdx f.Paths cf.start ⟨-1, 1⟩, [], [], [], [cf.start], [], 0⟩ with hst0
    obtain ⟨_, Δ, F, hwr, hΔ, hpres, hfr, hcond, _, _⟩ :=
      bfsLoop_inv g cf.visitCfg (g.length + 1) 1 f.MaxLen [cf.start] st0
    have hinit : idx pzero st0.rp start = ⟨-1, 1⟩ := by
      rw [hst0]
      simp only [hstart]
      exact idx_setIdx_self _ _ _ _ h0 (by rw [hlen]; exact h1)
    have hnz : (idx pzero st0.rp start).Len ≠ 0 := by rw [hinit]; exact one_ne_zero
    have := hpres start hnz
    rw [this, hinit]
  · rw [hrun, bfsRun_some g _ f htf hne]
    set cf := (buildConfig start opts).bfsTrim with hcf
    set st0 : BfsState :=
      ⟨setIdx f.Paths cf.start ⟨-1, 1⟩, [], [], [], [cf.start], [], 0⟩ with hst0
    obtain ⟨_, Δ, F, hwr, hΔ, hpres, hfr, hcond, hm, hF0⟩ :=
      bfsLoop_inv g cf.visitCfg (g.length + 1) 1 f.MaxLen [cf.start] st0
    have hFne : F ≠ [] := fun hc => by simpa using hF0 hc
    rw [hm, if_neg hFne, hfr]
    simp only [hst0]
    rw [List.nil_append]
    omega
  · intro m
    rw [hrun, bfsRun_some g _ f htf hne,
      bfsRun_some g { (buildConfig start opts).bfsTrim with
        fromList := some { f with MaxLen := m } } { f with MaxLen := m } rfl hne]
    rw [bfsLoop_maxLen_irrel g _ (g.length + 1) (Nat.succ_ne_zero _) 1 m f.MaxLen]
    rfl

/-- Witness for C3: a prior entry for node 1 (Len 7) survives a second
BFS call into the same tree and node 1 is never on a frontier. -/
theorem breadthFirst_accumulates_witness :
    ((buildConfig 0 [TraverseOption.From ⟨[⟨-1, 0⟩, ⟨0, 7⟩], [], 0⟩]).fromList =
      some ⟨[⟨-1, 0⟩, ⟨0, 7⟩], [], 0⟩) ∧
    (([⟨-1, 0⟩, ⟨0, 7⟩] : List PathEnd) ≠ []) ∧
    ((1 : NI) ≠ 0) ∧
    ((idx pzero [⟨-1, 0⟩, ⟨0, 7⟩] 1).Len ≠ 0) ∧
    (idx pzero (AdjacencyList.BreadthFirst [[1], []] 0
        [TraverseOption.From ⟨[⟨-1, 0⟩, ⟨0, 7⟩], [], 0⟩]).fl.Paths 1 =
      idx pzero [⟨-1, 0⟩, ⟨0, 7⟩] 1 ∧
      ∀ fr ∈ (AdjacencyList.BreadthFirst [[1], []] 0
        [TraverseOption.From ⟨[⟨-1, 0⟩, ⟨0, 7⟩], [], 0⟩]).frontiers, (1 : NI) ∉ fr) :=
  ⟨rfl, by decide, by decide, by decide,
    breadthFirst_accumulates [[1], []] 0
      [TraverseOption.From ⟨[⟨-1, 0⟩, ⟨0, 7⟩], [], 0⟩] ⟨[⟨-1, 0⟩, ⟨0, 7⟩], [], 0⟩
      rfl (by decide) 1 (by decide) (by decide)⟩

/-- Witness for C10: a tree recording a path to the start node and
MaxLen 9 has its start entry overwritten and its MaxLen replaced by the
depth of this call alone. -/
theorem breadthFirst_root_and_maxlen_witness :
    ((buildConfig 0 [TraverseOption.From ⟨[⟨0, 5⟩, ⟨0, 7⟩], [], 9⟩]).fromList =
      some ⟨[⟨0, 5⟩, ⟨0, 7⟩], [], 9⟩) ∧
    (([⟨0, 5⟩, ⟨0, 7⟩] : List PathEnd) ≠ []) ∧
    (([⟨0, 5⟩, ⟨0, 7⟩] : List PathEnd).length = ([[1], []] : AdjacencyList).length) ∧
    ((0 : ℤ) ≤ 0) ∧ ((0 : ℤ).toNat < ([[1], []] : AdjacencyList).length) ∧
    (idx pzero (AdjacencyList.BreadthFirst [[1], []] 0
        [TraverseOption.From ⟨[⟨0, 5⟩, ⟨0, 7⟩], [], 9⟩]).fl.Paths 0 = ⟨-1, 1⟩) ∧
    ((AdjacencyList.BreadthFirst [[1], []] 0
        [TraverseOption.From ⟨[⟨0, 5⟩, ⟨0, 7⟩], [], 9⟩]).fl.MaxLen =
      ((AdjacencyList.BreadthFirst [[1], []] 0
        [TraverseOption.From ⟨[⟨0, 5⟩, ⟨0, 7⟩], [], 9⟩]).frontiers.length : ℤ)) ∧
    (bfsRun [[1], []]
        { (buildConfig 0 [TraverseOption.From ⟨[⟨0, 5⟩, ⟨0, 7⟩], [], 9⟩]).bfsTrim with
          fromList := some { (⟨[⟨0, 5⟩, ⟨0, 7⟩], [], 9⟩ : FromList) with MaxLen := 3 } } =
      AdjacencyList.BreadthFirst [[1], []] 0
        [TraverseOption.From ⟨[⟨0, 5⟩, ⟨0, 7⟩], [], 9⟩]) := by
  have h := breadthFirst_root_and_maxlen [[1], []] 0
    [TraverseOption.From ⟨[⟨0, 5⟩, ⟨0, 7⟩], [], 9⟩] ⟨[⟨0, 5⟩, ⟨0, 7⟩], [], 9⟩
    rfl (by decide) (by decide) (by decide) (by decide)
  exact ⟨rfl, by decide, by decide, by decide, by decide, h.1, h.2.1, h.2.2 3⟩

/-! Claim C2 setup: a conditional node visitor that returns false on its
third invocation, and the invariant of the DFS recursion under it. -/

/-- Conditional node visitor returning false on the third node visited
(true while fewer than two earlier invocations are on record). -/
def okvThird : List NI → NI → Bool := fun hist _ => decide (hist.length < 2)

/-- Fold a list of nodes into a bitset, marking each one visited. -/
def marks (b : Bitset) (l : List NI) : Bitset :=
  l.foldl (fun b n => setIdx b n true) b

/-- Precondition of the DFS recursion under `okvThird`: the recorded
results so far follow the visitor's pattern, at most two invocations are
on record (the traversal is not yet aborted), and on-current-path
tracking is off. -/
def C2Pre (st : DfsState) : Prop :=
  st.okTrace.map Prod.snd =
    (List.range st.okTrace.length).map (fun i => decide (i < 2)) ∧
  st.okTrace.length ≤ 2 ∧ st.pathBits = none

/-- Postcondition of one DFS recursion step under `okvThird`: the
conditional-visitor trace grows by some `Δ` whose nodes are exactly the
newly marked bits, results keep the visitor's pattern, at most three
invocations ever happen, a true return means the abort has not happened,
and nothing else in the state changes. -/
def C2Post (st st' : DfsState) (r : Bool) : Prop :=
  (∃ Δ : List (NI × Bool), st'.okTrace = st.okTrace ++ Δ ∧
    st'.visited = marks st.visited (Δ.map Prod.fst)) ∧
  st'.okTrace.map Prod.snd =
    (List.range st'.okTrace.length).map (fun i => decide (i < 2)) ∧
  st'.okTrace.length ≤ 3 ∧ (r = true → st'.okTrace.length ≤ 2) ∧
  st'.pathBits = st.pathBits ∧ st'.nodeTrace = st.nodeTrace ∧
  st'.arcTrace = st.arcTrace ∧ st'.okArcTrace = st.okArcTrace ∧ st'.rctr = st.rctr

theorem c2post_comp (st st1 st' : DfsState) (r : Bool)
    (h1 : C2Post st st1 true) (h2 : C2Post st1 st' r) : C2Post st st' r := by
  obtain ⟨⟨Δ₁, ht₁, hv₁⟩, hg₁, hl₁, hr₁, hp₁, hn₁, ha₁, hoa₁, hc₁⟩ := h1
  obtain ⟨⟨Δ₂, ht₂, hv₂⟩, hg₂, hl₂, hr₂, hp₂, hn₂, ha₂, hoa₂, hc₂⟩ := h2
  refine ⟨⟨Δ₁ ++ Δ₂, ?_, ?_⟩, hg₂, hl₂, hr₂, hp₂.trans hp₁, hn₂.trans hn₁,
    ha₂.trans ha₁, hoa₂.trans hoa₁, hc₂.trans hc₁⟩
  · rw [ht₂, ht₁, List.append_assoc]
  · rw [hv₂, hv₁, List.map_append]
    unfold marks
    rw [List.foldl_append]

theorem c2pre_of_post (st st1 : DfsState) (h0 : C2Pre st) (h : C2Post st st1 true) :
    C2Pre st1 :=
  ⟨h.2.1, h.2.2.2.1 rfl, h.2.2.2.2.1.trans h0.2.2⟩

/-- The DFS state invariant under `okvThird`, proved for `dfNode` and
`dfArcs` simultaneously by induction on the fuel. -/
theorem setPB_none (st : DfsState) (n : NI) (v : Bool) (h : st.pathBits = none) :
    setPB st n v = st := by
  unfold setPB
  rw [h]

theorem c2_df_inv (g : AdjacencyList) (cf : Config)
    (hnv : cf.hasNodeVisitor = false) (hok : cf.okNodeVisitor = some okvThird)
    (hav : cf.hasArcVisitor = false) (hoak : cf.okArcVisitor = none)
    (hrand : cf.rand = none) :
    ∀ fuel : ℕ,
      (∀ (n : NI) (st : DfsState), C2Pre st →
        C2Post st (dfNode g cf fuel n st).1 (dfNode g cf fuel n st).2) ∧
      (∀ (xs : List ℕ) (n : NI) (st : DfsState), C2Pre st →
        C2Post st (dfArcs g cf (dfNode g cf fuel) n xs st).1 (dfArcs g cf (dfNode g cf fuel) n xs st).2) := by
  have post_rfl : ∀ (st : DfsState) (r : Bool), C2Pre st → C2Post st st r := by
    intro st r hpre
    exact ⟨⟨[], by simp, by simp [marks]⟩, hpre.1, hpre.2.1.trans (by omega),
      fun _ => hpre.2.1, rfl, rfl, rfl, rfl, rfl⟩
  -- the state after marking the node and recording the visitor invocation
  have post_one : ∀ (n : NI) (st : DfsState), C2Pre st →
      C2Post st
        { st with visited := setIdx st.visited n true
                  okTrace := st.okTrace ++ [(n, decide (st.okTrace.length < 2))] }
        (decide (st.okTrace.length < 2)) := by
    intro n st hpre
    obtain ⟨hgood, hlen, hpb⟩ := hpre
    refine ⟨⟨[(n, decide (st.okTrace.length < 2))], rfl, by simp [marks]⟩, ?_, ?_, ?_,
      rfl, rfl, rfl, rfl, rfl⟩
    · simp only [List.map_append, List.length_append, List.length_singleton,
        List.range_succ, hgood, List.map_cons, List.map_nil]
    · simp only [List.length_append, List.length_singleton]
      omega
    · intro hr
      simp only [List.length_append, List.length_singleton]
      simp only [decide_eq_true_eq] at hr
      omega
  -- arc scanning preserves the invariant whenever node entry does
  have arcs_step : ∀ fuel : ℕ,
      (∀ (n : NI) (st : DfsState), C2Pre st →
        C2Post st (dfNode g cf fuel n st).1 (dfNode g cf fuel n st).2) →
      ∀ (xs : List ℕ) (n : NI) (st : DfsState), C2Pre st →
        C2Post st (dfArcs g cf (dfNode g cf fuel) n xs st).1 (dfArcs g cf (dfNode g cf fuel) n xs st).2 := by
    intro fuel hnode xs
    induction xs with
    | nil =>
      intro n st hpre
      simp only [dfArcs]
      exact post_rfl st true hpre
    | cons x rest ihxs =>
      intro n st hpre
      simp only [dfArcs, hav, hoak, Bool.false_eq_true, if_false]
      by_cases hvis : idx false st.visited ((arcsOf g n).getD x (-1)) = true
      · rw [if_pos hvis]
        exact ihxs n st hpre
      · rw [if_neg hvis]
        beta_reduce
        rcases hdn : dfNode g cf fuel ((arcsOf g n).getD x (-1)) st with ⟨st3, r3⟩
        have hpost := hnode ((arcsOf g n).getD x (-1)) st hpre
        rw [hdn] at hpost
        cases r3 with
        | true =>
          exact c2post_comp st st3 _ _ hpost (ihxs n st3 (c2pre_of_post st st3 hpre hpost))
        | false =>
          exact hpost
  -- entering a node preserves the invariant given the arcs invariant one
  -- fuel level down
  have node_step : ∀ fuel : ℕ,
      (∀ (xs : List ℕ) (n : NI) (st : DfsState), C2Pre st →
        C2Post st (dfArcs g cf (dfNode g cf fuel) n xs st).1 (dfArcs g cf (dfNode g cf fuel) n xs st).2) →
      ∀ (n : NI) (st : DfsState), C2Pre st →
        C2Post st (dfNode g cf (fuel + 1) n st).1 (dfNode g cf (fuel + 1) n st).2 := by
    intro fuel harcs n st hpre
    have hpb : st.pathBits = none := hpre.2.2
    have hpost1 : C2Post st
        { st with visited := setIdx st.visited n true
                  okTrace := st.okTrace ++ [(n, decide (st.okTrace.length < 2))] }
        (decide (st.okTrace.length < 2)) := post_one n st hpre
    rw [dfNode_succ]
    simp only [dfNodeF, hnv, hok, Bool.false_eq_true, if_false]
    rw [setPB_none { st with visited := setIdx st.visited n true } n true hpb]
    simp only [okvThird, List.length_map]
    by_cases hk : st.okTrace.length < 2
    · have hr0 : decide (st.okTrace.length < 2) = true := by simpa using hk
      rw [hr0] at hpost1 ⊢
      rw [if_pos rfl]
      have hpre4 : C2Pre
          { st with visited := setIdx st.visited n true
                    okTrace := st.okTrace ++ [(n, true)] } :=
        c2pre_of_post st _ hpre hpost1
      simp only [dfBody, hrand, arcIndexOrder]
      beta_reduce
      rcases hda : dfArcs g cf (dfNode g cf fuel) n (List.range (arcsOf g n).length)
          { st with visited := setIdx st.visited n true
                    okTrace := st.okTrace ++ [(n, true)] }
        with ⟨st5, r5⟩
      have hpost2 := harcs (List.range (arcsOf g n).length) n
        { st with visited := setIdx st.visited n true
                  okTrace := st.okTrace ++ [(n, true)] } hpre4
      rw [hda] at hpost2
      cases r5 with
      | true =>
        have hpb5 : st5.pathBits = none := by
          rw [hpost2.2.2.2.2.1]
          exact hpre4.2.2
        show C2Post st (setPB st5 n false) true
        rw [setPB_none st5 n false hpb5]
        exact c2post_comp st _ st5 true hpost1 hpost2
      | false =>
        show C2Post st st5 false
        exact c2post_comp st _ st5 false hpost1 hpost2
    · have hr0 : decide (st.okTrace.length < 2) = false := by simpa using hk
      rw [hr0] at hpost1 ⊢
      rw [if_neg (by simp)]
      exact hpost1
  intro fuel
  induction fuel with
  | zero =>
    have hnode0 : ∀ (n : NI) (st : DfsState), C2Pre st →
        C2Post st (dfNode g cf 0 n st).1 (dfNode g cf 0 n st).2 := by
      intro n st hpre
      exact post_rfl st false hpre
    exact ⟨hnode0, arcs_step 0 hnode0⟩
  | succ fuel ih =>
    exact ⟨node_step fuel ih.2, arcs_step (fuel + 1) (node_step fuel ih.2)⟩

/-- Claim C2: DepthFirst with a conditional node visitor that returns
false on the third node visited invokes the visitor on exactly three
nodes, the first two invocations returning true and the third false (so
it is invoked exactly twice before the stopping invocation); the visited
bitset ends with exactly the three visited nodes marked (each node is
marked before its conditional check runs, so the third node is marked
too), and no further node is visited or callback invoked after the false
return.  The hypothesis states that the scenario applies: the traversal
does reach a third node. -/
theorem depthFirst_third_visit_stops (g : AdjacencyList) (start : NI)
    (h3 : 3 ≤ (g.DepthFirst start [TraverseOption.OkNodeVisitor okvThird]).okTrace.length) :
    (g.DepthFirst start [TraverseOption.OkNodeVisitor okvThird]).okTrace.length = 3 ∧
    (g.DepthFirst start [TraverseOption.OkNodeVisitor okvThird]).okTrace.map Prod.snd =
      [true, true, false] ∧
    (g.DepthFirst start [TraverseOption.OkNodeVisitor okvThird]).visited =
      marks (List.replicate g.length false)
        ((g.DepthFirst start [TraverseOption.OkNodeVisitor okvThird]).okTrace.map
          Prod.fst) ∧
    (g.DepthFirst start [TraverseOption.OkNodeVisitor okvThird]).nodeTrace = [] ∧
    (g.DepthFirst start [TraverseOption.OkNodeVisitor okvThird]).arcTrace = [] ∧
    (g.DepthFirst start [TraverseOption.OkNodeVisitor okvThird]).okArcTrace = [] := by
  have hD : g.DepthFirst start [TraverseOption.OkNodeVisitor okvThird] =
      (dfNode g (buildConfig start [TraverseOption.OkNodeVisitor okvThird]) (g.length + 1)
        start ⟨List.replicate g.length false, none, [], [], [], [], 0⟩).1 := by
    simp [AdjacencyList.DepthFirst, buildConfig, mkConfig, applyOpt]
  obtain ⟨⟨Δ, hΔt, hΔv⟩, hgood, hlen, _, _, hnt, hat, hoat, _⟩ :=
    ((c2_df_inv g (buildConfig start [TraverseOption.OkNodeVisitor okvThird])
      rfl rfl rfl rfl rfl (g.length + 1)).1 start
      ⟨List.replicate g.length false, none, [], [], [], [], 0⟩ ⟨rfl, by simp, rfl⟩)
  rw [hD] at h3 ⊢
  have hl3 : (dfNode g (buildConfig start [TraverseOption.OkNodeVisitor okvThird])
      (g.length + 1) start
      ⟨List.replicate g.length false, none, [], [], [], [], 0⟩).1.okTrace.length = 3 := by
    omega
  refine ⟨hl3, ?_, ?_, hnt, hat, hoat⟩
  · rw [hgood, hl3]
    rfl
  · rw [hΔv]
    have : Δ = (dfNode g (buildConfig start [TraverseOption.OkNodeVisitor okvThird])
        (g.length + 1) start
        ⟨List.replicate g.length false, none, [], [], [], [], 0⟩).1.okTrace := by
      rw [hΔt]
      rfl
    rw [this]

set_option maxHeartbeats 1000000 in
/-- Witness for C2 on the path graph 0 → 1 → 2 → 3: the traversal
reaches a third node, the visitor results are true, true, false, and
exactly nodes 0, 1, 2 end up marked visited. -/
theorem depthFirst_third_visit_stops_witness :
    3 ≤ (AdjacencyList.DepthFirst [[1], [2], [3], []] 0
      [TraverseOption.OkNodeVisitor okvThird]).okTrace.length ∧
    (AdjacencyList.DepthFirst [[1], [2], [3], []] 0
      [TraverseOption.OkNodeVisitor okvThird]).okTrace.length = 3 ∧
    (AdjacencyList.DepthFirst [[1], [2], [3], []] 0
      [TraverseOption.OkNodeVisitor okvThird]).okTrace.map Prod.snd =
      [true, true, false] ∧
    (AdjacencyList.DepthFirst [[1], [2], [3], []] 0
      [TraverseOption.OkNodeVisitor okvThird]).visited =
      marks (List.replicate ([[1], [2], [3], []] : AdjacencyList).length false)
        ((AdjacencyList.DepthFirst [[1], [2], [3], []] 0
          [TraverseOption.OkNodeVisitor okvThird]).okTrace.map Prod.fst) :=
  have h := depthFirst_third_visit_stops [[1], [2], [3], []] 0 (by decide)
  ⟨by decide, h.1, h.2.1, h.2.2.1⟩

/-! Graph distance, defined independently of the traversal code: `ball
g s k` is the set of nodes reachable from `s` along at most `k` arcs,
and `sphere g s k` the set of nodes at graph distance exactly `k` (the
minimum number of arcs from `s`). -/

/-- Out-neighborhood of a set of nodes. -/
def nbors (g : AdjacencyList) (s : Finset ℤ) : Finset ℤ :=
  s.biUnion (fun n => (arcsOf g n).toFinset)

/-- Nodes reachable from `s` along at most `k` arcs. -/
def ball (g : AdjacencyList) (s : NI) : ℕ → Finset ℤ
  | 0 => {s}
  | k + 1 => ball g s k ∪ nbors g (ball g s k)

/-- Nodes at graph distance exactly `k` from `s`: reachable in `k` arcs
but not in fewer. -/
def sphere (g : AdjacencyList) (s : NI) : ℕ → Finset ℤ
  | 0 => {s}
  | k + 1 => ball g s (k + 1) \ ball g s k

/-- The valid node identifiers of a graph, as a set of integers. -/
def validNodes (g : AdjacencyList) : Finset ℤ :=
  (Finset.range g.length).image (fun i : ℕ => (i : ℤ))

/-- Every arc of the graph stays in bounds (the property `BoundsOk`
checks). -/
def ArcsBound (g : AdjacencyList) : Prop :=
  ∀ u : ℤ, 0 ≤ u → u.toNat < g.length →
    ∀ v : ℤ, v ∈ arcsOf g u → 0 ≤ v ∧ v.toNat < g.length

theorem mem_validNodes (g : AdjacencyList) (v : ℤ) :
    v ∈ validNodes g ↔ 0 ≤ v ∧ v.toNat < g.length := by
  unfold validNodes
  simp only [Finset.mem_image, Finset.mem_range]
  constructor
  · rintro ⟨i, hi, rfl⟩
    refine ⟨Int.ofNat_nonneg i, ?_⟩
    simpa using hi
  · rintro ⟨h0, h1⟩
    exact ⟨v.toNat, h1, Int.toNat_of_nonneg h0⟩

theorem ball_subset_succ (g : AdjacencyList) (s : NI) (k : ℕ) :
    ball g s k ⊆ ball g s (k + 1) := by
  rw [show ball g s (k + 1) = ball g s k ∪ nbors g (ball g s k) from rfl]
  exact Finset.subset_union_left

theorem ball_mono (g : AdjacencyList) (s : NI) {k m : ℕ} (h : k ≤ m) :
    ball g s k ⊆ ball g s m := by
  induction m with
  | zero => rw [Nat.le_zero.mp h]
  | succ m ih =>
    rcases Nat.lt_or_ge k (m + 1) with hlt | hge
    · exact (ih (Nat.lt_succ_iff.mp hlt)).trans (ball_subset_succ g s m)
    · rw [Nat.le_antisymm h hge]

theorem sphere_subset_ball (g : AdjacencyList) (s : NI) (k : ℕ) :
    sphere g s k ⊆ ball g s k := by
  cases k with
  | zero => exact Finset.Subset.refl _
  | succ k => exact Finset.sdiff_subset

theorem arc_mem_ball_succ (g : AdjacencyList) (s : NI) (k : ℕ) {u v : ℤ}
    (hu : u ∈ ball g s k) (hv : v ∈ arcsOf g u) : v ∈ ball g s (k + 1) := by
  rw [show ball g s (k + 1) = ball g s k ∪ nbors g (ball g s k) from rfl]
  refine Finset.mem_union_right _ ?_
  exact Finset.mem_biUnion.mpr ⟨u, hu, List.mem_toFinset.mpr hv⟩

theorem mem_ball_exists_sphere (g : AdjacencyList) (s : NI) (k : ℕ) {v : ℤ}
    (hv : v ∈ ball g s k) : ∃ j ≤ k, v ∈ sphere g s j := by
  induction k with
  | zero => exact ⟨0, le_refl 0, hv⟩
  | succ k ih =>
    by_cases hk : v ∈ ball g s k
    · obtain ⟨j, hj, hvj⟩ := ih hk
      exact ⟨j, hj.trans (Nat.le_succ k), hvj⟩
    · exact ⟨k + 1, le_refl _, Finset.mem_sdiff.mpr ⟨hv, hk⟩⟩

theorem sphere_succ_eq (g : AdjacencyList) (s : NI) (k : ℕ) :
    sphere g s (k + 1) = nbors g (sphere g s k) \ ball g s k := by
  apply Finset.Subset.antisymm
  · intro v hv
    rw [show sphere g s (k + 1) = ball g s (k + 1) \ ball g s k from rfl,
      Finset.mem_sdiff] at hv
    obtain ⟨hvb, hvk⟩ := hv
    rw [show ball g s (k + 1) = ball g s k ∪ nbors g (ball g s k) from rfl,
      Finset.mem_union] at hvb
    rcases hvb with hvb | hvb
    · exact absurd hvb hvk
    · obtain ⟨u, hu, hvu⟩ := Finset.mem_biUnion.mp hvb
      obtain ⟨j, hj, huj⟩ := mem_ball_exists_sphere g s k hu
      rcases Nat.lt_or_ge j k with hjk | hjk
      · exfalso
        have : v ∈ ball g s (j + 1) :=
          arc_mem_ball_succ g s j (sphere_subset_ball g s j huj)
            (List.mem_toFinset.mp hvu)
        exact hvk (ball_mono g s hjk this)
      · have hjeq : j = k := Nat.le_antisymm hj hjk
        rw [hjeq] at huj
        exact Finset.mem_sdiff.mpr
          ⟨Finset.mem_biUnion.mpr ⟨u, huj, hvu⟩, hvk⟩
  · intro v hv
    rw [Finset.mem_sdiff] at hv
    obtain ⟨hvb, hvk⟩ := hv
    obtain ⟨u, hu, hvu⟩ := Finset.mem_biUnion.mp hvb
    rw [show sphere g s (k + 1) = ball g s (k + 1) \ ball g s k from rfl,
      Finset.mem_sdiff]
    exact ⟨arc_mem_ball_succ g s k (sphere_subset_ball g s k hu)
      (List.mem_toFinset.mp hvu), hvk⟩

theorem sphere_succ_intro (g : AdjacencyList) (s : NI) (k : ℕ) {u v : ℤ}
    (hu : u ∈ sphere g s k) (hv : v ∈ arcsOf g u) (hnb : v ∉ ball g s k) :
    v ∈ sphere g s (k + 1) := by
  rw [sphere_succ_eq]
  exact Finset.mem_sdiff.mpr
    ⟨Finset.mem_biUnion.mpr ⟨u, hu, List.mem_toFinset.mpr hv⟩, hnb⟩

theorem sphere_disjoint_ball (g : AdjacencyList) (s : NI) {j k : ℕ} (h : k < j) :
    ∀ v ∈ sphere g s j, v ∉ ball g s k := by
  intro v hv hvk
  cases j with
  | zero => exact absurd h (Nat.not_lt_zero k)
  | succ j =>
    rw [show sphere g s (j + 1) = ball g s (j + 1) \ ball g s j from rfl,
      Finset.mem_sdiff] at hv
    exact hv.2 (ball_mono g s (Nat.lt_succ_iff.mp h) hvk)

theorem ball_subset_validNodes (g : AdjacencyList) (s : NI) (hg : ArcsBound g)
    (hs0 : 0 ≤ s) (hs1 : s.toNat < g.length) (k : ℕ) :
    ball g s k ⊆ validNodes g := by
  induction k with
  | zero =>
    intro v hv
    rw [show ball g s 0 = {s} from rfl, Finset.mem_singleton] at hv
    rw [hv, mem_validNodes]
    exact ⟨hs0, hs1⟩
  | succ k ih =>
    intro v hv
    rw [show ball g s (k + 1) = ball g s k ∪ nbors g (ball g s k) from rfl,
      Finset.mem_union] at hv
    rcases hv with hv | hv
    · exact ih hv
    · obtain ⟨u, hu, hvu⟩ := Finset.mem_biUnion.mp hv
      have huv := (mem_validNodes g u).mp (ih hu)
      rw [mem_validNodes]
      exact hg u huv.1 huv.2 v (List.mem_toFinset.mp hvu)

theorem sphere_empty_succ (g : AdjacencyList) (s : NI) (k : ℕ)
    (h : sphere g s (k + 1) = ∅) : sphere g s (k + 2) = ∅ := by
  have hb : ball g s (k + 1) = ball g s k := by
    apply Finset.Subset.antisymm
    · intro v hv
      by_contra hvk
      have hmem : v ∈ sphere g s (k + 1) := Finset.mem_sdiff.mpr ⟨hv, hvk⟩
      rw [h] at hmem
      exact absurd hmem (Finset.not_mem_empty v)
    · exact ball_subset_succ g s k
  have hb2 : ball g s (k + 2) = ball g s (k + 1) := by
    rw [show ball g s (k + 2) = ball g s (k + 1) ∪ nbors g (ball g s (k + 1)) from rfl, hb]
    exact hb
  rw [show sphere g s (k + 2) = ball g s (k + 2) \ ball g s (k + 1) from rfl, hb2,
    Finset.sdiff_self]

theorem sphere_pairwise_disjoint (g : AdjacencyList) (s : NI) {i j : ℕ} (h : i < j) :
    Disjoint (sphere g s i) (sphere g s j) := by
  rw [Finset.disjoint_left]
  intro v hvi hvj
  exact sphere_disjoint_ball g s h v hvj (sphere_subset_ball g s i hvi)

theorem exists_empty_sphere (g : AdjacencyList) (s : NI) (hg : ArcsBound g)
    (hs0 : 0 ≤ s) (hs1 : s.toNat < g.length) :
    ∃ t ≤ g.length, sphere g s t = ∅ := by
  by_contra hc
  push_neg at hc
  have hdisj : ∀ i ∈ Finset.range (g.length + 1), ∀ j ∈ Finset.range (g.length + 1),
      i ≠ j → Disjoint (sphere g s i) (sphere g s j) := by
    intro i _ j _ hij
    rcases Nat.lt_or_ge i j with h | h
    · exact sphere_pairwise_disjoint g s h
    · exact (sphere_pairwise_disjoint g s (Nat.lt_of_le_of_ne h (Ne.symm hij))).symm
  have hsub : (Finset.range (g.length + 1)).biUnion (sphere g s) ⊆ validNodes g := by
    intro v hv
    obtain ⟨i, _, hvi⟩ := Finset.mem_biUnion.mp hv
    exact ball_subset_validNodes g s hg hs0 hs1 i (sphere_subset_ball g s i hvi)
  have hcard1 : ((Finset.range (g.length + 1)).biUnion (sphere g s)).card =
      ∑ i ∈ Finset.range (g.length + 1), (sphere g s i).card :=
    Finset.card_biUnion hdisj
  have hge : g.length + 1 ≤ ∑ i ∈ Finset.range (g.length + 1), (sphere g s i).card := by
    calc g.length + 1 = ∑ _i ∈ Finset.range (g.length + 1), 1 := by simp
    _ ≤ ∑ i ∈ Finset.range (g.length + 1), (sphere g s i).card := by
        apply Finset.sum_le_sum
        intro i hi
        rw [Finset.mem_range, Nat.lt_succ_iff] at hi
        exact Finset.card_pos.mpr (Finset.nonempty_iff_ne_empty.mpr (hc i hi))
  have hle : ((Finset.range (g.length + 1)).biUnion (sphere g s)).card ≤ g.length := by
    have := Finset.card_le_card hsub
    have hv : (validNodes g).card ≤ g.length := by
      unfold validNodes
      exact (Finset.card_image_le).trans (by simp)
    omega
  omega

theorem stop_level_spec (g : AdjacencyList) (s : NI) (hg : ArcsBound g)
    (hs0 : 0 ≤ s) (hs1 : s.toNat < g.length) :
    ∃ T : ℕ, 1 ≤ T ∧ T ≤ g.length ∧ ∀ t, (sphere g s t = ∅ ↔ T ≤ t) := by
  obtain ⟨t0, ht0, hempty⟩ := exists_empty_sphere g s hg hs0 hs1
  have hex : ∃ t, sphere g s t = ∅ := ⟨t0, hempty⟩
  refine ⟨Nat.find hex, ?_, ?_, ?_⟩
  · rcases Nat.eq_zero_or_pos (Nat.find hex) with h0 | h1
    · exfalso
      have := Nat.find_spec hex
      rw [h0] at this
      have : s ∈ (∅ : Finset ℤ) := by
        rw [← this]
        exact Finset.mem_singleton_self s
      exact absurd this (Finset.not_mem_empty s)
    · exact h1
  · exact (Nat.find_min' hex hempty).trans ht0
  · intro t
    constructor
    · intro ht
      exact Nat.find_min' hex ht
    · intro ht
      obtain ⟨d, rfl⟩ := Nat.exists_eq_add_of_le ht
      induction d with
      | zero => exact Nat.find_spec hex
      | succ d ih =>
        have h1 : 1 ≤ Nat.find hex := by
          rcases Nat.eq_zero_or_pos (Nat.find hex) with h0 | h1
          · exfalso
            have hsp := Nat.find_spec hex
            rw [h0] at hsp
            have hmem : s ∈ (∅ : Finset ℤ) := by
              rw [← hsp]
              exact Finset.mem_singleton_self s
            exact absurd hmem (Finset.not_mem_empty s)
          · exact h1
        obtain ⟨e, he⟩ := Nat.exists_eq_add_of_le h1
        have hprev : sphere g s (Nat.find hex + d) = ∅ :=
          ih (Nat.le_add_right _ d)
        have : Nat.find hex + d = (e + d) + 1 := by omega
        rw [show Nat.find hex + (d + 1) = ((e + d) + 2) by omega]
        apply sphere_empty_succ
        rw [show (e + d) + 1 = Nat.find hex + d by omega]
        exact hprev

theorem idx_eq_get {α : Type} (d : α) (l : List α) (i : ℤ) (h0 : 0 ≤ i)
    (h1 : i.toNat < l.length) : idx d l i = l.get ⟨i.toNat, h1⟩ := by
  unfold idx
  rw [dif_pos ⟨h0, h1⟩]

theorem boundsFind_none (n : ℤ) :
    ∀ l : List (ℕ × List NI), boundsFind n l = none →
      ∀ p ∈ l, ∀ t ∈ p.2, ¬(t < 0 ∨ n ≤ t) := by
  intro l
  induction l with
  | nil => intro _ p hp; exact absurd hp (List.not_mem_nil p)
  | cons q rest ih =>
    intro h p hp
    rw [show boundsFind n (q :: rest) =
      (match q.2.find? (fun t => decide (t < 0 ∨ n ≤ t)) with
       | some t => some ((q.1 : ℤ), t)
       | none => boundsFind n rest) from by rfl] at h
    rcases hf : q.2.find? (fun t => decide (t < 0 ∨ n ≤ t)) with _ | t0
    · rw [hf] at h
      rcases List.mem_cons.mp hp with rfl | hp'
      · intro t ht
        have := List.find?_eq_none.mp hf t ht
        simpa using this
      · exact ih h p hp'
    · rw [hf] at h
      exact absurd h (by simp)

theorem arcsBound_of_boundsOk (g : AdjacencyList)
    (h : (AdjacencyList.BoundsOk g).1 = true) : ArcsBound g := by
  have hnone : boundsFind (g.length : ℤ) g.enum = none := by
    unfold AdjacencyList.BoundsOk at h
    rcases hb : boundsFind (g.length : ℤ) g.enum with _ | p
    · rfl
    · rw [hb] at h
      exact absurd h (by simp)
  intro u h0 h1 v hv
  have harcs : arcsOf g u = g[u.toNat] := idx_eq_get [] g u h0 h1
  have hlen : u.toNat < g.enum.length := by
    rw [List.enum_length]
    exact h1
  have hmem : (u.toNat, g[u.toNat]) ∈ g.enum := by
    rw [← List.getElem_enum g u.toNat hlen]
    exact List.getElem_mem hlen
  have hno := boundsFind_none (g.length : ℤ) g.enum hnone (u.toNat, g[u.toNat])
    hmem v (by rw [← harcs]; exact hv)
  have h0v : 0 ≤ v := by
    by_contra hc
    exact hno (Or.inl (lt_of_not_le hc))
  have h1v : v < (g.length : ℤ) := by
    by_contra hc
    exact hno (Or.inr (le_of_not_lt hc))
  exact ⟨h0v, (Int.toNat_lt h0v).mpr h1v⟩

/-- Invariant of the BFS tree slice `rp` while the frontier at distance
`k` is being processed: nodes at distance `j ≤ k` carry `Len = j + 1`
and a parent at distance `j - 1` with an arc to them, the newly
assigned set `N` (a subset of the next sphere) carries `Len = k + 2`
and a parent at distance `k`, and every other valid node is still
unassigned. -/
def LevelInv (g : AdjacencyList) (s : NI) (k : ℕ) (N : Finset ℤ) (rp : List PathEnd) :
    Prop :=
  rp.length = g.length ∧
  (∀ j : ℕ, j ≤ k → ∀ v : ℤ, v ∈ sphere g s j →
    (idx pzero rp v).Len = (j : ℤ) + 1 ∧
    (1 ≤ j → (idx pzero rp v).From ∈ sphere g s (j - 1) ∧
      v ∈ arcsOf g ((idx pzero rp v).From))) ∧
  (∀ v : ℤ, v ∈ N →
    (idx pzero rp v).Len = (k : ℤ) + 2 ∧
    (idx pzero rp v).From ∈ sphere g s k ∧ v ∈ arcsOf g ((idx pzero rp v).From)) ∧
  (∀ v : ℤ, 0 ≤ v → v.toNat < g.length → v ∉ ball g s k → v ∉ N →
    idx pzero rp v = ⟨-1, 0⟩)

theorem levelInv_len_ne_zero (g : AdjacencyList) (s : NI) (k : ℕ) (N : Finset ℤ)
    (rp : List PathEnd) (hInv : LevelInv g s k N rp) (v : ℤ) (h0 : 0 ≤ v)
    (h1 : v.toNat < g.length) :
    (idx pzero rp v).Len ≠ 0 ↔ (v ∈ ball g s k ∨ v ∈ N) := by
  constructor
  · intro h
    by_contra hc
    push_neg at hc
    rw [hInv.2.2.2 v h0 h1 hc.1 hc.2] at h
    exact h rfl
  · intro h
    rcases h with h | h
    · obtain ⟨j, hj, hvj⟩ := mem_ball_exists_sphere g s k h
      rw [(hInv.2.1 j hj v hvj).1]
      intro hc
      omega
    · rw [(hInv.2.2.1 v h).1]
      intro hc
      omega

theorem bfsArcStep_level (g : AdjacencyList) (s : NI) (hg : ArcsBound g)
    (hs0 : 0 ≤ s) (hs1 : s.toNat < g.length)
    (k : ℕ) (u : ℤ) (hu : u ∈ sphere g s k) (nb : ℤ) (hnb : nb ∈ arcsOf g u)
    (N : Finset ℤ) (hN : N ⊆ sphere g s (k + 1)) (st : BfsState)
    (hInv : LevelInv g s k N st.rp) (hnd : st.next.Nodup)
    (hts : st.next.toFinset = N) :
    LevelInv g s k (N ∪ ({nb} \ ball g s k)) (bfsArcStep ((k : ℤ) + 2) u st nb).rp ∧
    (bfsArcStep ((k : ℤ) + 2) u st nb).next.Nodup ∧
    (bfsArcStep ((k : ℤ) + 2) u st nb).next.toFinset = N ∪ ({nb} \ ball g s k) ∧
    N ∪ ({nb} \ ball g s k) ⊆ sphere g s (k + 1) := by
  have huval : 0 ≤ u ∧ u.toNat < g.length := (mem_validNodes g u).mp
    (ball_subset_validNodes g s hg hs0 hs1 k (sphere_subset_ball g s k hu))
  have hnbval : 0 ≤ nb ∧ nb.toNat < g.length := hg u huval.1 huval.2 nb hnb
  by_cases hz : (idx pzero st.rp nb).Len = 0
  · -- the target is unassigned: it joins the next sphere
    have hnbk : nb ∉ ball g s k ∧ nb ∉ N := by
      by_contra hc
      rw [Classical.not_and_iff_or_not_not, not_not, not_not] at hc
      have := (levelInv_len_ne_zero g s k N st.rp hInv nb hnbval.1 hnbval.2).mpr
        (by rcases hc with hc | hc
            · exact Or.inl hc
            · exact Or.inr hc)
      exact this hz
    have hsing : {nb} \ ball g s k = ({nb} : Finset ℤ) := by
      apply Finset.Subset.antisymm Finset.sdiff_subset
      intro x hx
      rw [Finset.mem_singleton] at hx
      rw [hx]
      exact Finset.mem_sdiff.mpr ⟨Finset.mem_singleton_self nb, hnbk.1⟩
    have hnbsp : nb ∈ sphere g s (k + 1) := sphere_succ_intro g s k hu hnb hnbk.1
    have hstep : bfsArcStep ((k : ℤ) + 2) u st nb = { st with
        next := st.next ++ [nb]
        rp := setIdx st.rp nb ⟨u, (k : ℤ) + 2⟩
        writes := st.writes ++ [nb] } := by
      simp [bfsArcStep, hz]
    rw [hstep, hsing]
    have hrpnb : idx pzero (setIdx st.rp nb ⟨u, (k : ℤ) + 2⟩) nb = ⟨u, (k : ℤ) + 2⟩ :=
      idx_setIdx_self _ _ _ _ hnbval.1 (by rw [hInv.1]; exact hnbval.2)
    refine ⟨⟨?_, ?_, ?_, ?_⟩, ?_, ?_, ?_⟩
    · rw [setIdx_length]
      exact hInv.1
    · intro j hj v hvj
      have hvne : v ≠ nb := by
        intro he
        exact hnbk.1 (ball_mono g s hj (sphere_subset_ball g s j (he ▸ hvj)))
      rw [idx_setIdx_ne _ _ _ _ _ hvne]
      exact hInv.2.1 j hj v hvj
    · intro v hv
      rw [Finset.mem_union, Finset.mem_singleton] at hv
      rcases hv with hv | rfl
      · have hvne : v ≠ nb := fun he => hnbk.2 (he ▸ hv)
        rw [idx_setIdx_ne _ _ _ _ _ hvne]
        exact hInv.2.2.1 v hv
      · rw [hrpnb]
        exact ⟨rfl, hu, hnb⟩
    · intro v hv0 hv1 hvb hvN
      rw [Finset.mem_union, Finset.mem_singleton] at hvN
      push_neg at hvN
      rw [idx_setIdx_ne _ _ _ _ _ hvN.2]
      exact hInv.2.2.2 v hv0 hv1 hvb hvN.1
    · rw [List.nodup_append]
      refine ⟨hnd, List.nodup_singleton nb, ?_⟩
      intro a ha hb
      rw [List.mem_singleton] at hb
      rw [hb] at ha
      exact hnbk.2 (hts ▸ List.mem_toFinset.mpr ha)
    · rw [List.toFinset_append, hts]
      simp
    · rw [Finset.union_subset_iff]
      exact ⟨hN, Finset.singleton_subset_iff.mpr hnbsp⟩
  · -- the target is already assigned: nothing changes
    have hmem : nb ∈ ball g s k ∨ nb ∈ N :=
      (levelInv_len_ne_zero g s k N st.rp hInv nb hnbval.1 hnbval.2).mp hz
    have hsing : {nb} \ ball g s k ⊆ N := by
      intro x hx
      rw [Finset.mem_sdiff, Finset.mem_singleton] at hx
      rw [hx.1]
      rcases hmem with hm | hm
      · exact absurd hm (hx.1 ▸ hx.2)
      · exact hm
    have hunion : N ∪ ({nb} \ ball g s k) = N := Finset.union_eq_left.mpr hsing
    have hstep : bfsArcStep ((k : ℤ) + 2) u st nb = st := by
      simp [bfsArcStep, hz]
    rw [hstep, hunion]
    exact ⟨hInv, hnd, hts, hN⟩

theorem bfsArcs_fold_level (g : AdjacencyList) (s : NI) (hg : ArcsBound g)
    (hs0 : 0 ≤ s) (hs1 : s.toNat < g.length) (k : ℕ) (u : ℤ)
    (hu : u ∈ sphere g s k) :
    ∀ (l : List NI), (∀ a ∈ l, a ∈ arcsOf g u) →
    ∀ (st : BfsState) (N : Finset ℤ), N ⊆ sphere g s (k + 1) →
      LevelInv g s k N st.rp → st.next.Nodup → st.next.toFinset = N →
      LevelInv g s k (N ∪ (l.toFinset \ ball g s k))
        (l.foldl (bfsArcStep ((k : ℤ) + 2) u) st).rp ∧
      (l.foldl (bfsArcStep ((k : ℤ) + 2) u) st).next.Nodup ∧
      (l.foldl (bfsArcStep ((k : ℤ) + 2) u) st).next.toFinset =
        N ∪ (l.toFinset \ ball g s k) ∧
      N ∪ (l.toFinset \ ball g s k) ⊆ sphere g s (k + 1) := by
  intro l
  induction l with
  | nil =>
    intro _ st N hN hInv hnd hts
    simp only [List.foldl_nil, List.toFinset_nil, Finset.empty_sdiff, Finset.union_empty]
    exact ⟨hInv, hnd, hts, hN⟩
  | cons a rest ih =>
    intro hl st N hN hInv hnd hts
    rw [List.foldl_cons]
    obtain ⟨hInv1, hnd1, hts1, hN1⟩ := bfsArcStep_level g s hg hs0 hs1 k u hu a
      (hl a (List.mem_cons_self a rest)) N hN st hInv hnd hts
    obtain ⟨hInv2, hnd2, hts2, hN2⟩ := ih
      (fun b hb => hl b (List.mem_cons_of_mem a hb)) _ _ hN1 hInv1 hnd1 hts1
    have hEq : (N ∪ ({a} \ ball g s k)) ∪ (rest.toFinset \ ball g s k) =
        N ∪ ((a :: rest).toFinset \ ball g s k) := by
      ext x
      simp only [Finset.mem_union, Finset.mem_sdiff, Finset.mem_singleton,
        List.toFinset_cons, Finset.mem_insert, List.mem_toFinset]
      constructor
      · rintro ((h | ⟨rfl, hb⟩) | ⟨hr, hb⟩)
        · exact Or.inl h
        · exact Or.inr ⟨Or.inl rfl, hb⟩
        · exact Or.inr ⟨Or.inr (List.mem_toFinset.mp (List.mem_toFinset.mpr hr)), hb⟩
      · rintro (h | ⟨h | h, hb⟩)
        · exact Or.inl (Or.inl h)
        · exact Or.inl (Or.inr ⟨h, hb⟩)
        · exact Or.inr ⟨h, hb⟩
    rw [hEq] at hInv2 hts2 hN2
    exact ⟨hInv2, hnd2, hts2, hN2⟩

/-- With no visitors configured, processing a frontier is exactly the
fold of the arc scan over its nodes and never aborts. -/
theorem bfsFrontier_plain (g : AdjacencyList) (level : ℤ) :
    ∀ (fr : List NI) (st : BfsState),
      bfsFrontier g ⟨false, none, none⟩ level fr st =
        (fr.foldl (fun st u => bfsArcs g level u st) st, true) := by
  intro fr
  induction fr with
  | nil => intro st; rfl
  | cons n rest ih =>
    intro st
    rw [List.foldl_cons]
    have hv : bfsVisit g ⟨false, none, none⟩ level st n = (bfsArcs g level n st, true) := by
      rfl
    rw [show bfsFrontier g ⟨false, none, none⟩ level (n :: rest) st =
      (match bfsVisit g ⟨false, none, none⟩ level st n with
       | (st', true) => bfsFrontier g ⟨false, none, none⟩ level rest st'
       | (st', false) => (st', false)) from rfl, hv]
    exact ih (bfsArcs g level n st)

theorem bfsFrontier_fold_level (g : AdjacencyList) (s : NI) (hg : ArcsBound g)
    (hs0 : 0 ≤ s) (hs1 : s.toNat < g.length) (k : ℕ) :
    ∀ (fr : List NI), (∀ u ∈ fr, u ∈ sphere g s k) →
    ∀ (st : BfsState) (N : Finset ℤ), N ⊆ sphere g s (k + 1) →
      LevelInv g s k N st.rp → st.next.Nodup → st.next.toFinset = N →
      LevelInv g s k (N ∪ (nbors g fr.toFinset \ ball g s k))
        (fr.foldl (fun st u => bfsArcs g ((k : ℤ) + 2) u st) st).rp ∧
      (fr.foldl (fun st u => bfsArcs g ((k : ℤ) + 2) u st) st).next.Nodup ∧
      (fr.foldl (fun st u => bfsArcs g ((k : ℤ) + 2) u st) st).next.toFinset =
        N ∪ (nbors g fr.toFinset \ ball g s k) ∧
      N ∪ (nbors g fr.toFinset \ ball g s k) ⊆ sphere g s (k + 1) := by
  intro fr
  induction fr with
  | nil =>
    intro _ st N hN hInv hnd hts
    simp only [List.foldl_nil, List.toFinset_nil]
    rw [show nbors g ∅ = ∅ from rfl]
    simp only [Finset.empty_sdiff, Finset.union_empty]
    exact ⟨hInv, hnd, hts, hN⟩
  | cons u rest ih =>
    intro hfr st N hN hInv hnd hts
    rw [List.foldl_cons]
    have hu : u ∈ sphere g s k := hfr u (List.mem_cons_self u rest)
    obtain ⟨hInv1, hnd1, hts1, hN1⟩ := bfsArcs_fold_level g s hg hs0 hs1 k u hu
      (arcsOf g u) (fun a ha => ha) st N hN hInv hnd hts
    obtain ⟨hInv2, hnd2, hts2, hN2⟩ := ih
      (fun b hb => hfr b (List.mem_cons_of_mem u hb)) _ _ hN1 hInv1 hnd1 hts1
    have hEq : (N ∪ ((arcsOf g u).toFinset \ ball g s k)) ∪
        (nbors g rest.toFinset \ ball g s k) =
        N ∪ (nbors g (u :: rest).toFinset \ ball g s k) := by
      have hni : nbors g (u :: rest).toFinset =
          (arcsOf g u).toFinset ∪ nbors g rest.toFinset := by
        rw [List.toFinset_cons]
        exact Finset.biUnion_insert
      rw [hni]
      ext x
      simp only [Finset.mem_union, Finset.mem_sdiff]
      tauto
    rw [hEq] at hInv2 hts2 hN2
    exact ⟨hInv2, hnd2, hts2, hN2⟩

/-- Once the whole frontier at distance `k` has been processed, the
newly assigned set is exactly the sphere at distance `k + 1`. -/
theorem levelInv_step (g : AdjacencyList) (s : NI) (k : ℕ) (rp : List PathEnd)
    (h : LevelInv g s k (sphere g s (k + 1)) rp) :
    LevelInv g s (k + 1) ∅ rp := by
  obtain ⟨h1, h2, h3, h4⟩ := h
  refine ⟨h1, ?_, ?_, ?_⟩
  · intro j hj v hvj
    rcases Nat.lt_or_ge j (k + 1) with hlt | hge
    · exact h2 j (Nat.lt_succ_iff.mp hlt) v hvj
    · have hjeq : j = k + 1 := Nat.le_antisymm hj hge
      rw [hjeq] at hvj
      obtain ⟨hl, hf, ha⟩ := h3 v hvj
      refine ⟨?_, ?_⟩
      · rw [hl, hjeq]
        push_cast
        ring
      · intro _
        rw [hjeq]
        simpa using ⟨hf, ha⟩
  · intro v hv
    exact absurd hv (Finset.not_mem_empty v)
  · intro v hv0 hv1 hvb hvN
    have hvb' : v ∉ ball g s k := fun hc => hvb (ball_mono g s (Nat.le_succ k) hc)
    have hvs : v ∉ sphere g s (k + 1) := fun hc =>
      hvb (sphere_subset_ball g s (k + 1) hc)
    exact h4 v hv0 hv1 hvb' hvs

/-- A list of frontier lists: the `i`-th one enumerates, without
duplicates, the sphere at distance `k + i`. -/
def SphereList (g : AdjacencyList) (s : NI) (k : ℕ) (F : List (List NI)) : Prop :=
  ∀ i (h : i < F.length),
    (F.get ⟨i, h⟩).Nodup ∧ (F.get ⟨i, h⟩).toFinset = sphere g s (k + i)

theorem sphereList_nil (g : AdjacencyList) (s : NI) (k : ℕ) :
    SphereList g s k [] := by
  intro i h
  exact absurd h (Nat.not_lt_zero i)

theorem sphereList_cons (g : AdjacencyList) (s : NI) (k : ℕ) (fr : List NI)
    (F : List (List NI)) (h1 : fr.Nodup) (h2 : fr.toFinset = sphere g s k)
    (h3 : SphereList g s (k + 1) F) : SphereList g s k (fr :: F) := by
  intro i h
  cases i with
  | zero =>
    refine ⟨h1, ?_⟩
    simpa using h2
  | succ i =>
    have hlen : i < F.length := by simpa using h
    have := h3 i hlen
    simp only [List.get_cons_succ]
    refine ⟨this.1, ?_⟩
    rw [this.2]
    congr 1
    omega

theorem frontierOrder_plain (fr : List NI) (r : ℕ) :
    frontierOrder ⟨false, none, none⟩ fr r = (fr, r) := rfl

theorem bfsLoop_plain_succ (g : AdjacencyList) (fuel : ℕ) (level maxLen : ℤ)
    (fr : List NI) (st : BfsState) :
    bfsLoop g ⟨false, none, none⟩ (fuel + 1) level maxLen fr st =
      (if (fr.foldl (fun st2 u => bfsArcs g (level + 1) u st2)
            { st with
              next := []
              frontiers := st.frontiers ++ [fr] }).next = []
       then (fr.foldl (fun st2 u => bfsArcs g (level + 1) u st2)
            { st with
              next := []
              frontiers := st.frontiers ++ [fr] }, level)
       else bfsLoop g ⟨false, none, none⟩ fuel (level + 1) level
            (fr.foldl (fun st2 u => bfsArcs g (level + 1) u st2)
            { st with
              next := []
              frontiers := st.frontiers ++ [fr] }).next
            (fr.foldl (fun st2 u => bfsArcs g (level + 1) u st2)
            { st with
              next := []
              frontiers := st.frontiers ++ [fr] })) := by
  simp only [bfsLoop, frontierOrder_plain]
  rw [bfsFrontier_plain]

theorem bfsLoop_level (g : AdjacencyList) (s : NI) (hg : ArcsBound g)
    (hs0 : 0 ≤ s) (hs1 : s.toNat < g.length) (T : ℕ)
    (hT : ∀ t, sphere g s t = ∅ ↔ T ≤ t) :
    ∀ (fuel k : ℕ) (st : BfsState) (fr : List NI) (maxLen : ℤ),
      k < T → T ≤ k + fuel →
      fr.Nodup → fr.toFinset = sphere g s k →
      LevelInv g s k ∅ st.rp →
      (bfsLoop g ⟨false, none, none⟩ fuel ((k : ℤ) + 1) maxLen fr st).2 = (T : ℤ) ∧
      LevelInv g s (T - 1) ∅
        (bfsLoop g ⟨false, none, none⟩ fuel ((k : ℤ) + 1) maxLen fr st).1.rp ∧
      ∃ F' : List (List NI),
        (bfsLoop g ⟨false, none, none⟩ fuel ((k : ℤ) + 1) maxLen fr st).1.frontiers =
          st.frontiers ++ (fr :: F') ∧
        (fr :: F').length = T - k ∧
        SphereList g s k (fr :: F') ∧
        (bfsLoop g ⟨false, none, none⟩ fuel ((k : ℤ) + 1) maxLen fr st).1.writes =
          st.writes ++ F'.flatten := by
  intro fuel
  induction fuel with
  | zero =>
    intro k st fr maxLen hkT hTk
    exact absurd hTk (by omega)
  | succ fuel ih =>
    intro k st fr maxLen hkT hTk hnd hts hInv
    rw [bfsLoop_plain_succ]
    set st0 : BfsState :=
      { st with
        next := []
        frontiers := st.frontiers ++ [fr] } with hst0
    set st1 := fr.foldl (fun st2 u => bfsArcs g ((k : ℤ) + 1 + 1) u st2) st0 with hst1
    have hfr0 : st0.frontiers = st.frontiers ++ [fr] := by rw [hst0]
    have hnx0 : st0.next = [] := by rw [hst0]
    have hwr0 : st0.writes = st.writes := by rw [hst0]
    have hrp0 : st0.rp = st.rp := by rw [hst0]
    obtain ⟨hf1, -, -, Δ, hfn, hfw, -, -⟩ :=
      bfsFrontier_inv g ⟨false, none, none⟩ ((k : ℤ) + 1 + 1) fr st0
    rw [bfsFrontier_plain] at hf1 hfn hfw
    have hfrA : st1.frontiers = st.frontiers ++ [fr] := by
      rw [hst1, ← hfr0]
      exact hf1
    have hnxA : st1.next = Δ := by
      have h : st1.next = st0.next ++ Δ := by
        rw [hst1]
        exact hfn
      rw [hnx0] at h
      simpa using h
    have hwrA : st1.writes = st.writes ++ Δ := by
      have h : st1.writes = st0.writes ++ Δ := by
        rw [hst1]
        exact hfw
      rwa [hwr0] at h
    have hsub : ∀ u ∈ fr, u ∈ sphere g s k := by
      intro u hu
      rw [← hts]
      exact List.mem_toFinset.mpr hu
    have hInv0 : LevelInv g s k ∅ st0.rp := by
      rw [hrp0]
      exact hInv
    have hnd0 : st0.next.Nodup := by
      rw [hnx0]
      exact List.nodup_nil
    have hts0 : st0.next.toFinset = ∅ := by
      rw [hnx0, List.toFinset_nil]
    have hfold := bfsFrontier_fold_level g s hg hs0 hs1 k fr hsub st0 ∅
      (Finset.empty_subset _) hInv0 hnd0 hts0
    rw [show ((k : ℤ) + 2) = ((k : ℤ) + 1 + 1) from by ring] at hfold
    obtain ⟨hInv1, hnd1, htsn, -⟩ := hfold
    have hset : ∅ ∪ (nbors g fr.toFinset \ ball g s k) = sphere g s (k + 1) := by
      rw [Finset.empty_union, hts, ← sphere_succ_eq]
    have hInv1' : LevelInv g s k (sphere g s (k + 1)) st1.rp := by
      rw [hst1, ← hset]
      exact hInv1
    have htsn' : st1.next.toFinset = sphere g s (k + 1) := by
      rw [hst1, ← hset]
      exact htsn
    have hnd1' : st1.next.Nodup := by
      rw [hst1]
      exact hnd1
    by_cases hc : st1.next = []
    · rw [if_pos hc]
      have hsph : sphere g s (k + 1) = ∅ := by
        rw [← htsn', hc, List.toFinset_nil]
      have hTeq : T = k + 1 := by
        have h2 := (hT (k + 1)).mp hsph
        omega
      have hΔnil : Δ = [] := by
        rw [hnxA] at hc
        exact hc
      refine ⟨?_, ?_, [], ?_, ?_, ?_, ?_⟩
      · show ((k : ℤ) + 1) = (T : ℤ)
        rw [hTeq]
        push_cast
        ring
      · show LevelInv g s (T - 1) ∅ st1.rp
        rw [hTeq, Nat.add_sub_cancel, ← hsph]
        exact hInv1'
      · show st1.frontiers = st.frontiers ++ (fr :: [])
        rw [hfrA]
      · simp only [List.length_cons, List.length_nil]
        omega
      · exact sphereList_cons g s k fr [] hnd hts (sphereList_nil g s (k + 1))
      · show st1.writes = st.writes ++ List.flatten []
        rw [hwrA, hΔnil]
        rfl
    · rw [if_neg hc]
      have hne : sphere g s (k + 1) ≠ ∅ := by
        intro he
        rw [he, List.toFinset_eq_empty_iff] at htsn'
        exact hc htsn'
      have hk1T : k + 1 < T := by
        have h1 : ¬ T ≤ k + 1 := fun hle => hne ((hT (k + 1)).mpr hle)
        omega
      have hInvN : LevelInv g s (k + 1) ∅ st1.rp :=
        levelInv_step g s k st1.rp hInv1'
      obtain ⟨ih1, ih2, F2, ihfr, ihlen, ihsl, ihw⟩ :=
        ih (k + 1) st1 st1.next ((k : ℤ) + 1) hk1T (by omega) hnd1' htsn' hInvN
      rw [show ((k + 1 : ℕ) : ℤ) + 1 = (k : ℤ) + 1 + 1 from by push_cast; ring]
        at ih1 ih2 ihfr ihw
      refine ⟨ih1, ih2, st1.next :: F2, ?_, ?_, ?_, ?_⟩
      · rw [ihfr, hfrA, List.append_assoc]
        rfl
      · simp only [List.length_cons] at ihlen ⊢
        omega
      · exact sphereList_cons g s k fr (st1.next :: F2) hnd hts ihsl
      · rw [ihw, hwrA, hnxA, List.flatten_cons, ← List.append_assoc]

theorem levelInv_init (g : AdjacencyList) (s : NI) (hs0 : 0 ≤ s)
    (hs1 : s.toNat < g.length) :
    LevelInv g s 0 ∅
      (setIdx (List.replicate g.length (⟨-1, 0⟩ : PathEnd)) s ⟨-1, 1⟩) := by
  have hlen : s.toNat < (List.replicate g.length (⟨-1, 0⟩ : PathEnd)).length := by
    simpa using hs1
  refine ⟨?_, ?_, ?_, ?_⟩
  · rw [setIdx_length]
    simp
  · intro j hj v hvj
    have hj0 : j = 0 := Nat.le_zero.mp hj
    subst hj0
    have hv : v = s := by
      rw [show sphere g s 0 = {s} from rfl] at hvj
      exact Finset.mem_singleton.mp hvj
    subst hv
    constructor
    · rw [idx_setIdx_self pzero _ v _ hs0 hlen]
      show (1 : ℤ) = ((0 : ℕ) : ℤ) + 1
      norm_num
    · intro h1
      omega
  · intro v hv
    exact absurd hv (Finset.not_mem_empty v)
  · intro v hv0 hv1 hvb _
    have hvs : v ≠ s := by
      intro he
      subst he
      exact hvb (by rw [show ball g v 0 = {v} from rfl]; exact Finset.mem_singleton_self v)
    rw [idx_setIdx_ne pzero _ s v _ hvs, idx_replicate pzero ⟨-1, 0⟩ g.length v hv0 hv1]

/-- Claim C1: on a graph passing the bounds check, `BreadthFirst` into a
freshly allocated FromList assigns the start node `PathEnd{From: -1,
Len: 1}`, assigns every node at graph distance `d` from the start a Len
of exactly `d + 1` with a From at distance `d - 1` (and an actual arc
from it), leaves every unreachable node at the unvisited entry
`{From: -1, Len: 0}`, and performs its writes level by level: the write
sequence is the concatenation of the distance spheres in increasing
distance order, so no node is written before all strictly closer nodes. -/
theorem breadthFirst_distance (g : AdjacencyList) (s : NI)
    (hb : (AdjacencyList.BoundsOk g).1 = true) (hs0 : 0 ≤ s)
    (hs1 : s.toNat < g.length) :
    idx pzero (g.BreadthFirst s []).fl.Paths s = ⟨-1, 1⟩ ∧
    (∀ (d : ℕ) (v : ℤ), v ∈ sphere g s d →
      (idx pzero (g.BreadthFirst s []).fl.Paths v).Len = (d : ℤ) + 1 ∧
      (1 ≤ d →
        (idx pzero (g.BreadthFirst s []).fl.Paths v).From ∈ sphere g s (d - 1) ∧
        v ∈ arcsOf g ((idx pzero (g.BreadthFirst s []).fl.Paths v).From))) ∧
    (∀ v : ℤ, 0 ≤ v → v.toNat < g.length → (∀ d : ℕ, v ∉ sphere g s d) →
      idx pzero (g.BreadthFirst s []).fl.Paths v = ⟨-1, 0⟩) ∧
    (∃ F : List (List NI),
      (g.BreadthFirst s []).writes = F.flatten ∧ SphereList g s 0 F) := by
  have hg := arcsBound_of_boundsOk g hb
  obtain ⟨T, hT1, hT2, hT⟩ := stop_level_spec g s hg hs0 hs1
  have hPaths : (g.BreadthFirst s []).fl.Paths =
      (bfsLoop g ⟨false, none, none⟩ (g.length + 1) 1 0 [s]
        ⟨setIdx (List.replicate g.length (⟨-1, 0⟩ : PathEnd)) s ⟨-1, 1⟩,
          [], [], [], [s], [], 0⟩).1.rp := rfl
  have hWrites : (g.BreadthFirst s []).writes =
      (bfsLoop g ⟨false, none, none⟩ (g.length + 1) 1 0 [s]
        ⟨setIdx (List.replicate g.length (⟨-1, 0⟩ : PathEnd)) s ⟨-1, 1⟩,
          [], [], [], [s], [], 0⟩).1.writes := rfl
  have hmain := bfsLoop_level g s hg hs0 hs1 T hT (g.length + 1) 0
    ⟨setIdx (List.replicate g.length (⟨-1, 0⟩ : PathEnd)) s ⟨-1, 1⟩,
      [], [], [], [s], [], 0⟩ [s] 0 (by omega) (by omega) (by simp)
    (by simp [sphere]) (levelInv_init g s hs0 hs1)
  rw [show ((0 : ℕ) : ℤ) + 1 = (1 : ℤ) from by norm_num] at hmain
  obtain ⟨hm, hInvT, F', hfrr, hlenF, hsl, hwr⟩ := hmain
  obtain ⟨-, Δ, F0, -, -, hpres, -, -, -, -⟩ :=
    bfsLoop_inv g ⟨false, none, none⟩ (g.length + 1) 1 0 [s]
      ⟨setIdx (List.replicate g.length (⟨-1, 0⟩ : PathEnd)) s ⟨-1, 1⟩,
        [], [], [], [s], [], 0⟩
  refine ⟨?_, ?_, ?_, ?_⟩
  · rw [hPaths]
    have hset : idx pzero
        (setIdx (List.replicate g.length (⟨-1, 0⟩ : PathEnd)) s ⟨-1, 1⟩) s =
        ⟨-1, 1⟩ :=
      idx_setIdx_self pzero _ s _ hs0 (by simpa using hs1)
    have hLs : (idx pzero
        (setIdx (List.replicate g.length (⟨-1, 0⟩ : PathEnd)) s ⟨-1, 1⟩) s).Len ≠ 0 := by
      rw [hset]
      show (1 : ℤ) ≠ 0
      norm_num
    have hp := hpres s hLs
    rw [hp]
    exact hset
  · intro d v hv
    have hdT : d ≤ T - 1 := by
      by_contra hcon
      push_neg at hcon
      have hemp : sphere g s d = ∅ := (hT d).mpr (by omega)
      rw [hemp] at hv
      exact absurd hv (Finset.not_mem_empty v)
    rw [hPaths]
    exact hInvT.2.1 d hdT v hv
  · intro v hv0 hv1 hvs
    rw [hPaths]
    refine hInvT.2.2.2 v hv0 hv1 ?_ (Finset.not_mem_empty v)
    intro hvb
    obtain ⟨j, -, hj⟩ := mem_ball_exists_sphere g s (T - 1) hvb
    exact hvs j hj
  · refine ⟨[s] :: F', ?_, hsl⟩
    rw [hWrites]
    have hwr' : (bfsLoop g ⟨false, none, none⟩ (g.length + 1) 1 0 [s]
        ⟨setIdx (List.replicate g.length (⟨-1, 0⟩ : PathEnd)) s ⟨-1, 1⟩,
          [], [], [], [s], [], 0⟩).1.writes = [s] ++ F'.flatten := hwr
    rw [hwr']
    rfl

theorem breadthFirst_distance_witness :
    ((AdjacencyList.BoundsOk [[1], [2], []]).1 = true ∧ (0 : ℤ) ≤ 0 ∧
      (0 : ℤ).toNat < List.length ([[1], [2], []] : AdjacencyList)) ∧
    idx pzero (AdjacencyList.BreadthFirst [[1], [2], []] 0 []).fl.Paths 0 = ⟨-1, 1⟩ :=
  ⟨⟨by decide, by decide, by decide⟩,
    (breadthFirst_distance [[1], [2], []] 0 (by decide) (by decide) (by decide)).1⟩

/-! FromList recomputation (modelled from the spec, §4.2; the FromList
implementation is absent from the provided sources). -/

/-- Modelled from the spec: `RecalcLeaves` resets the Leaves bitset to
all-set, then clears the parent bit of every node with a non-root
parent; a node stays marked iff no node names it as parent. -/
def FromList.RecalcLeaves (f : FromList) : FromList :=
  { f with
    Leaves :=
      (List.range f.Paths.length).foldl
        (fun lv (n : ℕ) =>
          if 0 ≤ (idx pzero f.Paths (n : ℤ)).From then
            setIdx lv (idx pzero f.Paths (n : ℤ)).From false
          else lv)
        (List.replicate f.Paths.length true) }

/-- Modelled from the spec: the parent-pointer walk from a node back to
its root (parent -1 marks the root; the walk is fuel-bounded, the
callers pass fuel at least the tree height). -/
def chainToRoot (p : List PathEnd) : ℕ → ℤ → List ℤ
  | 0, _ => []
  | fuel + 1, n =>
    n :: (if (idx pzero p n).From < 0 then []
          else chainToRoot p fuel (idx pzero p n).From)

/-- Modelled from the spec: walking a root path from its deep end,
record length `l` at the first node and decrement inward, so the
root-most node of the walk receives length 1. -/
def assignChain : List PathEnd → List ℤ → ℤ → List PathEnd
  | p, [], _ => p
  | p, v :: rest, l =>
    assignChain (setIdx p v ⟨(idx pzero p v).From, l⟩) rest (l - 1)

/-- Modelled from the spec: `RecalcLen` (requires Leaves current) walks
up from every leaf recording length 1 at the root-most ancestor and
incrementing outward, and recomputes MaxLen as the maximum length seen. -/
def FromList.RecalcLen (f : FromList) : FromList :=
  let r :=
    (List.range f.Paths.length).foldl
      (fun acc (i : ℕ) =>
        if idx false f.Leaves (i : ℤ) = true then
          (assignChain acc.1 (chainToRoot f.Paths f.Paths.length (i : ℤ))
            ((chainToRoot f.Paths f.Paths.length (i : ℤ)).length : ℤ),
           max acc.2 ((chainToRoot f.Paths f.Paths.length (i : ℤ)).length : ℤ))
        else acc)
      (f.Paths, 0)
  { f with
    Paths := r.1
    MaxLen := r.2 }

/-- A complete traversal output: every node is reached, so the recorded
lengths are at least 1, bounded by the node count, and consistent with
the parent pointers (a root entry has parent -1 and length 1; any other
entry points at an in-range parent whose length is one less). -/
def TreeProper (f : FromList) : Prop :=
  (∀ i ∈ List.range f.Paths.length,
    1 ≤ (idx pzero f.Paths (i : ℤ)).Len ∧
    (idx pzero f.Paths (i : ℤ)).Len ≤ (f.Paths.length : ℤ)) ∧
  (∀ i ∈ List.range f.Paths.length,
    ((idx pzero f.Paths (i : ℤ)).From = -1 ∧ (idx pzero f.Paths (i : ℤ)).Len = 1) ∨
    (0 ≤ (idx pzero f.Paths (i : ℤ)).From ∧
      (idx pzero f.Paths (i : ℤ)).From.toNat < f.Paths.length ∧
      (idx pzero f.Paths (i : ℤ)).Len =
        (idx pzero f.Paths ((idx pzero f.Paths (i : ℤ)).From)).Len + 1))

instance (f : FromList) : Decidable (TreeProper f) := by
  unfold TreeProper
  infer_instance

/-- The maximum recorded length over all entries of a Paths slice. -/
def maxLenOf (p : List PathEnd) : ℤ :=
  (List.range p.length).foldl (fun m (i : ℕ) => max m (idx pzero p (i : ℤ)).Len) 0

theorem setIdx_idx_id {α : Type} (d : α) (l : List α) (i : ℤ) (h0 : 0 ≤ i)
    (h1 : i.toNat < l.length) : setIdx l i (idx d l i) = l := by
  unfold setIdx idx
  rw [if_pos ⟨h0, h1⟩, dif_pos ⟨h0, h1⟩]
  apply List.ext_getElem
  · simp
  · intro j hj1 hj2
    rw [List.getElem_set]
    split
    · next heq =>
      subst heq
      simp [List.get_eq_getElem]
    · rfl

theorem chain_assign_id (f : FromList) (hP : TreeProper f) :
    ∀ (L : ℕ) (v : ℤ), 0 ≤ v → v.toNat < f.Paths.length →
      (idx pzero f.Paths v).Len = (L : ℤ) + 1 →
      ∀ fuel : ℕ, L + 1 ≤ fuel →
      (chainToRoot f.Paths fuel v).length = L + 1 ∧
      assignChain f.Paths (chainToRoot f.Paths fuel v) ((L : ℤ) + 1) = f.Paths := by
  intro L
  induction L with
  | zero =>
    intro v h0 h1 hLen fuel hfuel
    have hmem : v.toNat ∈ List.range f.Paths.length := List.mem_range.mpr h1
    have hcase := hP.2 v.toNat hmem
    rw [Int.toNat_of_nonneg h0] at hcase
    have hFrom : (idx pzero f.Paths v).From = -1 := by
      rcases hcase with ⟨hf, -⟩ | ⟨hf0, hf1, hf2⟩
      · exact hf
      · exfalso
        have hup := (hP.1 ((idx pzero f.Paths v).From).toNat
          (List.mem_range.mpr hf1)).1
        rw [Int.toNat_of_nonneg hf0] at hup
        rw [hLen] at hf2
        omega
    cases fuel with
    | zero => exact absurd hfuel (by omega)
    | succ fuel =>
      have hchain : chainToRoot f.Paths (fuel + 1) v = [v] := by
        show (v :: (if (idx pzero f.Paths v).From < 0 then []
          else chainToRoot f.Paths fuel (idx pzero f.Paths v).From)) = [v]
        rw [hFrom]
        simp
      refine ⟨by rw [hchain]; rfl, ?_⟩
      rw [hchain]
      show setIdx f.Paths v ⟨(idx pzero f.Paths v).From, ((0 : ℕ) : ℤ) + 1⟩ = f.Paths
      rw [← hLen]
      have hid : setIdx f.Paths v
          ⟨(idx pzero f.Paths v).From, (idx pzero f.Paths v).Len⟩ = f.Paths :=
        setIdx_idx_id pzero f.Paths v h0 h1
      exact hid
  | succ L ih =>
    intro v h0 h1 hLen fuel hfuel
    have hmem : v.toNat ∈ List.range f.Paths.length := List.mem_range.mpr h1
    have hcase := hP.2 v.toNat hmem
    rw [Int.toNat_of_nonneg h0] at hcase
    rcases hcase with ⟨-, hf1⟩ | ⟨hf0, hf1, hf2⟩
    · exfalso
      rw [hLen] at hf1
      omega
    · have hup : (idx pzero f.Paths ((idx pzero f.Paths v).From)).Len = (L : ℤ) + 1 := by
        rw [hLen] at hf2
        omega
      cases fuel with
      | zero => exact absurd hfuel (by omega)
      | succ fuel =>
        have hfuel' : L + 1 ≤ fuel := by omega
        have hnotlt : ¬ (idx pzero f.Paths v).From < 0 := not_lt.mpr hf0
        have hchain : chainToRoot f.Paths (fuel + 1) v =
            v :: chainToRoot f.Paths fuel (idx pzero f.Paths v).From := by
          show (v :: (if (idx pzero f.Paths v).From < 0 then []
            else chainToRoot f.Paths fuel (idx pzero f.Paths v).From)) = _
          rw [if_neg hnotlt]
        obtain ⟨ihlen, ihassign⟩ :=
          ih (idx pzero f.Paths v).From hf0 hf1 hup fuel hfuel'
        constructor
        · rw [hchain]
          rw [List.length_cons, ihlen]
        · rw [hchain]
          show assignChain
            (setIdx f.Paths v ⟨(idx pzero f.Paths v).From, ((L + 1 : ℕ) : ℤ) + 1⟩)
            (chainToRoot f.Paths fuel (idx pzero f.Paths v).From)
            ((((L + 1 : ℕ) : ℤ) + 1) - 1) = f.Paths
          rw [← hLen]
          have hid : setIdx f.Paths v
              ⟨(idx pzero f.Paths v).From, (idx pzero f.Paths v).Len⟩ = f.Paths :=
            setIdx_idx_id pzero f.Paths v h0 h1
          rw [hid, hLen,
            show ((((L + 1 : ℕ) : ℤ) + 1) - 1) = ((L : ℕ) : ℤ) + 1 from by push_cast; ring]
          exact ihassign

theorem recalcLeaves_keep (f : FromList) :
    ∀ (l : List ℕ) (lv : Bitset) (i : ℤ),
      idx false lv i = true →
      (∀ j ∈ l, ¬(0 ≤ (idx pzero f.Paths (j : ℤ)).From ∧
        (idx pzero f.Paths (j : ℤ)).From = i)) →
      idx false
        (l.foldl
          (fun lv (n : ℕ) =>
            if 0 ≤ (idx pzero f.Paths (n : ℤ)).From then
              setIdx lv (idx pzero f.Paths (n : ℤ)).From false
            else lv)
          lv) i = true := by
  intro l
  induction l with
  | nil =>
    intro lv i h _
    exact h
  | cons j rest ih =>
    intro lv i h hnc
    rw [List.foldl_cons]
    apply ih
    · by_cases hj : 0 ≤ (idx pzero f.Paths (j : ℤ)).From
      · rw [if_pos hj]
        have hne : i ≠ (idx pzero f.Paths (j : ℤ)).From := by
          intro he
          exact hnc j (List.mem_cons_self j rest) ⟨hj, he.symm⟩
        rw [idx_setIdx_ne false lv ((idx pzero f.Paths (j : ℤ)).From) i false hne]
        exact h
      · rw [if_neg hj]
        exact h
    · intro j' hj'
      exact hnc j' (List.mem_cons_of_mem j hj')

theorem recalcLeaves_bit_true (f : FromList) (i : ℕ) (hi : i < f.Paths.length)
    (hnc : ∀ j ∈ List.range f.Paths.length,
      ¬(0 ≤ (idx pzero f.Paths (j : ℤ)).From ∧
        (idx pzero f.Paths (j : ℤ)).From = (i : ℤ))) :
    idx false f.RecalcLeaves.Leaves (i : ℤ) = true := by
  have h0 : idx false (List.replicate f.Paths.length true) (i : ℤ) = true :=
    idx_replicate false true f.Paths.length (i : ℤ) (Int.natCast_nonneg i)
      (by simpa using hi)
  exact recalcLeaves_keep f (List.range f.Paths.length)
    (List.replicate f.Paths.length true) (i : ℤ) h0 hnc

theorem foldl_max_le (w : ℕ → ℤ) (B : ℤ) :
    ∀ (l : List ℕ) (a : ℤ), a ≤ B → (∀ j ∈ l, w j ≤ B) →
      l.foldl (fun m i => max m (w i)) a ≤ B := by
  intro l
  induction l with
  | nil =>
    intro a ha _
    exact ha
  | cons j rest ih =>
    intro a ha hall
    rw [List.foldl_cons]
    exact ih (max a (w j)) (max_le ha (hall j (List.mem_cons_self j rest)))
      (fun j' hj' => hall j' (List.mem_cons_of_mem j hj'))

theorem foldl_max_init (w : ℕ → ℤ) :
    ∀ (l : List ℕ) (a : ℤ), a ≤ l.foldl (fun m i => max m (w i)) a := by
  intro l
  induction l with
  | nil =>
    intro a
    exact le_refl a
  | cons j rest ih =>
    intro a
    rw [List.foldl_cons]
    exact (le_max_left a (w j)).trans (ih (max a (w j)))

theorem foldl_max_mem (w : ℕ → ℤ) :
    ∀ (l : List ℕ) (a : ℤ) (j : ℕ), j ∈ l →
      w j ≤ l.foldl (fun m i => max m (w i)) a := by
  intro l
  induction l with
  | nil =>
    intro a j hj
    exact absurd hj (List.not_mem_nil j)
  | cons j0 rest ih =>
    intro a j hj
    rw [List.foldl_cons]
    rcases List.mem_cons.mp hj with he | hm
    · subst he
      exact (le_max_right a (w j)).trans (foldl_max_init w rest (max a (w j)))
    · exact ih (max a (w j0)) j hm

theorem foldl_max_attained (w : ℕ → ℤ) :
    ∀ (l : List ℕ) (a : ℤ),
      l.foldl (fun m i => max m (w i)) a = a ∨
      ∃ j ∈ l, l.foldl (fun m i => max m (w i)) a = w j := by
  intro l
  induction l with
  | nil =>
    intro a
    exact Or.inl rfl
  | cons j0 rest ih =>
    intro a
    rw [List.foldl_cons]
    rcases ih (max a (w j0)) with h | ⟨j, hj, hw⟩
    · rcases max_choice a (w j0) with hm | hm
      · left
        rw [h, hm]
      · right
        exact ⟨j0, List.mem_cons_self j0 rest, by rw [h, hm]⟩
    · right
      exact ⟨j, List.mem_cons_of_mem j0 hj, hw⟩

theorem foldl_gmax_le (w : ℕ → ℤ) (gate : ℕ → Bool) (B : ℤ) :
    ∀ (l : List ℕ) (a : ℤ), a ≤ B → (∀ j ∈ l, w j ≤ B) →
      l.foldl (fun m i => if gate i = true then max m (w i) else m) a ≤ B := by
  intro l
  induction l with
  | nil =>
    intro a ha _
    exact ha
  | cons j rest ih =>
    intro a ha hall
    rw [List.foldl_cons]
    refine ih _ ?_ (fun j' hj' => hall j' (List.mem_cons_of_mem j hj'))
    by_cases hg : gate j = true
    · rw [if_pos hg]
      exact max_le ha (hall j (List.mem_cons_self j rest))
    · rw [if_neg hg]
      exact ha

theorem foldl_gmax_init (w : ℕ → ℤ) (gate : ℕ → Bool) :
    ∀ (l : List ℕ) (a : ℤ),
      a ≤ l.foldl (fun m i => if gate i = true then max m (w i) else m) a := by
  intro l
  induction l with
  | nil =>
    intro a
    exact le_refl a
  | cons j rest ih =>
    intro a
    rw [List.foldl_cons]
    refine le_trans ?_ (ih _)
    by_cases hg : gate j = true
    · rw [if_pos hg]
      exact le_max_left a (w j)
    · rw [if_neg hg]

theorem foldl_gmax_mem (w : ℕ → ℤ) (gate : ℕ → Bool) :
    ∀ (l : List ℕ) (a : ℤ) (j : ℕ), j ∈ l → gate j = true →
      w j ≤ l.foldl (fun m i => if gate i = true then max m (w i) else m) a := by
  intro l
  induction l with
  | nil =>
    intro a j hj _
    exact absurd hj (List.not_mem_nil j)
  | cons j0 rest ih =>
    intro a j hj hgj
    rw [List.foldl_cons]
    rcases List.mem_cons.mp hj with he | hm
    · subst he
      refine le_trans ?_ (foldl_gmax_init w gate rest _)
      rw [if_pos hgj]
      exact le_max_right a (w j)
    · exact ih _ j hm hgj

theorem recalcLen_fold (g0 : FromList) (hP : TreeProper g0) :
    ∀ (l : List ℕ), (∀ i ∈ l, i < g0.Paths.length) → ∀ (m : ℤ),
      l.foldl
        (fun acc (i : ℕ) =>
          if idx false g0.Leaves (i : ℤ) = true then
            (assignChain acc.1 (chainToRoot g0.Paths g0.Paths.length (i : ℤ))
              ((chainToRoot g0.Paths g0.Paths.length (i : ℤ)).length : ℤ),
             max acc.2 ((chainToRoot g0.Paths g0.Paths.length (i : ℤ)).length : ℤ))
          else acc)
        (g0.Paths, m) =
      (g0.Paths,
       l.foldl
         (fun m2 (i : ℕ) =>
           if idx false g0.Leaves (i : ℤ) = true then
             max m2 (idx pzero g0.Paths (i : ℤ)).Len
           else m2)
         m) := by
  intro l
  induction l with
  | nil =>
    intro _ m
    rfl
  | cons i rest ih =>
    intro hbound m
    have hi : i < g0.Paths.length := hbound i (List.mem_cons_self i rest)
    rw [List.foldl_cons, List.foldl_cons]
    by_cases hg : idx false g0.Leaves (i : ℤ) = true
    · rw [if_pos hg, if_pos hg]
      have h1len : 1 ≤ (idx pzero g0.Paths (i : ℤ)).Len :=
        (hP.1 i (List.mem_range.mpr hi)).1
      have hLle : (idx pzero g0.Paths (i : ℤ)).Len ≤ (g0.Paths.length : ℤ) :=
        (hP.1 i (List.mem_range.mpr hi)).2
      obtain ⟨L, hLen⟩ : ∃ L : ℕ, (idx pzero g0.Paths (i : ℤ)).Len = (L : ℤ) + 1 :=
        ⟨((idx pzero g0.Paths (i : ℤ)).Len - 1).toNat, by omega⟩
      have hfuel : L + 1 ≤ g0.Paths.length := by omega
      obtain ⟨hclen, hcassign⟩ := chain_assign_id g0 hP L (i : ℤ)
        (Int.natCast_nonneg i) (by simpa using hi) hLen g0.Paths.length hfuel
      rw [hclen, show ((L + 1 : ℕ) : ℤ) = (L : ℤ) + 1 from by push_cast; ring,
        hcassign, ← hLen]
      exact ih (fun i' hi' => hbound i' (List.mem_cons_of_mem i hi'))
        (max m (idx pzero g0.Paths (i : ℤ)).Len)
    · rw [if_neg hg, if_neg hg]
      exact ih (fun i' hi' => hbound i' (List.mem_cons_of_mem i hi')) m

theorem recalcLen_eq (g0 : FromList) (hP : TreeProper g0) :
    g0.RecalcLen =
      { g0 with
        Paths := g0.Paths
        MaxLen :=
          (List.range g0.Paths.length).foldl
            (fun m2 (i : ℕ) =>
              if idx false g0.Leaves (i : ℤ) = true then
                max m2 (idx pzero g0.Paths (i : ℤ)).Len
              else m2)
            0 } := by
  show ({ g0 with
    Paths :=
      ((List.range g0.Paths.length).foldl
        (fun acc (i : ℕ) =>
          if idx false g0.Leaves (i : ℤ) = true then
            (assignChain acc.1 (chainToRoot g0.Paths g0.Paths.length (i : ℤ))
              ((chainToRoot g0.Paths g0.Paths.length (i : ℤ)).length : ℤ),
             max acc.2 ((chainToRoot g0.Paths g0.Paths.length (i : ℤ)).length : ℤ))
          else acc)
        (g0.Paths, 0)).1
    MaxLen :=
      ((List.range g0.Paths.length).foldl
        (fun acc (i : ℕ) =>
          if idx false g0.Leaves (i : ℤ) = true then
            (assignChain acc.1 (chainToRoot g0.Paths g0.Paths.length (i : ℤ))
              ((chainToRoot g0.Paths g0.Paths.length (i : ℤ)).length : ℤ),
             max acc.2 ((chainToRoot g0.Paths g0.Paths.length (i : ℤ)).length : ℤ))
          else acc)
        (g0.Paths, 0)).2 } : FromList) = _
  rw [recalcLen_fold g0 hP (List.range g0.Paths.length)
    (fun i hi => List.mem_range.mp hi) 0]

/-- Claim C7 (corrected): the literal claim — `RecalcLeaves` then
`RecalcLen` reproduces the per-node lengths and MaxLen of any traversal
output — fails when the traversal left a node unreached, because the
unreached node (still `{From: -1, Len: 0}`) is marked a leaf and then
assigned length 1; the recomputation is a fixpoint exactly of complete
traversal outputs.  Corrected statement: for every FromList in which
every node was reached (lengths at least 1 and consistent with the
parent pointers) and whose MaxLen is the maximum recorded length, the
recomputation reproduces both the Paths entries and MaxLen. -/
theorem recalc_reproduces_complete_traversal (f : FromList)
    (hP : TreeProper f) (hM : f.MaxLen = maxLenOf f.Paths) :
    f.RecalcLeaves.RecalcLen.Paths = f.Paths ∧
    f.RecalcLeaves.RecalcLen.MaxLen = f.MaxLen := by
  have hP' : TreeProper f.RecalcLeaves := hP
  rw [recalcLen_eq f.RecalcLeaves hP']
  have hmem_le : ∀ j ∈ List.range f.Paths.length,
      (idx pzero f.Paths (j : ℤ)).Len ≤ maxLenOf f.Paths := by
    intro j hj
    exact foldl_max_mem (fun i => (idx pzero f.Paths (i : ℤ)).Len)
      (List.range f.Paths.length) 0 j hj
  have h0le : (0 : ℤ) ≤ maxLenOf f.Paths :=
    foldl_max_init (fun i => (idx pzero f.Paths (i : ℤ)).Len)
      (List.range f.Paths.length) 0
  refine ⟨rfl, ?_⟩
  show (List.range f.Paths.length).foldl
    (fun m2 (i : ℕ) =>
      if idx false f.RecalcLeaves.Leaves (i : ℤ) = true then
        max m2 (idx pzero f.Paths (i : ℤ)).Len
      else m2)
    0 = f.MaxLen
  rw [hM]
  rcases Nat.eq_zero_or_pos f.Paths.length with hn | hn
  · have hml : maxLenOf f.Paths = 0 := by
      unfold maxLenOf
      rw [hn]
      rfl
    rw [hml, hn]
    rfl
  · apply le_antisymm
    · exact foldl_gmax_le (fun i => (idx pzero f.Paths (i : ℤ)).Len)
        (fun i => idx false f.RecalcLeaves.Leaves (i : ℤ)) (maxLenOf f.Paths)
        (List.range f.Paths.length) 0 h0le hmem_le
    · rcases foldl_max_attained (fun i => (idx pzero f.Paths (i : ℤ)).Len)
        (List.range f.Paths.length) 0 with hatt | ⟨i0, hi0mem, hatt⟩
      · exfalso
        have h1 : (1 : ℤ) ≤ (idx pzero f.Paths ((0 : ℕ) : ℤ)).Len :=
          (hP.1 0 (List.mem_range.mpr hn)).1
        have h2 := hmem_le 0 (List.mem_range.mpr hn)
        have h3 : maxLenOf f.Paths = 0 := hatt
        rw [h3] at h2
        omega
      · have hmax0 : maxLenOf f.Paths = (idx pzero f.Paths ((i0 : ℕ) : ℤ)).Len := hatt
        have hleaf : idx false f.RecalcLeaves.Leaves ((i0 : ℕ) : ℤ) = true := by
          apply recalcLeaves_bit_true f i0 (List.mem_range.mp hi0mem)
          intro j hj hcon
          obtain ⟨hjf0, hjf1⟩ := hcon
          rcases hP.2 j hj with ⟨hr, -⟩ | ⟨-, -, hf2⟩
          · rw [hr] at hjf1
            have hcon2 : (-1 : ℤ) = ((i0 : ℕ) : ℤ) := hjf1
            omega
          · rw [hjf1] at hf2
            have hjle := hmem_le j hj
            rw [hmax0] at hjle
            omega
        rw [hmax0]
        exact foldl_gmax_mem (fun i => (idx pzero f.Paths (i : ℤ)).Len)
          (fun i => idx false f.RecalcLeaves.Leaves (i : ℤ))
          (List.range f.Paths.length) 0 i0 hi0mem hleaf

theorem recalc_reproduces_complete_traversal_witness :
    (TreeProper (AdjacencyList.BreadthFirst [[1, 2], [], []] 0 []).fl ∧
      (AdjacencyList.BreadthFirst [[1, 2], [], []] 0 []).fl.MaxLen =
        maxLenOf (AdjacencyList.BreadthFirst [[1, 2], [], []] 0 []).fl.Paths) ∧
    (AdjacencyList.BreadthFirst [[1, 2], [], []] 0 []).fl.RecalcLeaves.RecalcLen.Paths =
      (AdjacencyList.BreadthFirst [[1, 2], [], []] 0 []).fl.Paths :=
  ⟨⟨by decide, by decide⟩,
    (recalc_reproduces_complete_traversal
      (AdjacencyList.BreadthFirst [[1, 2], [], []] 0 []).fl
      (by decide) (by decide)).1⟩

/-- The literal C7 claim is false on an incomplete traversal: BFS on the
two-node arcless graph reaches only the start node, but recomputation
marks the unreached node a leaf and assigns it length 1, changing its
recorded length. -/
theorem recalc_changes_unreached :
    (AdjacencyList.BreadthFirst [[], []] 0 []).fl.RecalcLeaves.RecalcLen.Paths.map
        PathEnd.Len ≠
      (AdjacencyList.BreadthFirst [[], []] 0 []).fl.Paths.map PathEnd.Len := by
  decide

/-! Root-path queries (modelled from the spec, §4.2). -/

/-- Valid, acyclic parent pointers: every entry is unreached (length 0),
a root (parent -1, length 1), or points at an in-range reached parent
whose recorded length is one less. -/
def PathsValid (p : List PathEnd) : Prop :=
  ∀ i ∈ List.range p.length,
    (idx pzero p (i : ℤ)).Len = 0 ∨
    ((idx pzero p (i : ℤ)).From = -1 ∧ (idx pzero p (i : ℤ)).Len = 1) ∨
    (0 ≤ (idx pzero p (i : ℤ)).From ∧
      (idx pzero p (i : ℤ)).From.toNat < p.length ∧
      1 ≤ (idx pzero p ((idx pzero p (i : ℤ)).From)).Len ∧
      (idx pzero p (i : ℤ)).Len =
        (idx pzero p ((idx pzero p (i : ℤ)).From)).Len + 1)

instance (p : List PathEnd) : Decidable (PathsValid p) := by
  unfold PathsValid
  infer_instance

/-- Modelled from the spec: fill the output buffer of `PathTo` from the
back while walking parent pointers, one position per step. -/
def fillPath (paths : List PathEnd) : ℕ → ℤ → List ℤ → List ℤ
  | 0, _, p => p
  | k + 1, e, p =>
    fillPath paths k (idx pzero paths e).From (setIdx p (k : ℤ) e)

/-- Modelled from the spec: `PathTo` walks parent pointers from the
target back to its root and returns the sequence in root-to-target
order; the caller's buffer is reused when it is large enough, otherwise
one sized to the recorded path length is allocated; a target with
recorded length 0 yields the empty sequence. -/
def FromList.PathTo (f : FromList) (t : ℤ) (buf : List ℤ) : List ℤ :=
  let n := (idx pzero f.Paths t).Len
  if n = 0 then []
  else
    fillPath f.Paths n.toNat t
      (if n.toNat ≤ buf.length then buf.take n.toNat else List.replicate n.toNat 0)

/-- Modelled from the spec: walk a node `k` steps up through parents. -/
def climb (p : List PathEnd) : ℕ → ℤ → ℤ
  | 0, v => v
  | k + 1, v => climb p k (idx pzero p v).From

/-- Modelled from the spec: walk two nodes of equal depth up in
lockstep, comparing identifiers until they match or both reach a root;
no match at the roots means no common ancestor (sentinel -1). -/
def lockstep (p : List PathEnd) : ℕ → ℤ → ℤ → ℤ
  | 0, a, b => if a = b then a else -1
  | fuel + 1, a, b =>
    if a = b then a
    else if (idx pzero p a).Len ≤ 1 then -1
    else lockstep p fuel (idx pzero p a).From (idx pzero p b).From

/-- Modelled from the spec: `CommonAncestor` walks the deeper node up
to the depth of the shallower (using the recorded lengths), then walks
both up in lockstep until they meet. -/
def FromList.CommonAncestor (f : FromList) (a b : ℤ) : ℤ :=
  if (idx pzero f.Paths a).Len < (idx pzero f.Paths b).Len then
    lockstep f.Paths (idx pzero f.Paths a).Len.toNat
      (climb f.Paths ((idx pzero f.Paths b).Len - (idx pzero f.Paths a).Len).toNat b) a
  else
    lockstep f.Paths (idx pzero f.Paths b).Len.toNat
      (climb f.Paths ((idx pzero f.Paths a).Len - (idx pzero f.Paths b).Len).toNat a) b

theorem setIdx_drop {α : Type} (p : List α) (k : ℕ) (e : α) (h : k < p.length) :
    (setIdx p (k : ℤ) e).drop k = e :: p.drop (k + 1) := by
  unfold setIdx
  rw [if_pos ⟨Int.natCast_nonneg k, by simpa using h⟩]
  rw [show ((k : ℤ)).toNat = k from by simp]
  rw [List.drop_set, if_neg (lt_irrefl k), Nat.sub_self,
    List.drop_eq_getElem_cons h, List.set_cons_zero]

theorem fillPath_eq (f : FromList) (hv : PathsValid f.Paths) :
    ∀ (L : ℕ) (e : ℤ), 0 ≤ e → e.toNat < f.Paths.length →
      (idx pzero f.Paths e).Len = (L : ℤ) + 1 →
      ∀ p : List ℤ, L + 1 ≤ p.length →
        fillPath f.Paths (L + 1) e p =
          (chainToRoot f.Paths (L + 1) e).reverse ++ p.drop (L + 1) := by
  intro L
  induction L with
  | zero =>
    intro e h0 h1 hLen p hp
    have hmem : e.toNat ∈ List.range f.Paths.length := List.mem_range.mpr h1
    have hcase := hv e.toNat hmem
    rw [Int.toNat_of_nonneg h0] at hcase
    have hFrom : (idx pzero f.Paths e).From = -1 := by
      rcases hcase with h | ⟨hf, -⟩ | ⟨-, -, hp1, hpe⟩
      · rw [hLen] at h
        exact absurd h (by norm_num)
      · exact hf
      · exfalso
        rw [hLen] at hpe
        omega
    have hc : chainToRoot f.Paths (0 + 1) e = [e] := by
      show (e :: (if (idx pzero f.Paths e).From < 0 then []
        else chainToRoot f.Paths 0 (idx pzero f.Paths e).From)) = [e]
      rw [hFrom]
      simp
    rw [show fillPath f.Paths (0 + 1) e p =
      fillPath f.Paths 0 (idx pzero f.Paths e).From (setIdx p ((0 : ℕ) : ℤ) e)
      from rfl, hc]
    show setIdx p ((0 : ℕ) : ℤ) e = [e].reverse ++ p.drop (0 + 1)
    calc setIdx p ((0 : ℕ) : ℤ) e
        = (setIdx p ((0 : ℕ) : ℤ) e).drop 0 := (List.drop_zero _).symm
      _ = e :: p.drop (0 + 1) := setIdx_drop p 0 e (by omega)
      _ = [e].reverse ++ p.drop (0 + 1) := by simp
  | succ L ih =>
    intro e h0 h1 hLen p hp
    have hmem : e.toNat ∈ List.range f.Paths.length := List.mem_range.mpr h1
    have hcase := hv e.toNat hmem
    rw [Int.toNat_of_nonneg h0] at hcase
    rcases hcase with h | ⟨-, hf⟩ | ⟨hp0, hp1, hp2, hp3⟩
    · exfalso
      rw [hLen] at h
      have : ((L + 1 : ℕ) : ℤ) + 1 = 0 := h
      omega
    · exfalso
      rw [hLen] at hf
      have : ((L + 1 : ℕ) : ℤ) + 1 = 1 := hf
      omega
    · have hLu : (idx pzero f.Paths ((idx pzero f.Paths e).From)).Len = (L : ℤ) + 1 := by
        rw [hLen] at hp3
        omega
      have hnotlt : ¬ (idx pzero f.Paths e).From < 0 := not_lt.mpr hp0
      have hc : chainToRoot f.Paths (L + 1 + 1) e =
          e :: chainToRoot f.Paths (L + 1) (idx pzero f.Paths e).From := by
        show (e :: (if (idx pzero f.Paths e).From < 0 then []
          else chainToRoot f.Paths (L + 1) (idx pzero f.Paths e).From)) = _
        rw [if_neg hnotlt]
      rw [show fillPath f.Paths (L + 1 + 1) e p =
        fillPath f.Paths (L + 1) (idx pzero f.Paths e).From
          (setIdx p ((L + 1 : ℕ) : ℤ) e) from rfl, hc]
      have hplen : L + 1 ≤ (setIdx p ((L + 1 : ℕ) : ℤ) e).length := by
        rw [setIdx_length]
        omega
      rw [ih (idx pzero f.Paths e).From hp0 hp1 hLu (setIdx p ((L + 1 : ℕ) : ℤ) e) hplen]
      rw [setIdx_drop p (L + 1) e (by omega)]
      rw [List.reverse_cons, List.append_assoc]
      rfl

/-- Claim C6: on a FromList with valid acyclic parent pointers,
`PathTo` on a target with nonzero recorded length returns exactly the
reverse of the parent-pointer walk from the target to its root
(root-to-target order), whatever buffer is supplied; in particular a
root entry (parent -1, length 1) yields the single-element sequence of
the target itself. -/
theorem pathTo_reverse_walk (f : FromList) (hv : PathsValid f.Paths) (t : ℤ)
    (h0 : 0 ≤ t) (h1 : t.toNat < f.Paths.length)
    (hL : (idx pzero f.Paths t).Len ≠ 0) (buf : List ℤ) :
    f.PathTo t buf =
      (chainToRoot f.Paths (idx pzero f.Paths t).Len.toNat t).reverse ∧
    ((idx pzero f.Paths t).From = -1 → f.PathTo t buf = [t]) := by
  have hmem : t.toNat ∈ List.range f.Paths.length := List.mem_range.mpr h1
  have hcase := hv t.toNat hmem
  rw [Int.toNat_of_nonneg h0] at hcase
  have h1le : 1 ≤ (idx pzero f.Paths t).Len := by
    rcases hcase with h | ⟨-, hf⟩ | ⟨-, -, hq1, hq2⟩
    · exact absurd h hL
    · omega
    · omega
  obtain ⟨L, hLen⟩ : ∃ L : ℕ, (idx pzero f.Paths t).Len = (L : ℤ) + 1 :=
    ⟨((idx pzero f.Paths t).Len - 1).toNat, by omega⟩
  have hLn : (idx pzero f.Paths t).Len.toNat = L + 1 := by omega
  have hunf : f.PathTo t buf =
      fillPath f.Paths (idx pzero f.Paths t).Len.toNat t
        (if (idx pzero f.Paths t).Len.toNat ≤ buf.length then
          buf.take (idx pzero f.Paths t).Len.toNat
        else List.replicate (idx pzero f.Paths t).Len.toNat 0) := by
    show (if (idx pzero f.Paths t).Len = 0 then [] else
      fillPath f.Paths (idx pzero f.Paths t).Len.toNat t
        (if (idx pzero f.Paths t).Len.toNat ≤ buf.length then
          buf.take (idx pzero f.Paths t).Len.toNat
        else List.replicate (idx pzero f.Paths t).Len.toNat 0)) = _
    rw [if_neg hL]
  have hp0len : (if L + 1 ≤ buf.length then buf.take (L + 1)
      else List.replicate (L + 1) (0 : ℤ)).length = L + 1 := by
    split
    · next hb =>
      rw [List.length_take]
      omega
    · rw [List.length_replicate]
  have hmain : f.PathTo t buf =
      (chainToRoot f.Paths (idx pzero f.Paths t).Len.toNat t).reverse := by
    rw [hunf, hLn]
    rw [fillPath_eq f hv L t h0 h1 hLen _ (by rw [hp0len])]
    rw [List.drop_eq_nil_of_le (by rw [hp0len])]
    rw [List.append_nil]
  refine ⟨hmain, fun hFrom => ?_⟩
  have hL1 : (idx pzero f.Paths t).Len = 1 := by
    rcases hcase with h | ⟨-, hf⟩ | ⟨hq0, -, -, -⟩
    · exact absurd h hL
    · exact hf
    · rw [hFrom] at hq0
      exact absurd hq0 (by norm_num)
  have hL0 : L = 0 := by omega
  rw [hmain, hLn, hL0]
  show (chainToRoot f.Paths (0 + 1) t).reverse = [t]
  rw [show chainToRoot f.Paths (0 + 1) t =
    (t :: (if (idx pzero f.Paths t).From < 0 then []
      else chainToRoot f.Paths 0 (idx pzero f.Paths t).From)) from rfl]
  rw [hFrom]
  simp

theorem pathsValid_cases (p : List PathEnd) (hv : PathsValid p) (v : ℤ)
    (h0 : 0 ≤ v) (h1 : v.toNat < p.length) :
    (idx pzero p v).Len = 0 ∨
    ((idx pzero p v).From = -1 ∧ (idx pzero p v).Len = 1) ∨
    (0 ≤ (idx pzero p v).From ∧
      (idx pzero p v).From.toNat < p.length ∧
      1 ≤ (idx pzero p ((idx pzero p v).From)).Len ∧
      (idx pzero p v).Len = (idx pzero p ((idx pzero p v).From)).Len + 1) := by
  have h := hv v.toNat (List.mem_range.mpr h1)
  rwa [Int.toNat_of_nonneg h0] at h

theorem pathsValid_root (p : List PathEnd) (hv : PathsValid p) (v : ℤ)
    (h0 : 0 ≤ v) (h1 : v.toNat < p.length)
    (hLen : (idx pzero p v).Len = 1) : (idx pzero p v).From = -1 := by
  rcases pathsValid_cases p hv v h0 h1 with h | ⟨hf, -⟩ | ⟨-, -, hq, he⟩
  · rw [hLen] at h
    exact absurd h (by norm_num)
  · exact hf
  · exfalso
    rw [hLen] at he
    omega

theorem pathsValid_step (p : List PathEnd) (hv : PathsValid p) (v : ℤ)
    (h0 : 0 ≤ v) (h1 : v.toNat < p.length)
    (hLen : 2 ≤ (idx pzero p v).Len) :
    0 ≤ (idx pzero p v).From ∧
    (idx pzero p v).From.toNat < p.length ∧
    (idx pzero p ((idx pzero p v).From)).Len = (idx pzero p v).Len - 1 := by
  rcases pathsValid_cases p hv v h0 h1 with h | ⟨-, hf⟩ | ⟨hq0, hq1, -, he⟩
  · exfalso
    omega
  · exfalso
    omega
  · exact ⟨hq0, hq1, by omega⟩

theorem chain_root (p : List PathEnd) (v : ℤ) (fuel : ℕ)
    (hFrom : (idx pzero p v).From = -1) :
    chainToRoot p (fuel + 1) v = [v] := by
  show (v :: (if (idx pzero p v).From < 0 then []
    else chainToRoot p fuel (idx pzero p v).From)) = [v]
  rw [hFrom]
  simp

theorem chain_step (p : List PathEnd) (v : ℤ) (fuel : ℕ)
    (hFrom : 0 ≤ (idx pzero p v).From) :
    chainToRoot p (fuel + 1) v =
      v :: chainToRoot p fuel (idx pzero p v).From := by
  show (v :: (if (idx pzero p v).From < 0 then []
    else chainToRoot p fuel (idx pzero p v).From)) = _
  rw [if_neg (not_lt.mpr hFrom)]

theorem chain_head_mem (p : List PathEnd) (fuel : ℕ) (v : ℤ) :
    v ∈ chainToRoot p (fuel + 1) v := by
  rw [show chainToRoot p (fuel + 1) v =
    v :: (if (idx pzero p v).From < 0 then []
      else chainToRoot p fuel (idx pzero p v).From) from rfl]
  exact List.mem_cons_self _ _

theorem chain_mem (p : List PathEnd) (hv : PathsValid p) :
    ∀ (L : ℕ) (v : ℤ), 0 ≤ v → v.toNat < p.length →
      (idx pzero p v).Len = (L : ℤ) + 1 →
      ∀ u ∈ chainToRoot p (L + 1) v,
        0 ≤ u ∧ u.toNat < p.length ∧
        1 ≤ (idx pzero p u).Len ∧ (idx pzero p u).Len ≤ (L : ℤ) + 1 ∧
        ((idx pzero p u).Len = (L : ℤ) + 1 → u = v) := by
  intro L
  induction L with
  | zero =>
    intro v h0 h1 hLen u hu
    have hone : (idx pzero p v).Len = 1 := by omega
    rw [chain_root p v 0 (pathsValid_root p hv v h0 h1 hone)] at hu
    have hue : u = v := List.mem_singleton.mp hu
    subst hue
    exact ⟨h0, h1, by omega, by omega, fun _ => rfl⟩
  | succ L ih =>
    intro v h0 h1 hLen u hu
    have h2 : 2 ≤ (idx pzero p v).Len := by omega
    obtain ⟨hf0, hf1, hfe⟩ := pathsValid_step p hv v h0 h1 h2
    have hLu : (idx pzero p ((idx pzero p v).From)).Len = (L : ℤ) + 1 := by omega
    rw [chain_step p v (L + 1) hf0] at hu
    rcases List.mem_cons.mp hu with he | hm
    · subst he
      exact ⟨h0, h1, by omega, by omega, fun _ => rfl⟩
    · obtain ⟨u0, u1, ul1, ul2, -⟩ := ih (idx pzero p v).From hf0 hf1 hLu u hm
      refine ⟨u0, u1, ul1, by omega, fun he => ?_⟩
      exfalso
      omega

theorem climb_spec (p : List PathEnd) (hv : PathsValid p) :
    ∀ (k : ℕ), ∀ (L : ℕ) (v : ℤ), 0 ≤ v → v.toNat < p.length →
      (idx pzero p v).Len = (L : ℤ) + 1 → k ≤ L →
      0 ≤ climb p k v ∧ (climb p k v).toNat < p.length ∧
      (idx pzero p (climb p k v)).Len = ((L - k : ℕ) : ℤ) + 1 ∧
      (∀ u ∈ chainToRoot p (L - k + 1) (climb p k v),
        u ∈ chainToRoot p (L + 1) v) ∧
      (∀ u ∈ chainToRoot p (L + 1) v,
        (idx pzero p u).Len ≤ ((L - k : ℕ) : ℤ) + 1 →
        u ∈ chainToRoot p (L - k + 1) (climb p k v)) := by
  intro k
  induction k with
  | zero =>
    intro L v h0 h1 hLen _
    rw [Nat.sub_zero]
    exact ⟨h0, h1, hLen, fun u hu => hu, fun u hu _ => hu⟩
  | succ k ih =>
    intro L v h0 h1 hLen hk
    have h2 : 2 ≤ (idx pzero p v).Len := by omega
    obtain ⟨hf0, hf1, hfe⟩ := pathsValid_step p hv v h0 h1 h2
    have hL1 : 1 ≤ L := by omega
    have hLu : (idx pzero p ((idx pzero p v).From)).Len = ((L - 1 : ℕ) : ℤ) + 1 := by
      omega
    have hclimb : climb p (k + 1) v = climb p k ((idx pzero p v).From) := rfl
    have hsub : L - (k + 1) = (L - 1) - k := by omega
    obtain ⟨c0, c1, c2, c3, c4⟩ :=
      ih (L - 1) (idx pzero p v).From hf0 hf1 hLu (by omega)
    rw [hclimb, hsub]
    refine ⟨c0, c1, c2, ?_, ?_⟩
    · intro u hu
      rw [show L + 1 = L + 1 from rfl, chain_step p v L hf0]
      have hLL : L = (L - 1) + 1 := by omega
      rw [hLL]
      exact List.mem_cons_of_mem v (c3 u hu)
    · intro u hu hub
      rw [chain_step p v L hf0] at hu
      rcases List.mem_cons.mp hu with he | hm
      · exfalso
        subst he
        omega
      · have hLL : L = (L - 1) + 1 := by omega
        rw [hLL] at hm
        exact c4 u hm hub

theorem lockstep_spec (p : List PathEnd) (hv : PathsValid p) :
    ∀ (L : ℕ) (x y : ℤ), 0 ≤ x → x.toNat < p.length →
      0 ≤ y → y.toNat < p.length →
      (idx pzero p x).Len = (L : ℤ) + 1 →
      (idx pzero p y).Len = (L : ℤ) + 1 →
      (lockstep p (L + 1) x y = -1 →
        ∀ v ∈ chainToRoot p (L + 1) x, v ∉ chainToRoot p (L + 1) y) ∧
      (lockstep p (L + 1) x y ≠ -1 →
        lockstep p (L + 1) x y ∈ chainToRoot p (L + 1) x ∧
        lockstep p (L + 1) x y ∈ chainToRoot p (L + 1) y ∧
        ∀ v ∈ chainToRoot p (L + 1) x, v ∈ chainToRoot p (L + 1) y →
          (idx pzero p v).Len ≤ (idx pzero p (lockstep p (L + 1) x y)).Len) := by
  intro L
  induction L with
  | zero =>
    intro x y hx0 hx1 hy0 hy1 hxL hyL
    have hx2 : (idx pzero p x).Len = 1 := by omega
    have hy2 : (idx pzero p y).Len = 1 := by omega
    have hcx := chain_root p x 0 (pathsValid_root p hv x hx0 hx1 hx2)
    have hcy := chain_root p y 0 (pathsValid_root p hv y hy0 hy1 hy2)
    by_cases hxy : x = y
    · have hr : lockstep p (0 + 1) x y = x := by
        show (if x = y then x else if (idx pzero p x).Len ≤ 1 then -1
          else lockstep p 0 (idx pzero p x).From (idx pzero p y).From) = x
        rw [if_pos hxy]
      rw [hr]
      constructor
      · intro hm
        exfalso
        omega
      · intro _
        subst hxy
        rw [hcx]
        refine ⟨List.mem_singleton_self x, List.mem_singleton_self x, ?_⟩
        intro v hv1 _
        have hve : v = x := List.mem_singleton.mp hv1
        subst hve
        exact le_refl _
    · have hr : lockstep p (0 + 1) x y = -1 := by
        show (if x = y then x else if (idx pzero p x).Len ≤ 1 then -1
          else lockstep p 0 (idx pzero p x).From (idx pzero p y).From) = -1
        rw [if_neg hxy, if_pos (by omega)]
      rw [hr]
      constructor
      · intro _ v hv1 hv2
        rw [hcx] at hv1
        rw [hcy] at hv2
        exact hxy ((List.mem_singleton.mp hv1).symm ▸ List.mem_singleton.mp hv2)
      · intro hne
        exact absurd rfl hne
  | succ L ih =>
    intro x y hx0 hx1 hy0 hy1 hxL hyL
    by_cases hxy : x = y
    · have hr : lockstep p (L + 1 + 1) x y = x := by
        show (if x = y then x else if (idx pzero p x).Len ≤ 1 then -1
          else lockstep p (L + 1) (idx pzero p x).From (idx pzero p y).From) = x
        rw [if_pos hxy]
      rw [hr]
      constructor
      · intro hm
        exfalso
        omega
      · intro _
        subst hxy
        refine ⟨chain_head_mem p (L + 1) x, chain_head_mem p (L + 1) x, ?_⟩
        intro v hv1 _
        have hm := chain_mem p hv (L + 1) x hx0 hx1 hxL v hv1
        rw [hxL]
        exact hm.2.2.2.1
    · have h2x : 2 ≤ (idx pzero p x).Len := by omega
      have h2y : 2 ≤ (idx pzero p y).Len := by omega
      obtain ⟨hfx0, hfx1, hfxe⟩ := pathsValid_step p hv x hx0 hx1 h2x
      obtain ⟨hfy0, hfy1, hfye⟩ := pathsValid_step p hv y hy0 hy1 h2y
      have hLux : (idx pzero p ((idx pzero p x).From)).Len = (L : ℤ) + 1 := by omega
      have hLuy : (idx pzero p ((idx pzero p y).From)).Len = (L : ℤ) + 1 := by omega
      have hr : lockstep p (L + 1 + 1) x y =
          lockstep p (L + 1) (idx pzero p x).From (idx pzero p y).From := by
        show (if x = y then x else if (idx pzero p x).Len ≤ 1 then -1
          else lockstep p (L + 1) (idx pzero p x).From (idx pzero p y).From) = _
        rw [if_neg hxy, if_neg (by omega)]
      rw [hr]
      have hcx := chain_step p x (L + 1) hfx0
      have hcy := chain_step p y (L + 1) hfy0
      obtain ⟨ihd, ihs⟩ :=
        ih (idx pzero p x).From (idx pzero p y).From hfx0 hfx1 hfy0 hfy1 hLux hLuy
      have hmx := chain_mem p hv L (idx pzero p x).From hfx0 hfx1 hLux
      have hmy := chain_mem p hv L (idx pzero p y).From hfy0 hfy1 hLuy
      constructor
      · intro hm v hv1 hv2
        rw [hcx] at hv1
        rw [hcy] at hv2
        rcases List.mem_cons.mp hv1 with hex | hmx'
        · subst hex
          rcases List.mem_cons.mp hv2 with hey | hmy'
          · exact hxy hey
          · have hb := (hmy _ hmy').2.2.2.1
            omega
        · rcases List.mem_cons.mp hv2 with hey | hmy'
          · subst hey
            have hb := (hmx _ hmx').2.2.2.1
            omega
          · exact ihd hm v hmx' hmy'
      · intro hne
        obtain ⟨hr1, hr2, hr3⟩ := ihs hne
        refine ⟨?_, ?_, ?_⟩
        · rw [hcx]
          exact List.mem_cons_of_mem x hr1
        · rw [hcy]
          exact List.mem_cons_of_mem y hr2
        · intro v hv1 hv2
          rw [hcx] at hv1
          rw [hcy] at hv2
          rcases List.mem_cons.mp hv1 with hex | hmx'
          · subst hex
            rcases List.mem_cons.mp hv2 with hey | hmy'
            · exact absurd hey hxy
            · have hb := (hmy _ hmy').2.2.2.1
              exfalso
              omega
          · rcases List.mem_cons.mp hv2 with hey | hmy'
            · subst hey
              have hb := (hmx _ hmx').2.2.2.1
              exfalso
              omega
            · exact hr3 v hmx' hmy'

theorem ca_aux (p : List PathEnd) (hv : PathsValid p) (hi lo : ℤ)
    (hh0 : 0 ≤ hi) (hh1 : hi.toNat < p.length)
    (hl0 : 0 ≤ lo) (hl1 : lo.toNat < p.length)
    (hhL : (idx pzero p hi).Len ≠ 0) (hlL : (idx pzero p lo).Len ≠ 0)
    (hle : (idx pzero p lo).Len ≤ (idx pzero p hi).Len) :
    (lockstep p (idx pzero p lo).Len.toNat
        (climb p ((idx pzero p hi).Len - (idx pzero p lo).Len).toNat hi) lo = -1 →
      ∀ v ∈ chainToRoot p (idx pzero p hi).Len.toNat hi,
        v ∉ chainToRoot p (idx pzero p lo).Len.toNat lo) ∧
    (lockstep p (idx pzero p lo).Len.toNat
        (climb p ((idx pzero p hi).Len - (idx pzero p lo).Len).toNat hi) lo ≠ -1 →
      lockstep p (idx pzero p lo).Len.toNat
          (climb p ((idx pzero p hi).Len - (idx pzero p lo).Len).toNat hi) lo ∈
        chainToRoot p (idx pzero p hi).Len.toNat hi ∧
      lockstep p (idx pzero p lo).Len.toNat
          (climb p ((idx pzero p hi).Len - (idx pzero p lo).Len).toNat hi) lo ∈
        chainToRoot p (idx pzero p lo).Len.toNat lo ∧
      ∀ v ∈ chainToRoot p (idx pzero p hi).Len.toNat hi,
        v ∈ chainToRoot p (idx pzero p lo).Len.toNat lo →
        (idx pzero p v).Len ≤
          (idx pzero p (lockstep p (idx pzero p lo).Len.toNat
            (climb p ((idx pzero p hi).Len - (idx pzero p lo).Len).toNat hi) lo)).Len) := by
  have hl1' : 1 ≤ (idx pzero p lo).Len := by
    rcases pathsValid_cases p hv lo hl0 hl1 with h | ⟨-, h⟩ | ⟨-, -, hq, he⟩ <;> omega
  have hh1' : 1 ≤ (idx pzero p hi).Len := by
    rcases pathsValid_cases p hv hi hh0 hh1 with h | ⟨-, h⟩ | ⟨-, -, hq, he⟩ <;> omega
  obtain ⟨Ll, hLl⟩ : ∃ Ll : ℕ, (idx pzero p lo).Len = (Ll : ℤ) + 1 :=
    ⟨((idx pzero p lo).Len - 1).toNat, by omega⟩
  obtain ⟨Lh, hLh⟩ : ∃ Lh : ℕ, (idx pzero p hi).Len = (Lh : ℤ) + 1 :=
    ⟨((idx pzero p hi).Len - 1).toNat, by omega⟩
  have hk : ((idx pzero p hi).Len - (idx pzero p lo).Len).toNat = Lh - Ll := by omega
  have hlon : (idx pzero p lo).Len.toNat = Ll + 1 := by omega
  have hhin : (idx pzero p hi).Len.toNat = Lh + 1 := by omega
  rw [hk, hlon, hhin]
  obtain ⟨c0, c1, c2, c3, c4⟩ := climb_spec p hv (Lh - Ll) Lh hi hh0 hh1 hLh (by omega)
  have hsub : Lh - (Lh - Ll) = Ll := by omega
  rw [hsub] at c2 c3 c4
  obtain ⟨lsd, lss⟩ :=
    lockstep_spec p hv Ll (climb p (Lh - Ll) hi) lo c0 c1 hl0 hl1 c2 hLl
  have hmemlo := chain_mem p hv Ll lo hl0 hl1 hLl
  constructor
  · intro hm v hv1 hv2
    have hvb := (hmemlo v hv2).2.2.2.1
    exact lsd hm v (c4 v hv1 hvb) hv2
  · intro hne
    obtain ⟨r1, r2, r3⟩ := lss hne
    refine ⟨c3 _ r1, r2, ?_⟩
    intro v hv1 hv2
    have hvb := (hmemlo v hv2).2.2.2.1
    exact r3 v (c4 v hv1 hvb) hv2

/-- Claim C5: on a FromList with valid acyclic parent pointers,
`CommonAncestor(a, b)` (both nodes reached) either returns the sentinel
-1, in which case a's root path and b's root path share no node (the
nodes lie in different trees of the forest), or returns a node lying on
both root paths such that every node on both paths has recorded length
at most the returned node's (no node strictly closer to a leaf lies on
both paths: the lowest-common-ancestor property). -/
theorem commonAncestor_lca (f : FromList) (hv : PathsValid f.Paths) (a b : ℤ)
    (ha0 : 0 ≤ a) (ha1 : a.toNat < f.Paths.length)
    (haL : (idx pzero f.Paths a).Len ≠ 0)
    (hb0 : 0 ≤ b) (hb1 : b.toNat < f.Paths.length)
    (hbL : (idx pzero f.Paths b).Len ≠ 0) :
    (f.CommonAncestor a b = -1 →
      ∀ v ∈ chainToRoot f.Paths (idx pzero f.Paths a).Len.toNat a,
        v ∉ chainToRoot f.Paths (idx pzero f.Paths b).Len.toNat b) ∧
    (f.CommonAncestor a b ≠ -1 →
      f.CommonAncestor a b ∈ chainToRoot f.Paths (idx pzero f.Paths a).Len.toNat a ∧
      f.CommonAncestor a b ∈ chainToRoot f.Paths (idx pzero f.Paths b).Len.toNat b ∧
      ∀ v ∈ chainToRoot f.Paths (idx pzero f.Paths a).Len.toNat a,
        v ∈ chainToRoot f.Paths (idx pzero f.Paths b).Len.toNat b →
        (idx pzero f.Paths v).Len ≤
          (idx pzero f.Paths (f.CommonAncestor a b)).Len) := by
  by_cases hlt : (idx pzero f.Paths a).Len < (idx pzero f.Paths b).Len
  · have hca : f.CommonAncestor a b =
        lockstep f.Paths (idx pzero f.Paths a).Len.toNat
          (climb f.Paths
            ((idx pzero f.Paths b).Len - (idx pzero f.Paths a).Len).toNat b) a := by
      show (if (idx pzero f.Paths a).Len < (idx pzero f.Paths b).Len then
        lockstep f.Paths (idx pzero f.Paths a).Len.toNat
          (climb f.Paths
            ((idx pzero f.Paths b).Len - (idx pzero f.Paths a).Len).toNat b) a
        else lockstep f.Paths (idx pzero f.Paths b).Len.toNat
          (climb f.Paths
            ((idx pzero f.Paths a).Len - (idx pzero f.Paths b).Len).toNat a) b) = _
      rw [if_pos hlt]
    rw [hca]
    obtain ⟨d1, d2⟩ :=
      ca_aux f.Paths hv b a hb0 hb1 ha0 ha1 hbL haL (le_of_lt hlt)
    constructor
    · intro hm v hv1 hv2
      exact d1 hm v hv2 hv1
    · intro hne
      obtain ⟨e1, e2, e3⟩ := d2 hne
      exact ⟨e2, e1, fun v hv1 hv2 => e3 v hv2 hv1⟩
  · have hca : f.CommonAncestor a b =
        lockstep f.Paths (idx pzero f.Paths b).Len.toNat
          (climb f.Paths
            ((idx pzero f.Paths a).Len - (idx pzero f.Paths b).Len).toNat a) b := by
      show (if (idx pzero f.Paths a).Len < (idx pzero f.Paths b).Len then
        lockstep f.Paths (idx pzero f.Paths a).Len.toNat
          (climb f.Paths
            ((idx pzero f.Paths b).Len - (idx pzero f.Paths a).Len).toNat b) a
        else lockstep f.Paths (idx pzero f.Paths b).Len.toNat
          (climb f.Paths
            ((idx pzero f.Paths a).Len - (idx pzero f.Paths b).Len).toNat a) b) = _
      rw [if_neg hlt]
    rw [hca]
    exact ca_aux f.Paths hv a b ha0 ha1 hb0 hb1 haL hbL (le_of_not_lt hlt)

def ancestorForest : FromList := ⟨[⟨1, 3⟩, ⟨4, 2⟩, ⟨1, 3⟩, ⟨0, 4⟩, ⟨-1, 1⟩], [], 4⟩

theorem commonAncestor_lca_witness :
    (PathsValid ancestorForest.Paths ∧
      (idx pzero ancestorForest.Paths 2).Len ≠ 0 ∧
      (idx pzero ancestorForest.Paths 3).Len ≠ 0) ∧
    ((ancestorForest.CommonAncestor 2 3 = -1 →
      ∀ v ∈ chainToRoot ancestorForest.Paths
          (idx pzero ancestorForest.Paths 2).Len.toNat 2,
        v ∉ chainToRoot ancestorForest.Paths
          (idx pzero ancestorForest.Paths 3).Len.toNat 3) ∧
    (ancestorForest.CommonAncestor 2 3 ≠ -1 →
      ancestorForest.CommonAncestor 2 3 ∈ chainToRoot ancestorForest.Paths
          (idx pzero ancestorForest.Paths 2).Len.toNat 2 ∧
      ancestorForest.CommonAncestor 2 3 ∈ chainToRoot ancestorForest.Paths
          (idx pzero ancestorForest.Paths 3).Len.toNat 3 ∧
      ∀ v ∈ chainToRoot ancestorForest.Paths
          (idx pzero ancestorForest.Paths 2).Len.toNat 2,
        v ∈ chainToRoot ancestorForest.Paths
          (idx pzero ancestorForest.Paths 3).Len.toNat 3 →
        (idx pzero ancestorForest.Paths v).Len ≤
          (idx pzero ancestorForest.Paths (ancestorForest.CommonAncestor 2 3)).Len)) :=
  ⟨⟨by decide, by decide, by decide⟩,
    commonAncestor_lca ancestorForest (by decide) 2 3 (by decide) (by decide)
      (by decide) (by decide) (by decide) (by decide)⟩

def pathToForest : FromList := ⟨[⟨1, 3⟩, ⟨4, 2⟩, ⟨1, 3⟩, ⟨-1, 1⟩, ⟨-1, 1⟩], [], 3⟩

theorem pathTo_reverse_walk_witness :
    (PathsValid pathToForest.Paths ∧ (0 : ℤ) ≤ 1 ∧
      (1 : ℤ).toNat < pathToForest.Paths.length ∧
      (idx pzero pathToForest.Paths 1).Len ≠ 0) ∧
    (pathToForest.PathTo 1 [] =
        (chainToRoot pathToForest.Paths (idx pzero pathToForest.Paths 1).Len.toNat
          1).reverse ∧
      ((idx pzero pathToForest.Paths 1).From = -1 → pathToForest.PathTo 1 [] = [1])) :=
  ⟨⟨by decide, by decide, by decide, by decide⟩,
    pathTo_reverse_walk pathToForest (by decide) 1 (by decide) (by decide) (by decide) []⟩

/-! Undirected conversion and validation (IsUndirected from src/adj.go;
the FromList conversion modelled from the spec, §4.2). -/

/-- One arc of `IsUndirected` (src/adj.go): a loop is skipped; otherwise
the unpaired arcs out of the target are searched for a reciprocal, which
is removed by swapping the last element into its place; an arc with no
reciprocal is recorded as unpaired under its source. -/
def isUndirArc (unp : List (List NI)) (fr : ℕ) (t : NI) : List (List NI) :=
  if t = (fr : ℤ) then unp
  else
    match (idx [] unp t).findIdx? (fun u => decide (u = (fr : ℤ))) with
    | some i =>
      setIdx unp t
        (((idx [] unp t).set i ((idx [] unp t).getLastD 0)).take
          ((idx [] unp t).length - 1))
    | none => setIdx unp (fr : ℤ) (idx [] unp (fr : ℤ) ++ [t])

/-- IsUndirected (src/adj.go): true when every non-loop arc is paired
with a reciprocal arc, otherwise false with an example unpaired arc. -/
def AdjacencyList.IsUndirected (g : AdjacencyList) : Bool × NI × NI :=
  let unp := g.enum.foldl
    (fun unp p => p.2.foldl (fun unp2 t => isUndirArc unp2 p.1 t) unp)
    (List.replicate g.length ([] : List NI))
  match unp.enum.find? (fun q => decide (q.2 ≠ [])) with
  | some q => (false, (q.1 : ℤ), q.2.headD 0)
  | none => (true, -1, -1)

/-- Append one arc to a node's arc list. -/
def addArc (g : AdjacencyList) (u v : ℤ) : AdjacencyList :=
  setIdx g u (idx [] g u ++ [v])

/-- Modelled from the spec: convert a FromList to an undirected graph —
for every node with a non-root parent add both the child-to-parent arc
and its reciprocal; a self-loop root marker (from equal to the node)
yields a single loop arc. -/
def FromList.Undirected (f : FromList) : AdjacencyList :=
  (List.range f.Paths.length).foldl
    (fun g (n : ℕ) =>
      if (idx pzero f.Paths (n : ℤ)).From = (n : ℤ) then
        addArc g (n : ℤ) (n : ℤ)
      else if 0 ≤ (idx pzero f.Paths (n : ℤ)).From then
        addArc (addArc g (n : ℤ) (idx pzero f.Paths (n : ℤ)).From)
          (idx pzero f.Paths (n : ℤ)).From (n : ℤ)
      else g)
    (List.replicate f.Paths.length [])

theorem set_get_id {α : Type} (l : List α) (i : ℕ) (h : i < l.length) :
    l.set i (l.get ⟨i, h⟩) = l := by
  apply List.ext_getElem
  · simp
  · intro j hj1 hj2
    rw [List.getElem_set]
    split
    · next heq =>
      subst heq
      simp [List.get_eq_getElem]
    · rfl

theorem getLastD_eq_get {α : Type} (l : List α) (d : α) (h : 0 < l.length) :
    l.getLastD d = l.get ⟨l.length - 1, by omega⟩ := by
  rw [List.getLastD_eq_getLast?, List.getLast?_eq_getElem?]
  rw [List.getElem?_eq_getElem (by omega)]
  simp [List.get_eq_getElem]

theorem swapRemove_count {α : Type} [DecidableEq α] (l : List α) (i : ℕ)
    (h : i < l.length) (d : α) (w : α) :
    ((l.set i (l.getLastD d)).take (l.length - 1)).count w
      + (if l.get ⟨i, h⟩ = w then 1 else 0) = l.count w := by
  have hpos : 0 < l.length := by omega
  have hb : l.getLastD d = l.get ⟨l.length - 1, by omega⟩ := getLastD_eq_get l d hpos
  by_cases hi : i = l.length - 1
  · subst hi
    rw [hb, set_get_id l (l.length - 1) (by omega)]
    conv_rhs => rw [← List.take_append_drop (l.length - 1) l]
    rw [List.count_append]
    congr 1
    rw [List.drop_eq_getElem_cons (by omega : l.length - 1 < l.length)]
    rw [List.drop_eq_nil_of_le (by omega), List.count_cons, List.count_nil]
    simp [List.get_eq_getElem]
  · have hilt : i < l.length - 1 := by omega
    rw [hb, List.set_eq_take_append_cons_drop, if_pos h]
    rw [List.take_append_eq_append_take]
    rw [List.take_of_length_le (by rw [List.length_take]; omega)]
    rw [List.length_take]
    rw [show l.length - 1 - min i l.length = (l.length - 2 - i) + 1 from by omega]
    rw [List.take_succ_cons]
    rw [List.count_append, List.count_cons]
    conv_rhs => rw [← List.take_append_drop i l]
    rw [List.count_append]
    rw [List.drop_eq_getElem_cons (show i < l.length from h)]
    rw [List.count_cons]
    have hD2 : (l.drop (i + 1)).drop (l.length - 2 - i) =
        [l.get ⟨l.length - 1, by omega⟩] := by
      rw [List.drop_drop]
      rw [show (i + 1) + (l.length - 2 - i) = l.length - 1 from by omega]
      rw [List.drop_eq_getElem_cons (by omega : l.length - 1 < l.length)]
      rw [List.drop_eq_nil_of_le (by omega)]
      simp [List.get_eq_getElem]
    have hD : (l.drop (i + 1)).count w =
        ((l.drop (i + 1)).take (l.length - 2 - i)).count w
          + (if l.get ⟨l.length - 1, by omega⟩ = w then 1 else 0) := by
      conv_lhs => rw [← List.take_append_drop (l.length - 2 - i) (l.drop (i + 1))]
      rw [List.count_append, hD2]
      congr 1
      rw [List.count_cons, List.count_nil]
      simp
    rw [hD]
    simp only [List.get_eq_getElem, beq_iff_eq]
    split_ifs <;> omega

theorem count_snoc (l : List (ℕ × NI)) (x y : ℕ × NI) :
    (l ++ [x]).count y = l.count y + (if x = y then 1 else 0) := by
  rw [List.count_append, List.count_singleton]
  congr 1
  by_cases h : x = y
  · simp [h]
  · simp [h]

theorem count_snocZ (l : List ℤ) (x y : ℤ) :
    (l ++ [x]).count y = l.count y + (if x = y then 1 else 0) := by
  rw [List.count_append, List.count_singleton]
  congr 1
  by_cases h : x = y
  · simp [h]
  · simp [h]

/-- State invariant of the `IsUndirected` scan: after processing the arc
sequence `P`, the unpaired store has one in-range, loop-free list per
node and the number of unpaired `a`-to-`b` entries equals the excess of
processed `a`-to-`b` arcs over processed `b`-to-`a` arcs. -/
def UnpInv (n : ℕ) (P : List (ℕ × NI)) (unp : List (List NI)) : Prop :=
  unp.length = n ∧
  (∀ a : ℕ, a < n → ∀ x ∈ idx [] unp (a : ℤ), 0 ≤ x ∧ x.toNat < n ∧ x ≠ (a : ℤ)) ∧
  (∀ (a : ℕ) (b : ℤ), a < n → 0 ≤ b → b.toNat < n → (a : ℤ) ≠ b →
    (((idx [] unp (a : ℤ)).count b : ℤ) =
      max 0 ((P.count (a, b) : ℤ) - (P.count (b.toNat, (a : ℤ)) : ℤ))))

theorem unpInv_step (n : ℕ) (P : List (ℕ × NI)) (unp : List (List NI))
    (hI : UnpInv n P unp) (fr : ℕ) (t : NI)
    (hfr : fr < n) (ht0 : 0 ≤ t) (ht1 : t.toNat < n) :
    UnpInv n (P ++ [(fr, t)]) (isUndirArc unp fr t) := by
  obtain ⟨hlen, hjunk, hcnt⟩ := hI
  have htc : ((t.toNat : ℕ) : ℤ) = t := Int.toNat_of_nonneg ht0
  by_cases hloop : t = (fr : ℤ)
  · have hred : isUndirArc unp fr t = unp := by
      unfold isUndirArc
      rw [if_pos hloop]
    rw [hred]
    refine ⟨hlen, hjunk, ?_⟩
    intro a b ha hb0 hb1 hab
    rw [count_snoc, count_snoc]
    have hb' : ((b.toNat : ℕ) : ℤ) = b := Int.toNat_of_nonneg hb0
    have h1 : ¬ ((fr, t) = (a, b)) := by
      intro he
      rw [Prod.mk.injEq] at he
      apply hab
      calc (a : ℤ) = (fr : ℤ) := by rw [he.1]
        _ = t := hloop.symm
        _ = b := he.2
    have h2 : ¬ ((fr, t) = (b.toNat, (a : ℤ))) := by
      intro he
      rw [Prod.mk.injEq] at he
      apply hab
      calc (a : ℤ) = t := he.2.symm
        _ = (fr : ℤ) := hloop
        _ = ((b.toNat : ℕ) : ℤ) := by rw [he.1]
        _ = b := hb'
    rw [if_neg h1, if_neg h2]
    have := hcnt a b ha hb0 hb1 hab
    omega
  · set ut := idx [] unp t with hut
    have hrecip := hcnt t.toNat (fr : ℤ) ht1 (Int.natCast_nonneg fr)
      (by simpa using hfr) (by rw [htc]; exact hloop)
    rw [htc, ← hut] at hrecip
    simp only [Int.toNat_natCast] at hrecip
    rcases hfind : ut.findIdx? (fun u => decide (u = (fr : ℤ))) with _ | i
    · -- no reciprocal: record (fr, t) as unpaired
      have hzero : ut.count (fr : ℤ) = 0 := by
        rw [List.count_eq_zero]
        intro hmem
        have := List.findIdx?_eq_none_iff.mp hfind _ hmem
        simp at this
      have hred : isUndirArc unp fr t =
          setIdx unp (fr : ℤ) (idx [] unp (fr : ℤ) ++ [t]) := by
        unfold isUndirArc
        rw [if_neg hloop]
        rw [show (idx [] unp t) = ut from hut.symm, hfind]
      rw [hred]
      refine ⟨by rw [setIdx_length]; exact hlen, ?_, ?_⟩
      · intro a ha x hx
        by_cases haf : (a : ℤ) = (fr : ℤ)
        · rw [haf, idx_setIdx_self [] unp (fr : ℤ) _ (Int.natCast_nonneg fr)
            (by simp only [Int.toNat_natCast]; omega)] at hx
          rcases List.mem_append.mp hx with h | h
          · obtain ⟨j1, j2, j3⟩ := hjunk fr hfr x h
            exact ⟨j1, j2, by rw [haf]; exact j3⟩
          · have hxt : x = t := List.mem_singleton.mp h
            subst hxt
            exact ⟨ht0, ht1, by rw [haf]; exact hloop⟩
        · rw [idx_setIdx_ne [] unp (fr : ℤ) (a : ℤ) _ haf] at hx
          exact hjunk a ha x hx
      · intro a b ha hb0 hb1 hab
        rw [count_snoc, count_snoc]
        have hb' : ((b.toNat : ℕ) : ℤ) = b := Int.toNat_of_nonneg hb0
        have hold := hcnt a b ha hb0 hb1 hab
        by_cases haf : (a : ℤ) = (fr : ℤ)
        · have han : a = fr := by exact_mod_cast haf
          subst han
          rw [idx_setIdx_self [] unp (a : ℤ) _ (Int.natCast_nonneg a)
            (by simp only [Int.toNat_natCast]; omega)]
          rw [count_snocZ]
          by_cases hbt : b = t
          · subst hbt
            rw [if_pos rfl, if_pos rfl]
            have hneq2 : ¬ ((a, b) = (b.toNat, (a : ℤ))) := by
              intro he
              rw [Prod.mk.injEq] at he
              exact hloop he.2
            rw [if_neg hneq2]
            omega
          · rw [if_neg (fun he => hbt he.symm)]
            have hneq1 : ¬ ((a, t) = (a, b)) := by
              intro he
              rw [Prod.mk.injEq] at he
              exact hbt he.2.symm
            have hneq2 : ¬ ((a, t) = (b.toNat, (a : ℤ))) := by
              intro he
              rw [Prod.mk.injEq] at he
              exact hloop he.2
            rw [if_neg hneq1, if_neg hneq2]
            omega
        · rw [idx_setIdx_ne [] unp (fr : ℤ) (a : ℤ) _ haf]
          have hanf : a ≠ fr := fun he => haf (by rw [he])
          have hneq1 : ¬ ((fr, t) = (a, b)) := by
            intro he
            rw [Prod.mk.injEq] at he
            exact hanf he.1.symm
          by_cases hrev : b = (fr : ℤ) ∧ (a : ℤ) = t
          · obtain ⟨hbf, hat⟩ := hrev
            have heq2 : (fr, t) = (b.toNat, (a : ℤ)) := by
              rw [hbf, hat]
              simp
            rw [if_neg hneq1, if_pos heq2]
            have hLz : (idx [] unp ((a : ℕ) : ℤ)).count b = 0 := by
              rw [hat, show idx [] unp t = ut from hut.symm, hbf]
              exact hzero
            rw [hLz] at hold ⊢
            omega
          · have hneq2 : ¬ ((fr, t) = (b.toNat, (a : ℤ))) := by
              intro he
              rw [Prod.mk.injEq] at he
              apply hrev
              exact ⟨by rw [← hb', ← he.1], he.2.symm⟩
            rw [if_neg hneq1, if_neg hneq2]
            omega
    · -- reciprocal found at index i: swap-remove it
      obtain ⟨hilen, hpi, -⟩ := List.findIdx?_eq_some_iff_getElem.mp hfind
      have hgot : ut.get ⟨i, hilen⟩ = (fr : ℤ) := by
        have := of_decide_eq_true hpi
        simpa [List.get_eq_getElem] using this
      have hfrmem : (fr : ℤ) ∈ ut := by
        rw [← hgot]
        exact List.get_mem ut i hilen
      have hcntpos : 0 < ut.count (fr : ℤ) := List.count_pos_iff.mpr hfrmem
      have hred : isUndirArc unp fr t =
          setIdx unp t ((ut.set i (ut.getLastD 0)).take (ut.length - 1)) := by
        unfold isUndirArc
        rw [if_neg hloop]
        rw [show (idx [] unp t) = ut from hut.symm, hfind]
      rw [hred]
      set r := (ut.set i (ut.getLastD 0)).take (ut.length - 1) with hr
      have hswap : ∀ w, r.count w + (if (fr : ℤ) = w then 1 else 0) = ut.count w := by
        intro w
        rw [hr]
        have h := swapRemove_count ut i hilen 0 w
        rwa [hgot] at h
      refine ⟨by rw [setIdx_length]; exact hlen, ?_, ?_⟩
      · intro a ha x hx
        by_cases hat : (a : ℤ) = t
        · rw [hat, idx_setIdx_self [] unp t r ht0 (by omega)] at hx
          have hxu : x ∈ ut := by
            rw [hr] at hx
            have hx1 : x ∈ ut.set i (ut.getLastD 0) := List.mem_of_mem_take hx
            rcases List.mem_or_eq_of_mem_set hx1 with h | h
            · exact h
            · rw [h, getLastD_eq_get ut 0 (by omega)]
              exact List.get_mem ut _ _
          obtain ⟨j1, j2, j3⟩ := hjunk t.toNat ht1 x (by rw [htc, ← hut]; exact hxu)
          refine ⟨j1, j2, ?_⟩
          rw [hat, ← htc]
          exact j3
        · rw [idx_setIdx_ne [] unp t (a : ℤ) r hat] at hx
          exact hjunk a ha x hx
      · intro a b ha hb0 hb1 hab
        rw [count_snoc, count_snoc]
        have hb' : ((b.toNat : ℕ) : ℤ) = b := Int.toNat_of_nonneg hb0
        have hold := hcnt a b ha hb0 hb1 hab
        by_cases hat : (a : ℤ) = t
        · rw [hat, idx_setIdx_self [] unp t r ht0 (by omega)]
          rw [hat] at hold
          rw [show idx [] unp t = ut from hut.symm] at hold
          have han : a = t.toNat := by omega
          have hneq1 : ¬ ((fr, t) = (a, b)) := by
            intro he
            rw [Prod.mk.injEq] at he
            apply hloop
            rw [← hat, ← he.1]
          by_cases hbf : b = (fr : ℤ)
          · have heq2 : (fr, t) = (b.toNat, t) := by
              rw [hbf]
              simp
            rw [if_neg hneq1, if_pos heq2]
            have hsw := hswap b
            rw [if_pos hbf.symm] at hsw
            rw [← hbf] at hcntpos
            omega
          · have hneq2 : ¬ ((fr, t) = (b.toNat, t)) := by
              intro he
              rw [Prod.mk.injEq] at he
              apply hbf
              rw [← hb', ← he.1]
            rw [if_neg hneq1, if_neg hneq2]
            have hsw := hswap b
            rw [if_neg (fun he => hbf he.symm)] at hsw
            omega
        · rw [idx_setIdx_ne [] unp t (a : ℤ) r hat]
          by_cases hab2 : a = fr ∧ b = t
          · obtain ⟨hea, heb⟩ := hab2
            have heq1 : (fr, t) = (a, b) := by rw [hea, heb]
            rw [if_pos heq1]
            have hneq2 : ¬ ((fr, t) = (b.toNat, (a : ℤ))) := by
              intro he
              rw [Prod.mk.injEq] at he
              exact hat he.2.symm
            rw [if_neg hneq2]
            rw [← hea, ← heb] at hrecip
            rw [← hea] at hcntpos
            omega
          · have hneq1 : ¬ ((fr, t) = (a, b)) := by
              intro he
              rw [Prod.mk.injEq] at he
              exact hab2 ⟨he.1.symm, he.2.symm⟩
            have hneq2 : ¬ ((fr, t) = (b.toNat, (a : ℤ))) := by
              intro he
              rw [Prod.mk.injEq] at he
              exact hat he.2.symm
            rw [if_neg hneq1, if_neg hneq2]
            omega

theorem unpInv_fold (n : ℕ) :
    ∀ (A P : List (ℕ × NI)) (unp : List (List NI)),
      UnpInv n P unp →
      (∀ q ∈ A, q.1 < n ∧ 0 ≤ q.2 ∧ q.2.toNat < n) →
      UnpInv n (P ++ A) (A.foldl (fun u2 q => isUndirArc u2 q.1 q.2) unp) := by
  intro A
  induction A with
  | nil =>
    intro P unp hI _
    rw [List.append_nil]
    exact hI
  | cons q A ih =>
    intro P unp hI hval
    rw [List.foldl_cons]
    have hq := hval q (List.mem_cons_self q A)
    have hstep := unpInv_step n P unp hI q.1 q.2 hq.1 hq.2.1 hq.2.2
    have := ih (P ++ [q]) (isUndirArc unp q.1 q.2) hstep
      (fun q' hq' => hval q' (List.mem_cons_of_mem q hq'))
    rw [List.append_assoc] at this
    exact this

theorem isUndir_fold_flat :
    ∀ (l : List (ℕ × List NI)) (unp : List (List NI)),
      l.foldl (fun unp p => p.2.foldl (fun unp2 t => isUndirArc unp2 p.1 t) unp) unp =
      ((l.map (fun p => p.2.map (fun t => (p.1, t)))).flatten).foldl
        (fun u2 q => isUndirArc u2 q.1 q.2) unp := by
  intro l
  induction l with
  | nil =>
    intro unp
    rfl
  | cons p rest ih =>
    intro unp
    rw [List.foldl_cons, List.map_cons, List.flatten_cons, List.foldl_append,
      List.foldl_map]
    exact ih _

theorem pairs_count_block (c a : ℕ) (b : NI) :
    ∀ m : List NI,
      ((m.map (fun t => ((c, t) : ℕ × NI))).count (a, b)) =
        if c = a then m.count b else 0 := by
  intro m
  induction m with
  | nil => simp
  | cons t m ih =>
    rw [List.map_cons, List.count_cons, ih, List.count_cons]
    by_cases hca : c = a
    · subst hca
      rw [if_pos rfl, if_pos rfl]
      by_cases htb : t = b
      · subst htb
        simp
      · simp [htb]
    · rw [if_neg hca, if_neg hca]
      have hne : ¬ ((((c, t) : ℕ × NI) == (a, b)) = true) := by
        simp [hca]
      rw [if_neg hne]

theorem idx_cons_zero {α : Type} (d : α) (x : α) (l : List α) :
    idx d (x :: l) ((0 : ℕ) : ℤ) = x := by
  unfold idx
  rw [dif_pos ⟨by simp, by simp⟩]
  rfl

theorem idx_cons_succ {α : Type} (d : α) (x : α) (l : List α) (j : ℕ) :
    idx d (x :: l) ((j + 1 : ℕ) : ℤ) = idx d l ((j : ℕ) : ℤ) := by
  unfold idx
  by_cases h : j < l.length
  · rw [dif_pos ⟨by positivity, by simp; omega⟩, dif_pos ⟨by positivity, by simp; omega⟩]
    simp [List.get_eq_getElem]
  · rw [dif_neg (by simp; omega), dif_neg (by simp; omega)]

theorem pairs_count_enumFrom_out (a : ℕ) (b : NI) :
    ∀ (l : List (List NI)) (off : ℕ), a < off →
      (((List.enumFrom off l).map (fun p => p.2.map (fun t => (p.1, t)))).flatten).count
        (a, b) = 0 := by
  intro l
  induction l with
  | nil =>
    intro off _
    rfl
  | cons x l ih =>
    intro off hoff
    rw [show List.enumFrom off (x :: l) = (off, x) :: List.enumFrom (off + 1) l from rfl]
    rw [List.map_cons, List.flatten_cons, List.count_append]
    rw [pairs_count_block off a b x, if_neg (by omega), ih (off + 1) (by omega)]

theorem pairs_count_enumFrom (a : ℕ) (b : NI) :
    ∀ (l : List (List NI)) (off : ℕ), off ≤ a → a - off < l.length →
      (((List.enumFrom off l).map (fun p => p.2.map (fun t => (p.1, t)))).flatten).count
        (a, b) = (idx [] l ((a - off : ℕ) : ℤ)).count b := by
  intro l
  induction l with
  | nil =>
    intro off _ h2
    exact absurd h2 (by simp)
  | cons x l ih =>
    intro off h1 h2
    rw [show List.enumFrom off (x :: l) = (off, x) :: List.enumFrom (off + 1) l from rfl]
    rw [List.map_cons, List.flatten_cons, List.count_append]
    rw [pairs_count_block off a b x]
    by_cases hoa : off = a
    · rw [if_pos hoa]
      rw [pairs_count_enumFrom_out a b l (off + 1) (by omega)]
      rw [show ((a - off : ℕ) : ℤ) = ((0 : ℕ) : ℤ) from by omega]
      rw [idx_cons_zero]
      rfl
    · rw [if_neg hoa]
      have h2' : a - (off + 1) < l.length := by
        have h2'' : a - off < l.length + 1 := by simpa using h2
        omega
      rw [ih (off + 1) (by omega) h2']
      rw [show ((a - off : ℕ) : ℤ) = ((a - (off + 1) + 1 : ℕ) : ℤ) from by omega]
      rw [idx_cons_succ, Nat.zero_add]

theorem pairs_count_enum (g : AdjacencyList) (a : ℕ) (b : NI) (ha : a < g.length) :
    ((g.enum.map (fun p => p.2.map (fun t => (p.1, t)))).flatten).count (a, b) =
      (idx [] g (a : ℤ)).count b := by
  have h := pairs_count_enumFrom a b g 0 (by omega) (by omega)
  rw [show List.enumFrom 0 g = g.enum from rfl] at h
  rw [h, Nat.sub_zero]

theorem setIdx_oob {α : Type} (l : List α) (i : ℤ) (a : α)
    (h : ¬(0 ≤ i ∧ i.toNat < l.length)) : setIdx l i a = l := by
  unfold setIdx
  exact if_neg h

theorem count_addArc (g : AdjacencyList) (u : ℤ) (v : NI) (w : ℤ) (x : NI)
    (h0 : 0 ≤ u) (h1 : u.toNat < g.length) :
    (idx [] (addArc g u v) w).count x =
      (idx [] g w).count x + (if w = u ∧ v = x then 1 else 0) := by
  unfold addArc
  by_cases hw : w = u
  · rw [hw, idx_setIdx_self [] g u (idx [] g u ++ [v]) h0 h1, count_snocZ]
    by_cases hvx : v = x
    · rw [if_pos hvx, if_pos ⟨rfl, hvx⟩]
    · rw [if_neg hvx, if_neg (fun hc => hvx hc.2)]
  · rw [idx_setIdx_ne [] g u w (idx [] g u ++ [v]) hw,
      if_neg (fun hc => hw hc.1)]
    rfl

theorem mem_addArc {g : AdjacencyList} {u : ℤ} {v : NI} {w : ℤ} {x : NI}
    (hx : x ∈ idx [] (addArc g u v) w) : x ∈ idx [] g w ∨ x = v := by
  unfold addArc at hx
  by_cases hw : w = u
  · rw [hw] at hx
    by_cases hu : 0 ≤ u ∧ u.toNat < g.length
    · rw [idx_setIdx_self [] g u (idx [] g u ++ [v]) hu.1 hu.2] at hx
      rw [List.mem_append] at hx
      rcases hx with h | h
      · left
        rw [hw]
        exact h
      · right
        simpa using h
    · rw [setIdx_oob g u (idx [] g u ++ [v]) hu] at hx
      left
      rw [hw]
      exact hx
  · rw [idx_setIdx_ne [] g u w (idx [] g u ++ [v]) hw] at hx
    left
    exact hx

/-- Symmetry invariant for the spec-modelled `Undirected` output: in-range
arcs only, and the number of `a`-to-`b` arcs equals the number of
`b`-to-`a` arcs for every non-loop pair. -/
def SymGraph (n : ℕ) (g : AdjacencyList) : Prop :=
  g.length = n ∧
  (∀ a : ℕ, a < n → ∀ x ∈ idx [] g (a : ℤ), 0 ≤ x ∧ x.toNat < n) ∧
  (∀ (a : ℕ) (b : ℤ), a < n → 0 ≤ b → b.toNat < n → (a : ℤ) ≠ b →
    (idx [] g (a : ℤ)).count b = (idx [] g b).count ((a : ℕ) : ℤ))

theorem symGraph_addLoop (n : ℕ) (g : AdjacencyList) (hS : SymGraph n g)
    (c : ℕ) (hc : c < n) : SymGraph n (addArc g (c : ℤ) (c : ℤ)) := by
  obtain ⟨hlen, hmem, hcnt⟩ := hS
  have hc1 : ((c : ℕ) : ℤ).toNat < g.length := by
    rw [hlen]
    simpa using hc
  refine ⟨by unfold addArc; rw [setIdx_length]; exact hlen, ?_, ?_⟩
  · intro a ha x hx
    rcases mem_addArc hx with hx1 | hx1
    · exact hmem a ha x hx1
    · subst hx1
      exact ⟨by positivity, by simpa using hc⟩
  · intro a b ha hb0 hb1 hab
    rw [count_addArc g (c : ℤ) (c : ℤ) ((a : ℕ) : ℤ) b (by positivity) hc1,
      count_addArc g (c : ℤ) (c : ℤ) b ((a : ℕ) : ℤ) (by positivity) hc1,
      hcnt a b ha hb0 hb1 hab,
      if_neg (fun h => hab (h.1.trans h.2)),
      if_neg (fun h => hab (h.2.symm.trans h.1.symm))]

theorem symGraph_addArc2 (n : ℕ) (g : AdjacencyList) (hS : SymGraph n g)
    (c : ℕ) (p : ℤ) (hc : c < n) (hp0 : 0 ≤ p) (hp1 : p.toNat < n)
    (hne : ((c : ℕ) : ℤ) ≠ p) :
    SymGraph n (addArc (addArc g ((c : ℕ) : ℤ) p) p ((c : ℕ) : ℤ)) := by
  obtain ⟨hlen, hmem, hcnt⟩ := hS
  have hc1 : ((c : ℕ) : ℤ).toNat < g.length := by
    rw [hlen]
    simpa using hc
  have hlen1 : (addArc g ((c : ℕ) : ℤ) p).length = n := by
    unfold addArc
    rw [setIdx_length]
    exact hlen
  have hp1' : p.toNat < (addArc g ((c : ℕ) : ℤ) p).length := by
    rw [hlen1]
    exact hp1
  refine ⟨by unfold addArc; rw [setIdx_length, setIdx_length]; exact hlen, ?_, ?_⟩
  · intro a ha x hx
    rcases mem_addArc hx with hx1 | hx1
    · rcases mem_addArc hx1 with hx2 | hx2
      · exact hmem a ha x hx2
      · subst hx2
        exact ⟨hp0, hp1⟩
    · subst hx1
      exact ⟨by positivity, by simpa using hc⟩
  · intro a b ha hb0 hb1 hab
    rw [count_addArc (addArc g ((c : ℕ) : ℤ) p) p ((c : ℕ) : ℤ) ((a : ℕ) : ℤ) b
        hp0 hp1',
      count_addArc g ((c : ℕ) : ℤ) p ((a : ℕ) : ℤ) b (by positivity) hc1,
      count_addArc (addArc g ((c : ℕ) : ℤ) p) p ((c : ℕ) : ℤ) b ((a : ℕ) : ℤ)
        hp0 hp1',
      count_addArc g ((c : ℕ) : ℤ) p b ((a : ℕ) : ℤ) (by positivity) hc1]
    have e1 : (((a : ℕ) : ℤ) = ((c : ℕ) : ℤ) ∧ p = b) ↔
        (b = p ∧ ((c : ℕ) : ℤ) = ((a : ℕ) : ℤ)) :=
      ⟨fun h => ⟨h.2.symm, h.1.symm⟩, fun h => ⟨h.2.symm, h.1.symm⟩⟩
    have e2 : (((a : ℕ) : ℤ) = p ∧ ((c : ℕ) : ℤ) = b) ↔
        (b = ((c : ℕ) : ℤ) ∧ p = ((a : ℕ) : ℤ)) :=
      ⟨fun h => ⟨h.2.symm, h.1.symm⟩, fun h => ⟨h.2.symm, h.1.symm⟩⟩
    rw [hcnt a b ha hb0 hb1 hab, if_congr e1 rfl rfl, if_congr e2 rfl rfl,
      Nat.add_right_comm]

theorem symGraph_replicate (n : ℕ) :
    SymGraph n (List.replicate n ([] : List NI)) := by
  refine ⟨by simp, ?_, ?_⟩
  · intro a ha x hx
    rw [idx_replicate [] [] n ((a : ℕ) : ℤ) (by positivity) (by simpa using ha)]
      at hx
    exact absurd hx (List.not_mem_nil x)
  · intro a b ha hb0 hb1 hab
    rw [idx_replicate [] [] n ((a : ℕ) : ℤ) (by positivity) (by simpa using ha),
      idx_replicate [] [] n b hb0 (by simpa using hb1)]
    simp

theorem undirected_sym (f : FromList)
    (hb : ∀ i ∈ List.range f.Paths.length,
      (idx pzero f.Paths ((i : ℕ) : ℤ)).From = -1 ∨
      (0 ≤ (idx pzero f.Paths ((i : ℕ) : ℤ)).From ∧
        (idx pzero f.Paths ((i : ℕ) : ℤ)).From.toNat < f.Paths.length)) :
    SymGraph f.Paths.length f.Undirected := by
  unfold FromList.Undirected
  suffices h : ∀ (L : List ℕ) (g : AdjacencyList),
      SymGraph f.Paths.length g →
      (∀ i ∈ L, i < f.Paths.length) →
      SymGraph f.Paths.length
        (L.foldl
          (fun g (n : ℕ) =>
            if (idx pzero f.Paths (n : ℤ)).From = (n : ℤ) then
              addArc g (n : ℤ) (n : ℤ)
            else if 0 ≤ (idx pzero f.Paths (n : ℤ)).From then
              addArc (addArc g (n : ℤ) (idx pzero f.Paths (n : ℤ)).From)
                (idx pzero f.Paths (n : ℤ)).From (n : ℤ)
            else g) g) by
    exact h (List.range f.Paths.length) (List.replicate f.Paths.length [])
      (symGraph_replicate f.Paths.length)
      (fun i hi => List.mem_range.mp hi)
  intro L
  induction L with
  | nil =>
    intro g hS _
    exact hS
  | cons m L ih =>
    intro g hS hL
    rw [List.foldl_cons]
    apply ih
    · have hm := hL m (List.mem_cons_self m L)
      by_cases h1 : (idx pzero f.Paths ((m : ℕ) : ℤ)).From = ((m : ℕ) : ℤ)
      · rw [if_pos h1]
        exact symGraph_addLoop f.Paths.length g hS m hm
      · rw [if_neg h1]
        by_cases h2 : 0 ≤ (idx pzero f.Paths ((m : ℕ) : ℤ)).From
        · rw [if_pos h2]
          rcases hb m (List.mem_range.mpr hm) with hroot | hok
          · rw [hroot] at h2
            norm_num at h2
          · exact symGraph_addArc2 f.Paths.length g hS m
              (idx pzero f.Paths ((m : ℕ) : ℤ)).From hm h2 hok.2
              (fun he => h1 he.symm)
        · rw [if_neg h2]
          exact hS
    · intro i hi
      exact hL i (List.mem_cons_of_mem m hi)

theorem mem_enumFrom_idx {α : Type} (d : α) :
    ∀ (l : List α) (off : ℕ) (q : ℕ × α), q ∈ List.enumFrom off l →
      off ≤ q.1 ∧ q.1 - off < l.length ∧ q.2 = idx d l ((q.1 - off : ℕ) : ℤ) := by
  intro l
  induction l with
  | nil =>
    intro off q hq
    exact absurd hq (List.not_mem_nil q)
  | cons x l ih =>
    intro off q hq
    rw [show List.enumFrom off (x :: l) = (off, x) :: List.enumFrom (off + 1) l
      from rfl] at hq
    rcases List.mem_cons.mp hq with h | h
    · subst h
      refine ⟨le_refl off, by simp, ?_⟩
      rw [show ((off - off : ℕ) : ℤ) = ((0 : ℕ) : ℤ) from by omega, idx_cons_zero]
    · obtain ⟨h1, h2, h3⟩ := ih (off + 1) q h
      refine ⟨by omega, by simp; omega, ?_⟩
      rw [show ((q.1 - off : ℕ) : ℤ) = ((q.1 - (off + 1) + 1 : ℕ) : ℤ) from by omega,
        idx_cons_succ]
      exact h3

/-- C8: on bound-consistent parent forests, `Undirected` builds a graph
that `IsUndirected` certifies — every non-loop arc is created together
with its reciprocal, and the pairing scan cancels them all. -/
theorem undirected_isUndirected (f : FromList)
    (hb : ∀ i ∈ List.range f.Paths.length,
      (idx pzero f.Paths ((i : ℕ) : ℤ)).From = -1 ∨
      (0 ≤ (idx pzero f.Paths ((i : ℕ) : ℤ)).From ∧
        (idx pzero f.Paths ((i : ℕ) : ℤ)).From.toNat < f.Paths.length)) :
    (AdjacencyList.IsUndirected f.Undirected).1 = true := by
  obtain ⟨hlen, hmem, hcnt⟩ := undirected_sym f hb
  set G := f.Undirected with hG
  set A := ((G.enum.map (fun p => p.2.map (fun t => (p.1, t)))).flatten) with hA
  set U := A.foldl (fun u2 q => isUndirArc u2 q.1 q.2)
    (List.replicate G.length ([] : List NI)) with hU
  have hval : ∀ q ∈ A, q.1 < G.length ∧ 0 ≤ q.2 ∧ q.2.toNat < G.length := by
    intro q hq
    rw [hA, List.mem_flatten] at hq
    obtain ⟨m, hm, hqm⟩ := hq
    rw [List.mem_map] at hm
    obtain ⟨p, hp, rfl⟩ := hm
    rw [List.mem_map] at hqm
    obtain ⟨t, ht, rfl⟩ := hqm
    rw [show G.enum = List.enumFrom 0 G from rfl] at hp
    obtain ⟨-, hp1, hp2⟩ := mem_enumFrom_idx ([] : List NI) G 0 p hp
    rw [Nat.sub_zero] at hp1 hp2
    rw [hp2] at ht
    have hbt := hmem p.1 (by omega) t ht
    exact ⟨hp1, hbt.1, by omega⟩
  have hbase : UnpInv G.length [] (List.replicate G.length ([] : List NI)) := by
    refine ⟨by simp, ?_, ?_⟩
    · intro a ha x hx
      rw [idx_replicate [] [] G.length ((a : ℕ) : ℤ) (by positivity)
        (by simpa using ha)] at hx
      exact absurd hx (List.not_mem_nil x)
    · intro a b ha hb0 hb1 hab
      rw [idx_replicate [] [] G.length ((a : ℕ) : ℤ) (by positivity)
        (by simpa using ha)]
      simp
  have hfold := unpInv_fold G.length A []
    (List.replicate G.length ([] : List NI)) hbase hval
  rw [List.nil_append] at hfold
  rw [← hU] at hfold
  have hempty : ∀ j : ℕ, j < G.length → idx [] U ((j : ℕ) : ℤ) = [] := by
    intro j hj
    cases hcase : idx [] U ((j : ℕ) : ℤ) with
    | nil => rfl
    | cons x m' =>
      exfalso
      have hx : x ∈ idx [] U ((j : ℕ) : ℤ) := by
        rw [hcase]
        exact List.mem_cons_self x m'
      obtain ⟨hx0, hx1, hxj⟩ := hfold.2.1 j hj x hx
      have hcnt0 := hfold.2.2 j x hj hx0 hx1 (fun he => hxj he.symm)
      have h1 := pairs_count_enum G j x hj
      have h2 := pairs_count_enum G x.toNat ((j : ℕ) : ℤ) hx1
      rw [← hA] at h1 h2
      have htc : ((x.toNat : ℕ) : ℤ) = x := Int.toNat_of_nonneg hx0
      rw [htc] at h2
      have hsym := hcnt j x (by omega) hx0 (by omega) (fun he => hxj he.symm)
      have heq : A.count ((j : ℕ), x) = A.count (x.toNat, ((j : ℕ) : ℤ)) := by
        rw [h1, h2, hsym]
      rw [heq] at hcnt0
      simp at hcnt0
      have hnm := List.count_eq_zero.mp hcnt0
      exact hnm hx
  have hfind : U.enum.find? (fun q => decide (q.2 ≠ [])) = none := by
    rw [List.find?_eq_none]
    intro q hq
    rw [show U.enum = List.enumFrom 0 U from rfl] at hq
    obtain ⟨-, hq1, hq2⟩ := mem_enumFrom_idx ([] : List NI) U 0 q hq
    rw [Nat.sub_zero] at hq1 hq2
    have hUlen : U.length = G.length := hfold.1
    have hq3 : q.2 = [] := by
      rw [hq2]
      exact hempty q.1 (by omega)
    simp [hq3]
  have hfin : AdjacencyList.IsUndirected G = (true, -1, -1) := by
    simp only [AdjacencyList.IsUndirected]
    rw [isUndir_fold_flat, ← hA, ← hU, hfind]
  rw [hfin]

/-- Four-node forest with two trees used as the `Undirected` witness. -/
def undirForest : FromList := ⟨[⟨-1, 0⟩, ⟨0, 0⟩, ⟨0, 0⟩, ⟨-1, 0⟩], [], 0⟩

/-- Witness for C8: the documented example forest satisfies the bounds
hypothesis, and its undirected graph passes `IsUndirected`. -/
theorem undirected_isUndirected_witness :
    (∀ i ∈ List.range undirForest.Paths.length,
      (idx pzero undirForest.Paths ((i : ℕ) : ℤ)).From = -1 ∨
      (0 ≤ (idx pzero undirForest.Paths ((i : ℕ) : ℤ)).From ∧
        (idx pzero undirForest.Paths ((i : ℕ) : ℤ)).From.toNat <
          undirForest.Paths.length)) ∧
    (AdjacencyList.IsUndirected undirForest.Undirected).1 = true :=
  ⟨by decide, undirected_isUndirected undirForest (by decide)⟩

end Graph
